import Mathlib

/-!
# Implicit-free-list allocator (`src/mm.c`, `src/CSAPP.c`): embedding and verification

The allocator of `src/mm.c` is embedded as pure functions over an explicit
heap state; the functions of the variant `src/CSAPP.c` are embedded over the
same macros, in the namespace `CSAPP`.

* Memory is byte addressed (`Mem = Nat → Nat`, a byte is the stored value
  modulo 256).  `GET`/`PUT` read and write the 4-byte little-endian
  `unsigned int` word of the C macros.
* `size_t` arithmetic is taken modulo `2 ^ W`, where `W` is the width of
  `size_t` (32 on ILP32, 64 on LP64); `unsigned int` is 32 bits wide.
* Addresses are natural numbers, `NULL` is `0`; a subtraction from an address
  stops at 0.
* The only loop (`find_fit`) takes a fuel argument and returns `none` when
  the fuel runs out before the scan has finished.
-/

namespace MM

/-! ## Memory and the word macros -/

/-- Byte-addressed memory. -/
abbrev Mem := Nat → Nat

/-- The allocator state: memory, the break and limit kept by the heap
extension primitive, and the global `heap_listp`. -/
structure Heap where
  mem : Mem
  mem_brk : Nat
  mem_max_addr : Nat
  heap_listp : Nat

abbrev NULL : Nat := 0
abbrev WSIZE : Nat := 4
abbrev DSIZE : Nat := 8
abbrev CHUNKSIZE : Nat := 4096

/-- The macro `MAX(x, y)`. -/
def MAX (x y : Nat) : Nat := if x > y then x else y

/-- The macro `PACK(size, alloc)`. -/
def PACK (size alloc : Nat) : Nat := size ||| alloc

/-- The macro `GET(p)`: the `unsigned int` stored at `p` (little endian). -/
def GET (m : Mem) (p : Nat) : Nat :=
  m p % 256 + 256 * (m (p + 1) % 256) + 65536 * (m (p + 2) % 256)
    + 16777216 * (m (p + 3) % 256)

/-- The macro `PUT(p, val)`: store `val` converted to `unsigned int` at `p`. -/
def PUT (m : Mem) (p val : Nat) : Mem := fun a =>
  if a = p then val % 256
  else if a = p + 1 then val / 256 % 256
  else if a = p + 2 then val / 65536 % 256
  else if a = p + 3 then val / 16777216 % 256
  else m a

/-- The macro `GET_SIZE(p)`: `GET(p) & ~0x7` in `unsigned int`. -/
def GET_SIZE (m : Mem) (p : Nat) : Nat := GET m p &&& 0xFFFFFFF8

/-- The macro `GET_ALLOC(p)`: `GET(p) & 0x1`. -/
def GET_ALLOC (m : Mem) (p : Nat) : Nat := GET m p &&& 1

/-- The macro `HDRP(bp)`. -/
def HDRP (bp : Nat) : Nat := bp - WSIZE

/-- The macro `FTRP(bp)`. -/
def FTRP (m : Mem) (bp : Nat) : Nat := bp + GET_SIZE m (HDRP bp) - DSIZE

/-- The macro `NEXT_BLKP(bp)`. -/
def NEXT_BLKP (m : Mem) (bp : Nat) : Nat := bp + GET_SIZE m (bp - WSIZE)

/-- The macro `PREV_BLKP(bp)`. -/
def PREV_BLKP (m : Mem) (bp : Nat) : Nat := bp - GET_SIZE m (bp - DSIZE)

/-- Modelled from the spec: the heap-extension collaborator `mem_sbrk`
(`memlib.c` is not among the sources).  It grants the `incr` bytes that
follow the current break, or reports exhaustion and changes nothing. -/
def mem_sbrk (s : Heap) (incr : Nat) : Option (Heap × Nat) :=
  if s.mem_brk + incr ≤ s.mem_max_addr then
    some ({ s with mem_brk := s.mem_brk + incr }, s.mem_brk)
  else none

/-- The C library `memcpy(dst, src, n)`: bytes copied in ascending order. -/
def memcpy (m : Mem) (dst src : Nat) : Nat → Mem
  | 0 => m
  | n + 1 => fun a =>
      if a = dst + n then memcpy m dst src n (src + n) else memcpy m dst src n a

/-! ## The allocator (`src/mm.c`) -/

/-- The function `coalesce` of `src/mm.c`. -/
def coalesce (W : Nat) (m : Mem) (bp : Nat) : Mem × Nat :=
  let prev_alloc : Bool :=
    GET_ALLOC m (FTRP m (PREV_BLKP m bp)) != 0 || PREV_BLKP m bp == bp
  let next_alloc : Bool := GET_ALLOC m (HDRP (NEXT_BLKP m bp)) != 0
  let size := GET_SIZE m (HDRP bp)
  if prev_alloc && next_alloc then
    (m, bp)
  else if prev_alloc && !next_alloc then
    let size := (size + GET_SIZE m (HDRP (NEXT_BLKP m bp))) % 2 ^ W
    let m1 := PUT m (HDRP bp) (PACK size 0)
    let m2 := PUT m1 (FTRP m1 bp) (PACK size 0)
    (m2, bp)
  else if !prev_alloc && next_alloc then
    let size := (size + GET_SIZE m (HDRP (PREV_BLKP m bp))) % 2 ^ W
    let m1 := PUT m (FTRP m bp) (PACK size 0)
    let m2 := PUT m1 (HDRP (PREV_BLKP m1 bp)) (PACK size 0)
    (m2, PREV_BLKP m2 bp)
  else
    let size := (size + (GET_SIZE m (HDRP (PREV_BLKP m bp))
      + GET_SIZE m (FTRP m (NEXT_BLKP m bp))) % 2 ^ 32) % 2 ^ W
    let m1 := PUT m (HDRP (PREV_BLKP m bp)) (PACK size 0)
    let m2 := PUT m1 (FTRP m1 (NEXT_BLKP m1 bp)) (PACK size 0)
    (m2, PREV_BLKP m2 bp)

/-- The byte count `size` that `extend_heap(words)` asks of `mem_sbrk`. -/
def extend_size (W : Nat) (words : Nat) : Nat :=
  if words % 2 != 0 then ((words + 1) * WSIZE) % 2 ^ W else (words * WSIZE) % 2 ^ W

/-- The function `extend_heap` of `src/mm.c`; the result `NULL` reports
exhaustion. -/
def extend_heap (W : Nat) (s : Heap) (words : Nat) : Heap × Nat :=
  let size := extend_size W words
  match mem_sbrk s size with
  | none => (s, NULL)
  | some (s1, bp) =>
    let m1 := PUT s1.mem (HDRP bp) (PACK size 0)
    let m2 := PUT m1 (FTRP m1 bp) (PACK size 0)
    let m3 := PUT m2 (HDRP (NEXT_BLKP m2 bp)) (PACK 0 1)
    let r := coalesce W m3 bp
    ({ s1 with mem := r.1 }, r.2)

/-- The function `mm_init` of `src/mm.c`; the second component is the
returned `int`.  On failure `heap_listp` holds `(void *)-1`. -/
def mm_init (W : Nat) (s : Heap) : Heap × Int :=
  match mem_sbrk s (4 * WSIZE) with
  | none => ({ s with heap_listp := 2 ^ W - 1 }, -1)
  | some (s1, p) =>
    let m1 := PUT s1.mem p 0
    let m2 := PUT m1 (p + 1 * WSIZE) (PACK DSIZE 1)
    let m3 := PUT m2 (p + 2 * WSIZE) (PACK DSIZE 1)
    let m4 := PUT m3 (p + 3 * WSIZE) (PACK 0 1)
    let s2 : Heap := { s1 with mem := m4, heap_listp := p + 2 * WSIZE }
    let r := extend_heap W s2 (CHUNKSIZE / WSIZE)
    if r.2 = NULL then (r.1, -1) else (r.1, 0)

/-- The adjusted block size computed by `mm_malloc` and `mm_realloc`. -/
def adjust (W : Nat) (size : Nat) : Nat :=
  if size ≤ DSIZE then 2 * DSIZE
  else (DSIZE * ((size + DSIZE + (DSIZE - 1)) % 2 ^ W / DSIZE)) % 2 ^ W

/-- The loop of `find_fit`, started at `bp`; `none` when the fuel runs out. -/
def find_fit_loop (m : Mem) (asize : Nat) : Nat → Nat → Option Nat
  | 0, _ => none
  | fuel + 1, bp =>
    if GET_SIZE m (HDRP bp) > 0 then
      if GET_ALLOC m (HDRP bp) = 0 && GET_SIZE m (HDRP bp) ≥ asize then some bp
      else find_fit_loop m asize fuel (NEXT_BLKP m bp)
    else some NULL

/-- The function `find_fit` of `src/mm.c`. -/
def find_fit (fuel : Nat) (s : Heap) (asize : Nat) : Option Nat :=
  find_fit_loop s.mem asize fuel s.heap_listp

/-- The function `place` of `src/mm.c`. -/
def place (W : Nat) (m : Mem) (bp asize : Nat) : Mem :=
  let csize := GET_SIZE m (HDRP bp)
  if (csize + 2 ^ W - asize) % 2 ^ W ≥ 2 * DSIZE then
    let m1 := PUT m (HDRP bp) (PACK asize 1)
    let m2 := PUT m1 (FTRP m1 bp) (PACK asize 1)
    let bp1 := NEXT_BLKP m2 bp
    let m3 := PUT m2 (HDRP bp1) (PACK ((csize + 2 ^ W - asize) % 2 ^ W) 0)
    PUT m3 (FTRP m3 bp1) (PACK ((csize + 2 ^ W - asize) % 2 ^ W) 0)
  else
    let m1 := PUT m (HDRP bp) (PACK csize 1)
    PUT m1 (FTRP m1 bp) (PACK csize 1)

/-- The function `mm_malloc` of `src/mm.c`. -/
def mm_malloc (W : Nat) (fuel : Nat) (s : Heap) (size : Nat) : Option (Heap × Nat) :=
  if size = 0 then some (s, NULL)
  else
    let asize := adjust W size
    match find_fit fuel s asize with
    | none => none
    | some bp =>
      if bp ≠ NULL then
        some ({ s with mem := place W s.mem bp asize }, bp)
      else
        let extendsize := MAX asize CHUNKSIZE
        let r := extend_heap W s (extendsize / WSIZE)
        if r.2 = NULL then some (r.1, NULL)
        else some ({ r.1 with mem := place W r.1.mem r.2 asize }, r.2)

/-- The function `mm_free` of `src/mm.c`. -/
def mm_free (W : Nat) (s : Heap) (bp : Nat) : Heap :=
  if bp = NULL then s
  else
    let size := GET_SIZE s.mem (HDRP bp)
    let m1 := PUT s.mem (HDRP bp) (PACK size 0)
    let m2 := PUT m1 (FTRP m1 bp) (PACK size 0)
    { s with mem := (coalesce W m2 bp).1 }

/-- The function `mm_realloc` of `src/mm.c`. -/
def mm_realloc (W : Nat) (fuel : Nat) (s : Heap) (ptr size : Nat) : Option (Heap × Nat) :=
  if ptr = NULL then mm_malloc W fuel s size
  else if size = 0 then some (mm_free W s ptr, NULL)
  else
    let asize := adjust W size
    let oldsize := GET_SIZE s.mem (HDRP ptr)
    if asize ≤ oldsize then some (s, ptr)
    else
      let next_alloc : Bool := GET_ALLOC s.mem (HDRP (NEXT_BLKP s.mem ptr)) != 0
      let csize := (oldsize + GET_SIZE s.mem (HDRP (NEXT_BLKP s.mem ptr))) % 2 ^ W
      if !next_alloc && csize ≥ asize then
        let m1 := PUT s.mem (HDRP ptr) (PACK csize 1)
        let m2 := PUT m1 (FTRP m1 ptr) (PACK csize 1)
        some ({ s with mem := m2 }, ptr)
      else
        match mm_malloc W fuel s size with
        | none => none
        | some (s1, newptr) =>
          if newptr = NULL then some (s1, NULL)
          else
            let copySize := (oldsize + 2 ^ W - DSIZE) % 2 ^ W
            let copySize := if size < copySize then size else copySize
            let s2 : Heap := { s1 with mem := memcpy s1.mem newptr ptr copySize }
            some (mm_free W s2 ptr, newptr)

/-! ## Reachable states -/

/-- States reachable from a successful `mm_init` on the arena `s0` by public
calls, with the list of live pointers (returned and not yet freed).
`mm_free` and `mm_realloc` are applied to live pointers only; request sizes
range over all of `size_t`. -/
inductive Reach (W : Nat) (s0 : Heap) : Heap → List Nat → Prop
  | init : ∀ s, mm_init W s0 = (s, 0) → Reach W s0 s []
  | malloc : ∀ s L fuel size s1 p, Reach W s0 s L → size < 2 ^ W →
      mm_malloc W fuel s size = some (s1, p) →
      Reach W s0 s1 (if p = NULL then L else p :: L)
  | free : ∀ s L p, Reach W s0 s L → p ∈ L → Reach W s0 (mm_free W s p) (L.erase p)
  | realloc : ∀ s L fuel p size s1 q, Reach W s0 s L → p ∈ L → size < 2 ^ W →
      mm_realloc W fuel s p size = some (s1, q) →
      Reach W s0 s1
        (if size = 0 then L.erase p else if q = NULL then L else q :: L.erase p)

/-! ## Concrete runs -/

/-- A fresh arena: zeroed memory from address `4096`, room for `limit` bytes. -/
def arena (limit : Nat) : Heap :=
  { mem := fun _ => 0, mem_brk := 4096, mem_max_addr := 4096 + limit, heap_listp := 0 }

/-- The heap right after `mm_init` on a fresh arena. -/
def heap0 (W limit : Nat) : Heap := (mm_init W (arena limit)).1

/-- The heap after `mm_init(); mm_malloc(4000)` on an arena with room for
exactly the initial 16 + 4096 bytes: the block at 4112 is live and no
further extension is possible. -/
def full_heap : Heap :=
  ((mm_malloc 32 100 (heap0 32 4112) 4000).map Prod.fst).getD (heap0 32 4112)

/-- The blocks met by following `NEXT_BLKP` from `bp` until a header of
size 0: each as (block pointer, size, allocated bit, footer word). -/
def walk (m : Mem) : Nat → Nat → List (Nat × Nat × Nat × Nat)
  | 0, _ => []
  | fuel + 1, bp =>
    if GET_SIZE m (HDRP bp) > 0 then
      (bp, GET_SIZE m (HDRP bp), GET_ALLOC m (HDRP bp), GET m (FTRP m bp))
        :: walk m fuel (NEXT_BLKP m bp)
    else []

/-- The run `mm_init(); p = mm_malloc(SIZE_MAX - 14)`: the final heap and `p`. -/
def run_huge_malloc (W : Nat) : Option (Heap × Nat) :=
  mm_malloc W 100 (heap0 W 65536) (2 ^ W - 15)

/-- The run `mm_init(); a = mm_malloc(8); p = mm_malloc(SIZE_MAX - 14);
q = mm_realloc(a, 100)`: the final heap, `q` and `p`. -/
def run_overlap (W : Nat) : Option (Heap × Nat × Nat) :=
  (mm_malloc W 100 (heap0 W 65536) 8).bind fun r1 =>
  (mm_malloc W 100 r1.1 (2 ^ W - 15)).bind fun r2 =>
  (mm_realloc W 100 r2.1 r1.2 100).map fun r3 => (r3.1, r3.2, r2.2)

/-- The run `mm_init(); a = mm_malloc(8); p = mm_malloc(SIZE_MAX - 14);
mm_free(a); mm_free(p)`: the final heap. -/
def run_lost_epilogue (W : Nat) : Option Heap :=
  (mm_malloc W 100 (heap0 W 65536) 8).bind fun r1 =>
  (mm_malloc W 100 r1.1 (2 ^ W - 15)).map fun r2 =>
  mm_free W (mm_free W r2.1 r1.2) r2.2

/-- The run `mm_init(); a = mm_malloc(4000); p = mm_malloc(SIZE_MAX - 14);
mm_free(a); q = mm_realloc(p, 100); r = mm_malloc(4080)`: the final heap
and `r`. -/
def run_adjacent_free (W : Nat) : Option (Heap × Nat) :=
  (mm_malloc W 100 (heap0 W 65536) 4000).bind fun r1 =>
  (mm_malloc W 100 r1.1 (2 ^ W - 15)).bind fun r2 =>
  (mm_realloc W 100 (mm_free W r2.1 r1.2) r2.2 100).bind fun r3 =>
  mm_malloc W 100 r3.1 4080

/-! ## Well-formed heaps -/

/-- The header/footer word of a block `(size, allocated)`. -/
def tag (b : Nat × Bool) : Nat := b.1 + (if b.2 then 1 else 0)

/-- The total size of a list of blocks. -/
def total : List (Nat × Bool) → Nat
  | [] => 0
  | b :: bs => b.1 + total bs

/-- The blocks `bs`, in address order, fill the memory between the block
pointers `bp` and `e`: each has a size that is a positive multiple of 8 and
carries its tag in its header and in its footer. -/
def Chain (m : Mem) : Nat → List (Nat × Bool) → Nat → Prop
  | bp, [], e => bp = e
  | bp, b :: bs, e =>
    8 ≤ b.1 ∧ b.1 % 8 = 0 ∧ GET m (bp - 4) = tag b ∧ GET m (bp + b.1 - 8) = tag b ∧
      Chain m (bp + b.1) bs e

/-- In the layout of `bs` from `bp`, the block `b` has block pointer `q`. -/
def BlockAt : Nat → List (Nat × Bool) → Nat → Nat × Bool → Prop
  | _, [], _, _ => False
  | bp, x :: xs, q, b => (q = bp ∧ b = x) ∨ BlockAt (bp + x.1) xs q b

/-- No two neighbouring blocks of the list are both free. -/
def NoAdjFree : List (Nat × Bool) → Prop
  | [] => True
  | [_] => True
  | a :: b :: r => (a.2 = true ∨ b.2 = true) ∧ NoAdjFree (b :: r)

/-- The blocks `full` (the prologue included) run from `heap_listp` to the
break, the word below the break is the epilogue header, the break is within
the arena, the arena is smaller than 4 GiB (so every size fits an
`unsigned int`), and no two neighbouring blocks are free. -/
def InvF (s : Heap) (full : List (Nat × Bool)) : Prop :=
  8 ≤ s.heap_listp ∧
  Chain s.mem s.heap_listp full s.mem_brk ∧
  GET s.mem (s.mem_brk - 4) = 1 ∧
  s.mem_brk ≤ s.mem_max_addr ∧
  s.mem_max_addr < s.heap_listp + 4294967296 ∧
  NoAdjFree full

/-- The heap invariant: the heap consists of the prologue block, the blocks
`bs` and the epilogue header (see `InvF`). -/
def Inv (s : Heap) (bs : List (Nat × Bool)) : Prop := InvF s ((8, true) :: bs)

instance Chain.decide (m : Mem) : (bp : Nat) → (bs : List (Nat × Bool)) → (e : Nat) →
    Decidable (Chain m bp bs e)
  | bp, [], e => inferInstanceAs (Decidable (bp = e))
  | bp, b :: bs, e =>
    have := Chain.decide m (bp + b.1) bs e
    inferInstanceAs (Decidable (8 ≤ b.1 ∧ b.1 % 8 = 0 ∧ GET m (bp - 4) = tag b ∧
      GET m (bp + b.1 - 8) = tag b ∧ Chain m (bp + b.1) bs e))

instance BlockAt.decide : (bp : Nat) → (bs : List (Nat × Bool)) → (q : Nat) →
    (b : Nat × Bool) → Decidable (BlockAt bp bs q b)
  | _, [], _, _ => inferInstanceAs (Decidable False)
  | bp, x :: xs, q, b =>
    have := BlockAt.decide (bp + x.1) xs q b
    inferInstanceAs (Decidable ((q = bp ∧ b = x) ∨ BlockAt (bp + x.1) xs q b))

instance NoAdjFree.decide : (bs : List (Nat × Bool)) → Decidable (NoAdjFree bs)
  | [] => inferInstanceAs (Decidable True)
  | [_] => inferInstanceAs (Decidable True)
  | a :: b :: r =>
    have := NoAdjFree.decide (b :: r)
    inferInstanceAs (Decidable ((a.2 = true ∨ b.2 = true) ∧ NoAdjFree (b :: r)))

instance InvF.decide (s : Heap) (full : List (Nat × Bool)) : Decidable (InvF s full) :=
  inferInstanceAs (Decidable (_ ∧ _ ∧ _ ∧ _ ∧ _ ∧ _))

instance Inv.decide (s : Heap) (bs : List (Nat × Bool)) : Decidable (Inv s bs) :=
  inferInstanceAs (Decidable (InvF s ((8, true) :: bs)))

/-- The first-fit choice over a block list laid out from `bp`: the pointer
of the first free block of size at least `asize`, or `NULL`. -/
def firstFit (asize : Nat) : Nat → List (Nat × Bool) → Nat
  | _, [] => NULL
  | bp, b :: bs => if b.2 = false ∧ asize ≤ b.1 then bp else firstFit asize (bp + b.1) bs

/-- The blocks that `place` leaves in a block of size `csize`. -/
def placeL (asize csize : Nat) : List (Nat × Bool) :=
  if 16 ≤ csize - asize then [(asize, true), (csize - asize, false)] else [(csize, true)]

/-- The size and the remaining blocks after a free block of size `sz`
absorbs a free successor. -/
def absorbNext (sz : Nat) : List (Nat × Bool) → Nat × List (Nat × Bool)
  | (n, false) :: r => (sz + n, r)
  | post => (sz, post)

/-- The block list after `coalesce` on the free block of size `sz` that
follows `X ++ [prev]` and precedes `post`. -/
def coalesceL (X : List (Nat × Bool)) (prev : Nat × Bool) (sz : Nat)
    (post : List (Nat × Bool)) : List (Nat × Bool) :=
  if prev.2 then X ++ prev :: ((absorbNext sz post).1, false) :: (absorbNext sz post).2
  else X ++ (prev.1 + (absorbNext sz post).1, false) :: (absorbNext sz post).2

/-- The heap that `mm_init` lays out before it calls `extend_heap`: padding
word, prologue header and footer, epilogue header. -/
def prologue_heap (s0 : Heap) : Heap :=
  { mem := PUT (PUT (PUT (PUT s0.mem s0.mem_brk 0) (s0.mem_brk + 1 * WSIZE) (PACK DSIZE 1))
      (s0.mem_brk + 2 * WSIZE) (PACK DSIZE 1)) (s0.mem_brk + 3 * WSIZE) (PACK 0 1),
    mem_brk := s0.mem_brk + 4 * WSIZE, mem_max_addr := s0.mem_max_addr,
    heap_listp := s0.mem_brk + 2 * WSIZE }

/-- The run `mm_init(); p1 = mm_malloc(100); p2 = mm_malloc(200); mm_free(p1)`:
the heap reached, `p1` and `p2`. -/
def run_reuse (W : Nat) : Option (Heap × Nat × Nat) :=
  (mm_malloc W 100 (heap0 W 65536) 100).bind fun r1 =>
  (mm_malloc W 100 r1.1 200).map fun r2 => (mm_free W r2.1 r1.2, r1.2, r2.2)

/-- The heap reached by `run_reuse` on a 32-bit `size_t`. -/
def heap_reuse : Heap := ((run_reuse 32).map fun r => r.1).getD (heap0 32 65536)

/-- The run `mm_init(); a = mm_malloc(16); b = mm_malloc(16)`: the heap
reached, `a` and `b`. -/
def run_pair (W : Nat) : Option (Heap × Nat × Nat) :=
  (mm_malloc W 100 (heap0 W 65536) 16).bind fun r1 =>
  (mm_malloc W 100 r1.1 16).map fun r2 => (r2.1, r1.2, r2.2)

/-- The heap reached by `run_pair` on a 32-bit `size_t`. -/
def heap_pair : Heap := ((run_pair 32).map fun r => r.1).getD (heap0 32 65536)

/-- The run `mm_init(); x = mm_malloc(16); a = mm_malloc(16); b = mm_malloc(16);
mm_free(x)`: the heap reached, `a` and `b`.  The block before `a` is free. -/
def run_pair_after_free (W : Nat) : Option (Heap × Nat × Nat) :=
  (mm_malloc W 100 (heap0 W 65536) 16).bind fun r0 =>
  (mm_malloc W 100 r0.1 16).bind fun r1 =>
  (mm_malloc W 100 r1.1 16).map fun r2 => (mm_free W r2.1 r0.2, r1.2, r2.2)

/-- An arena whose bytes hold a pattern (`a % 251` at address `a`), so that
payload contents can be told apart. -/
def arena_pattern : Heap :=
  { mem := fun a => a % 251, mem_brk := 4096, mem_max_addr := 4096 + 65536, heap_listp := 0 }

/-- The heap after `mm_init(); a = mm_malloc(16); b = mm_malloc(16)` on the
patterned arena: `a = 4112`, `b = 4136`, both blocks of size 24. -/
def heap_pattern : Heap :=
  (((mm_malloc 32 100 (mm_init 32 arena_pattern).1 16).bind fun r1 =>
    mm_malloc 32 100 r1.1 16).map fun r => r.1).getD arena_pattern

/-- States reachable from a successful `mm_init` on the arena `s0` by public
calls whose request sizes stay below the overflow threshold of the size
adjustment (`size + 15 < 2 ^ W`), with the live allocations as pairs
(pointer, requested size). -/
inductive ReachIn (W : Nat) (s0 : Heap) : Heap → List (Nat × Nat) → Prop
  | init : ∀ s, mm_init W s0 = (s, 0) → ReachIn W s0 s []
  | malloc : ∀ s L fuel size s1 p, ReachIn W s0 s L → size + 15 < 2 ^ W →
      mm_malloc W fuel s size = some (s1, p) →
      ReachIn W s0 s1 (if p = NULL then L else (p, size) :: L)
  | free : ∀ s L p n, ReachIn W s0 s L → (p, n) ∈ L →
      ReachIn W s0 (mm_free W s p) (L.filter fun x => x.1 != p)
  | realloc : ∀ s L fuel p n size s1 q, ReachIn W s0 s L → (p, n) ∈ L →
      size + 15 < 2 ^ W → mm_realloc W fuel s p size = some (s1, q) →
      ReachIn W s0 s1
        (if size = 0 then L.filter fun x => x.1 != p
         else if q = NULL then L else (q, size) :: L.filter fun x => x.1 != p)

/-- The heap is well formed with block list `bs`, and the live allocations
`L` are exactly its allocated blocks, each at least 8 bytes larger than the
size requested for it. -/
def LiveInv (s : Heap) (L : List (Nat × Nat)) (bs : List (Nat × Bool)) : Prop :=
  Inv s bs ∧ (L.map Prod.fst).Nodup ∧
  (∀ q, q ∈ L.map Prod.fst ↔ ∃ z, BlockAt (s.heap_listp + 8) bs q (z, true)) ∧
  (∀ q n z, (q, n) ∈ L → BlockAt (s.heap_listp + 8) bs q (z, true) → n + 8 ≤ z)

/-! ## The variant `src/CSAPP.c`

The macros of `src/CSAPP.c` are those of `src/mm.c`.  Its `coalesce` does not
test `PREV_BLKP(bp) == bp`, returns at once in the first case and reads the
next block's size from its header in the last case; its `mm_free` has no
null test; it has no `mm_realloc`. -/

namespace CSAPP

/-- The function `coalesce` of `src/CSAPP.c`. -/
def coalesce (W : Nat) (m : Mem) (bp : Nat) : Mem × Nat :=
  let prev_alloc : Bool := GET_ALLOC m (FTRP m (PREV_BLKP m bp)) != 0
  let next_alloc : Bool := GET_ALLOC m (HDRP (NEXT_BLKP m bp)) != 0
  let size := GET_SIZE m (HDRP bp)
  if prev_alloc && next_alloc then
    (m, bp)
  else if prev_alloc && !next_alloc then
    let size := (size + GET_SIZE m (HDRP (NEXT_BLKP m bp))) % 2 ^ W
    let m1 := PUT m (HDRP bp) (PACK size 0)
    let m2 := PUT m1 (FTRP m1 bp) (PACK size 0)
    (m2, bp)
  else if !prev_alloc && next_alloc then
    let size := (size + GET_SIZE m (HDRP (PREV_BLKP m bp))) % 2 ^ W
    let m1 := PUT m (FTRP m bp) (PACK size 0)
    let m2 := PUT m1 (HDRP (PREV_BLKP m1 bp)) (PACK size 0)
    (m2, PREV_BLKP m2 bp)
  else
    let size := (size + (GET_SIZE m (HDRP (PREV_BLKP m bp))
      + GET_SIZE m (HDRP (NEXT_BLKP m bp))) % 2 ^ 32) % 2 ^ W
    let m1 := PUT m (HDRP (PREV_BLKP m bp)) (PACK size 0)
    let m2 := PUT m1 (FTRP m1 (NEXT_BLKP m1 bp)) (PACK size 0)
    (m2, PREV_BLKP m2 bp)

/-- The function `extend_heap` of `src/CSAPP.c`. -/
def extend_heap (W : Nat) (s : Heap) (words : Nat) : Heap × Nat :=
  let size := if words % 2 != 0 then ((words + 1) * WSIZE) % 2 ^ W else (words * WSIZE) % 2 ^ W
  match mem_sbrk s size with
  | none => (s, NULL)
  | some (s1, bp) =>
    let m1 := PUT s1.mem (HDRP bp) (PACK size 0)
    let m2 := PUT m1 (FTRP m1 bp) (PACK size 0)
    let m3 := PUT m2 (HDRP (NEXT_BLKP m2 bp)) (PACK 0 1)
    let r := coalesce W m3 bp
    ({ s1 with mem := r.1 }, r.2)

/-- The loop of `find_fit` of `src/CSAPP.c`, started at `bp`. -/
def find_fit_loop (m : Mem) (asize : Nat) : Nat → Nat → Option Nat
  | 0, _ => none
  | fuel + 1, bp =>
    if GET_SIZE m (HDRP bp) > 0 then
      if GET_ALLOC m (HDRP bp) = 0 && asize ≤ GET_SIZE m (HDRP bp) then some bp
      else find_fit_loop m asize fuel (NEXT_BLKP m bp)
    else some NULL

/-- The function `find_fit` of `src/CSAPP.c`. -/
def find_fit (fuel : Nat) (s : Heap) (asize : Nat) : Option Nat :=
  find_fit_loop s.mem asize fuel s.heap_listp

/-- The function `place` of `src/CSAPP.c`. -/
def place (W : Nat) (m : Mem) (bp asize : Nat) : Mem :=
  let csize := GET_SIZE m (HDRP bp)
  if (csize + 2 ^ W - asize) % 2 ^ W ≥ 2 * DSIZE then
    let m1 := PUT m (HDRP bp) (PACK asize 1)
    let m2 := PUT m1 (FTRP m1 bp) (PACK asize 1)
    let bp1 := NEXT_BLKP m2 bp
    let m3 := PUT m2 (HDRP bp1) (PACK ((csize + 2 ^ W - asize) % 2 ^ W) 0)
    PUT m3 (FTRP m3 bp1) (PACK ((csize + 2 ^ W - asize) % 2 ^ W) 0)
  else
    let m1 := PUT m (HDRP bp) (PACK csize 1)
    PUT m1 (FTRP m1 bp) (PACK csize 1)

/-- The function `mm_malloc` of `src/CSAPP.c`. -/
def mm_malloc (W : Nat) (fuel : Nat) (s : Heap) (size : Nat) : Option (Heap × Nat) :=
  if size = 0 then some (s, NULL)
  else
    let asize :=
      if size ≤ DSIZE then 2 * DSIZE
      else (DSIZE * ((size + DSIZE + (DSIZE - 1)) % 2 ^ W / DSIZE)) % 2 ^ W
    match find_fit fuel s asize with
    | none => none
    | some bp =>
      if bp ≠ NULL then
        some ({ s with mem := place W s.mem bp asize }, bp)
      else
        let extendsize := MAX asize CHUNKSIZE
        let r := extend_heap W s (extendsize / WSIZE)
        if r.2 = NULL then some (r.1, NULL)
        else some ({ r.1 with mem := place W r.1.mem r.2 asize }, r.2)

/-- The function `mm_free` of `src/CSAPP.c`: no test for a null pointer. -/
def mm_free (W : Nat) (s : Heap) (bp : Nat) : Heap :=
  let size := GET_SIZE s.mem (HDRP bp)
  let m1 := PUT s.mem (HDRP bp) (PACK size 0)
  let m2 := PUT m1 (FTRP m1 bp) (PACK size 0)
  { s with mem := (coalesce W m2 bp).1 }

end CSAPP

/-! ## Further concrete runs -/

/-- A heap state whose every byte is `0xFF`. -/
def heap_ones : Heap :=
  { mem := fun _ => 255, mem_brk := 4096, mem_max_addr := 4096 + 65536, heap_listp := 0 }

/-- The run `mm_init(); q = mm_malloc(SIZE_MAX - 14); r = mm_malloc(8)`: the
heap before the last call, the heap after it, `q` and `r`. -/
def run_frame (W : Nat) : Option (Heap × Heap × Nat × Nat) :=
  (mm_malloc W 100 (heap0 W 65536) (2 ^ W - 15)).bind fun r1 =>
  (mm_malloc W 100 r1.1 8).map fun r2 => (r1.1, r2.1, r1.2, r2.2)

/-- The memory of `heap_pair` with the block at 4136 marked free, as `mm_free`
leaves it when it calls `coalesce`: blocks 4112 (24, allocated), 4136 (24,
free), 4160 (4048, free). -/
def mem_freed : Mem := PUT (PUT heap_pair.mem 4132 (PACK 24 0)) 4152 (PACK 24 0)

/-- The run `mm_init(); a = mm_malloc(16); x = mm_malloc(24); e = mm_malloc(8);
mm_free(x); p = mm_malloc(SIZE_MAX - 14); mm_free(a); q = mm_realloc(p, 32)`:
the heap before the last call, the heap after it, `p` and `q`. -/
def run_realloc_content (W : Nat) : Option (Heap × Heap × Nat × Nat) :=
  (mm_malloc W 100 (heap0 W 65536) 16).bind fun ra =>
  (mm_malloc W 100 ra.1 24).bind fun rx =>
  (mm_malloc W 100 rx.1 8).bind fun re =>
  (mm_malloc W 100 (mm_free W re.1 rx.2) (2 ^ W - 15)).bind fun rp =>
  (mm_realloc W 100 (mm_free W rp.1 ra.2) rp.2 32).map fun rq =>
    (mm_free W rp.1 ra.2, rq.1, rp.2, rq.2)

/-! # Theorems -/

/-! ## Words, masks and the break -/

theorem GET_lt (m : Mem) (p : Nat) : GET m p < 4294967296 := by
  unfold GET; omega

theorem and_mask_size (x : Nat) (h : x < 4294967296) : x &&& 0xFFFFFFF8 = x - x % 8 := by
  have e1 : (0xFFFFFFF8 : Nat) = 2 ^ 3 * (2 ^ 29 - 1) := by norm_num
  have e2 : x - x % 8 = 2 ^ 3 * (x >>> 3) := by
    rw [Nat.shiftRight_eq_div_pow]; norm_num; omega
  rw [e1, e2]
  apply Nat.eq_of_testBit_eq
  intro i
  rw [Nat.testBit_and, Nat.testBit_mul_pow_two, Nat.testBit_mul_pow_two,
    Nat.testBit_two_pow_sub_one, Nat.testBit_shiftRight]
  by_cases h3 : i ≥ 3
  · have e3 : 3 + (i - 3) = i := by omega
    rw [e3]
    by_cases h32 : i < 32
    · have : i - 3 < 29 := by omega
      simp [h3, this]
    · have hx : x < 2 ^ i :=
        lt_of_lt_of_le h (by
          have : (4294967296 : Nat) = 2 ^ 32 := by norm_num
          rw [this]; exact Nat.pow_le_pow_right (by norm_num) (by omega))
      simp [Nat.testBit_lt_two_pow hx]
  · simp [h3]

theorem GET_SIZE_eq (m : Mem) (p : Nat) : GET_SIZE m p = GET m p - GET m p % 8 := by
  unfold GET_SIZE; exact and_mask_size _ (GET_lt m p)

theorem GET_SIZE_mod8 (m : Mem) (p : Nat) : GET_SIZE m p % 8 = 0 := by
  rw [GET_SIZE_eq]; omega

theorem mod_pow_mod8 (W x : Nat) (hW : 3 ≤ W) : x % 2 ^ W % 8 = x % 8 := by
  have e : 2 ^ W = 8 * 2 ^ (W - 3) := by
    have : W = 3 + (W - 3) := by omega
    conv_lhs => rw [this, pow_add]
    norm_num
  rw [e]; exact Nat.mod_mul_right_mod x 8 (2 ^ (W - 3))

theorem extend_size_mod8 (W words : Nat) (hW : 3 ≤ W) : extend_size W words % 8 = 0 := by
  unfold extend_size
  split
  · rename_i h
    rw [mod_pow_mod8 W _ hW]
    simp [WSIZE] at h ⊢
    omega
  · rename_i h
    rw [mod_pow_mod8 W _ hW]
    simp [WSIZE] at h ⊢
    omega

theorem find_fit_loop_aligned (m : Mem) (asize : Nat) :
    ∀ fuel bp r, bp % 8 = 0 → find_fit_loop m asize fuel bp = some r → r % 8 = 0 := by
  intro fuel
  induction fuel with
  | zero => intro bp r _ h; simp [find_fit_loop] at h
  | succ n ih =>
    intro bp r hbp h
    simp only [find_fit_loop] at h
    split at h
    · split at h
      · simp at h; omega
      · refine ih (NEXT_BLKP m bp) r ?_ h
        have := GET_SIZE_mod8 m (bp - WSIZE)
        unfold NEXT_BLKP; omega
    · simp [NULL] at h; omega

theorem PREV_BLKP_aligned (m : Mem) (bp : Nat) (h : bp % 8 = 0) : PREV_BLKP m bp % 8 = 0 := by
  have := GET_SIZE_mod8 m (bp - DSIZE)
  unfold PREV_BLKP; omega

theorem coalesce_aligned (W : Nat) (m : Mem) (bp : Nat) (h : bp % 8 = 0) :
    (coalesce W m bp).2 % 8 = 0 := by
  unfold coalesce
  simp only
  split_ifs
  · exact h
  · exact h
  · exact PREV_BLKP_aligned _ _ h
  · exact PREV_BLKP_aligned _ _ h


theorem mem_sbrk_some (s : Heap) (incr : Nat) (s1 : Heap) (p : Nat)
    (h : mem_sbrk s incr = some (s1, p)) :
    p = s.mem_brk ∧ s1 = { s with mem_brk := s.mem_brk + incr } ∧
      s.mem_brk + incr ≤ s.mem_max_addr := by
  unfold mem_sbrk at h
  split at h
  · simp at h; rename_i h1; exact ⟨h.2.symm, h.1.symm, h1⟩
  · simp at h

theorem extend_heap_aligned (W : Nat) (s : Heap) (words : Nat) (hW : 3 ≤ W)
    (hb : s.mem_brk % 8 = 0) :
    (extend_heap W s words).1.mem_brk % 8 = 0 ∧
      (extend_heap W s words).1.heap_listp = s.heap_listp ∧
      (extend_heap W s words).2 % 8 = 0 := by
  unfold extend_heap
  simp only
  cases h : mem_sbrk s (extend_size W words) with
  | none => simp [hb]
  | some r =>
    obtain ⟨s1, p⟩ := r
    obtain ⟨hp, hs1, _⟩ := mem_sbrk_some _ _ _ _ h
    have := extend_size_mod8 W words hW
    subst hp; subst hs1
    simp only
    exact ⟨by omega, trivial, coalesce_aligned _ _ _ hb⟩

theorem mm_init_aligned (W : Nat) (s0 s : Heap) (hW : 3 ≤ W) (hb : s0.mem_brk % 8 = 0)
    (h : mm_init W s0 = (s, 0)) : s.heap_listp % 8 = 0 ∧ s.mem_brk % 8 = 0 := by
  unfold mm_init at h
  cases h1 : mem_sbrk s0 (4 * WSIZE) with
  | none => rw [h1] at h; simp at h
  | some r =>
    obtain ⟨s1, p⟩ := r
    rw [h1] at h
    obtain ⟨hp, hs1, _⟩ := mem_sbrk_some _ _ _ _ h1
    subst hp; subst hs1
    simp only at h
    split at h
    · simp at h
    · simp only [Prod.mk.injEq, and_true] at h
      have e := extend_heap_aligned W
        ({ mem := PUT (PUT (PUT (PUT s0.mem s0.mem_brk 0) (s0.mem_brk + 1 * WSIZE) (PACK DSIZE 1)) (s0.mem_brk + 2 * WSIZE) (PACK DSIZE 1)) (s0.mem_brk + 3 * WSIZE) (PACK 0 1), mem_brk := s0.mem_brk + 4 * WSIZE, mem_max_addr := s0.mem_max_addr, heap_listp := s0.mem_brk + 2 * WSIZE }) (CHUNKSIZE / WSIZE) hW (by simp only [WSIZE]; omega)
      rw [h] at e
      simp only [WSIZE] at e
      exact ⟨by omega, e.1⟩

theorem mm_malloc_aligned (W fuel : Nat) (s : Heap) (size : Nat) (s1 : Heap) (p : Nat)
    (hW : 3 ≤ W) (hl : s.heap_listp % 8 = 0) (hb : s.mem_brk % 8 = 0)
    (h : mm_malloc W fuel s size = some (s1, p)) :
    s1.heap_listp % 8 = 0 ∧ s1.mem_brk % 8 = 0 ∧ p % 8 = 0 := by
  unfold mm_malloc at h
  split at h
  · simp at h; obtain ⟨rfl, rfl⟩ := h; exact ⟨hl, hb, rfl⟩
  · simp only at h
    cases hf : find_fit fuel s (adjust W size) with
    | none => rw [hf] at h; simp at h
    | some bp =>
      rw [hf] at h
      have hbp := find_fit_loop_aligned _ _ _ _ _ hl hf
      have e := extend_heap_aligned W s (MAX (adjust W size) CHUNKSIZE / WSIZE) hW hb
      simp only at h
      split at h
      · simp at h; obtain ⟨rfl, rfl⟩ := h; exact ⟨hl, hb, hbp⟩
      · split at h
        · simp at h; obtain ⟨rfl, rfl⟩ := h
          exact ⟨by rw [e.2.1]; exact hl, e.1, rfl⟩
        · simp at h; obtain ⟨rfl, rfl⟩ := h
          exact ⟨by simp only; rw [e.2.1]; exact hl, e.1, e.2.2⟩

theorem mm_free_frame (W : Nat) (s : Heap) (bp : Nat) :
    (mm_free W s bp).heap_listp = s.heap_listp ∧ (mm_free W s bp).mem_brk = s.mem_brk ∧
      (mm_free W s bp).mem_max_addr = s.mem_max_addr := by
  unfold mm_free
  split <;> simp

theorem mm_realloc_aligned (W fuel : Nat) (s : Heap) (ptr size : Nat) (s1 : Heap) (q : Nat)
    (hW : 3 ≤ W) (hl : s.heap_listp % 8 = 0) (hb : s.mem_brk % 8 = 0) (hp : ptr % 8 = 0)
    (h : mm_realloc W fuel s ptr size = some (s1, q)) :
    s1.heap_listp % 8 = 0 ∧ s1.mem_brk % 8 = 0 ∧ q % 8 = 0 := by
  unfold mm_realloc at h
  split at h
  · exact mm_malloc_aligned W fuel s size s1 q hW hl hb h
  · split at h
    · simp at h; obtain ⟨rfl, rfl⟩ := h
      have := mm_free_frame W s ptr
      exact ⟨by rw [this.1]; exact hl, by rw [this.2.1]; exact hb, rfl⟩
    · simp only at h
      split at h
      · simp at h; obtain ⟨rfl, rfl⟩ := h; exact ⟨hl, hb, hp⟩
      · split at h
        · simp at h; obtain ⟨rfl, rfl⟩ := h; exact ⟨hl, hb, hp⟩
        · cases hm : mm_malloc W fuel s size with
          | none => rw [hm] at h; simp at h
          | some r =>
            obtain ⟨s2, np⟩ := r
            rw [hm] at h
            have e := mm_malloc_aligned W fuel s size s2 np hW hl hb hm
            simp only at h
            split at h
            · simp at h; obtain ⟨rfl, rfl⟩ := h; exact ⟨e.1, e.2.1, rfl⟩
            · simp at h; obtain ⟨rfl, rfl⟩ := h
              have := mm_free_frame W { s2 with mem := memcpy s2.mem np ptr (if size < (GET_SIZE s.mem (HDRP ptr) + 2 ^ W - DSIZE) % 2 ^ W then size else (GET_SIZE s.mem (HDRP ptr) + 2 ^ W - DSIZE) % 2 ^ W) } ptr
              exact ⟨by rw [this.1]; exact e.1, by rw [this.2.1]; exact e.2.1, e.2.2⟩

theorem Reach_aligned (W : Nat) (s0 s : Heap) (L : List Nat) (hW : 3 ≤ W)
    (h0 : s0.mem_brk % 8 = 0) (hr : Reach W s0 s L) :
    s.heap_listp % 8 = 0 ∧ s.mem_brk % 8 = 0 ∧ ∀ p ∈ L, p % 8 = 0 := by
  induction hr with
  | init s h =>
    have := mm_init_aligned W s0 s hW h0 h
    exact ⟨this.1, this.2, by simp⟩
  | malloc s L fuel size s1 p _ _ hm ih =>
    have := mm_malloc_aligned W fuel s size s1 p hW ih.1 ih.2.1 hm
    refine ⟨this.1, this.2.1, ?_⟩
    intro x hx
    split at hx
    · exact ih.2.2 x hx
    · rcases List.mem_cons.1 hx with rfl | hx
      · exact this.2.2
      · exact ih.2.2 x hx
  | free s L p _ hp ih =>
    have := mm_free_frame W s p
    refine ⟨by rw [this.1]; exact ih.1, by rw [this.2.1]; exact ih.2.1, ?_⟩
    intro x hx
    exact ih.2.2 x (List.mem_of_mem_erase hx)
  | realloc s L fuel p size s1 q _ hp _ hm ih =>
    have := mm_realloc_aligned W fuel s p size s1 q hW ih.1 ih.2.1 (ih.2.2 p hp) hm
    refine ⟨this.1, this.2.1, ?_⟩
    intro x hx
    split at hx
    · exact ih.2.2 x (List.mem_of_mem_erase hx)
    · split at hx
      · exact ih.2.2 x hx
      · rcases List.mem_cons.1 hx with rfl | hx
        · exact this.2.2
        · exact ih.2.2 x (List.mem_of_mem_erase hx)

/-- Claim C3.  With the first region granted by `mem_sbrk` starting at a
multiple of 8, every pointer returned by `mm_malloc` or `mm_realloc` in a
state reachable from `mm_init` is a multiple of 8 (`NULL` is 0).  Reachable
states include those produced by requests of any size and by freeing or
reallocating any live pointer. -/
theorem returned_pointers_aligned (W : Nat) (s0 s : Heap) (L : List Nat) (hW : 3 ≤ W)
    (h0 : s0.mem_brk % 8 = 0) (hr : Reach W s0 s L) :
    (∀ fuel size, ∀ r ∈ mm_malloc W fuel s size, r.2 % 8 = 0) ∧
    (∀ fuel ptr size, ptr = NULL ∨ ptr ∈ L →
      ∀ r ∈ mm_realloc W fuel s ptr size, r.2 % 8 = 0) := by
  have h := Reach_aligned W s0 s L hW h0 hr
  refine ⟨?_, ?_⟩
  · intro fuel size r hm
    exact (mm_malloc_aligned W fuel s size r.1 r.2 hW h.1 h.2.1 hm).2.2
  · intro fuel ptr size hp r hm
    have hp8 : ptr % 8 = 0 := by
      rcases hp with rfl | hp
      · rfl
      · exact h.2.2 ptr hp
    exact (mm_realloc_aligned W fuel s ptr size r.1 r.2 hW h.1 h.2.1 hp8 hm).2.2

/-- Witness for C3: the heap after `mm_init` on a fresh arena; `mm_malloc(100)`
returns a pointer there, and it is aligned. -/
theorem returned_pointers_aligned_witness :
    (arena 65536).mem_brk % 8 = 0 ∧ Reach 32 (arena 65536) (heap0 32 65536) [] ∧
    (mm_malloc 32 100 (heap0 32 65536) 100).map Prod.snd = some 4112 ∧
    (∀ r ∈ mm_malloc 32 100 (heap0 32 65536) 100, r.2 % 8 = 0) :=
  have hr : Reach 32 (arena 65536) (heap0 32 65536) [] :=
    Reach.init _ (Prod.ext rfl (by decide))
  ⟨by decide, hr, by decide,
    (returned_pointers_aligned 32 (arena 65536) (heap0 32 65536) [] (by decide)
      (by decide) hr).1 100 100⟩

/-! ## Exhaustion -/

theorem extend_heap_exhausted (W : Nat) (s : Heap) (words : Nat)
    (h : mem_sbrk s (extend_size W words) = none) : extend_heap W s words = (s, NULL) := by
  unfold extend_heap
  simp only [h]

theorem mm_malloc_exhausted (W fuel : Nat) (s : Heap) (size : Nat) (h0 : size ≠ 0)
    (hfit : find_fit fuel s (adjust W size) = some NULL)
    (hsbrk : mem_sbrk s (extend_size W (MAX (adjust W size) CHUNKSIZE / WSIZE)) = none) :
    mm_malloc W fuel s size = some (s, NULL) := by
  unfold mm_malloc
  simp only [h0, if_false, hfit, extend_heap_exhausted W s _ hsbrk]
  simp

/-- Claim C8.  When `find_fit` finds no block and `mem_sbrk` reports
exhaustion for the extension `mm_malloc` asks for, `mm_malloc(size)` returns
`NULL` and the whole state (memory, break, `heap_listp`) is unchanged, so
the repeated request fails the same way; `mm_realloc(ptr, size)` on its copy
path (block too small, no in-place growth) does the same. -/
theorem exhaustion_is_atomic (W fuel : Nat) (s : Heap) (ptr size : Nat) (h0 : size ≠ 0)
    (hfit : find_fit fuel s (adjust W size) = some NULL)
    (hsbrk : mem_sbrk s (extend_size W (MAX (adjust W size) CHUNKSIZE / WSIZE)) = none) :
    mm_malloc W fuel s size = some (s, NULL) ∧
    ((mm_malloc W fuel s size).bind fun r => mm_malloc W fuel r.1 size) = some (s, NULL) ∧
    (ptr ≠ NULL → GET_SIZE s.mem (HDRP ptr) < adjust W size →
      (GET_ALLOC s.mem (HDRP (NEXT_BLKP s.mem ptr)) ≠ 0 ∨
        (GET_SIZE s.mem (HDRP ptr) + GET_SIZE s.mem (HDRP (NEXT_BLKP s.mem ptr))) % 2 ^ W
          < adjust W size) →
      mm_realloc W fuel s ptr size = some (s, NULL) ∧
      ((mm_realloc W fuel s ptr size).bind fun r => mm_realloc W fuel r.1 ptr size)
        = some (s, NULL)) := by
  have hm := mm_malloc_exhausted W fuel s size h0 hfit hsbrk
  refine ⟨hm, by simp [hm], ?_⟩
  intro hp hold hnext
  have hr : mm_realloc W fuel s ptr size = some (s, NULL) := by
    unfold mm_realloc
    have h1 : ¬ adjust W size ≤ GET_SIZE s.mem (HDRP ptr) := by omega
    have h2 : ¬ ((!(GET_ALLOC s.mem (HDRP (NEXT_BLKP s.mem ptr)) != 0) &&
        decide ((GET_SIZE s.mem (HDRP ptr) + GET_SIZE s.mem (HDRP (NEXT_BLKP s.mem ptr)))
          % 2 ^ W ≥ adjust W size)) = true) := by
      rcases hnext with h | h
      · simp [h]
      · simp; intro _; omega
    simp only [hp, h0, if_false, h1, h2, hm]
    simp
  exact ⟨hr, by simp [hr]⟩

/-- Witness for C8: on the full heap `mm_malloc(5000)` finds no fit and the
extension fails; `mm_realloc(4112, 5000)` is on the copy path and fails the
same way, each leaving the heap as it was. -/
theorem exhaustion_is_atomic_witness :
    find_fit 100 full_heap (adjust 32 5000) = some NULL ∧
    GET_SIZE full_heap.mem (HDRP 4112) = 4008 ∧
    mm_malloc 32 100 full_heap 5000 = some (full_heap, NULL) ∧
    mm_realloc 32 100 full_heap 4112 5000 = some (full_heap, NULL) :=
  have h := exhaustion_is_atomic 32 100 full_heap 4112 5000 (by decide) (by decide)
    (Option.isNone_iff_eq_none.1 (by decide))
  ⟨by decide, by decide, h.1, (h.2.2 (by decide) (by decide) (by decide)).1⟩

/-! ## Requests close to `SIZE_MAX` -/

/-- Claim C2, evaluated at the failing input: `mm_malloc(SIZE_MAX - 14)` right
after `mm_init` has adjusted size 0, returns the non-null pointer 4112 and
leaves its block of size 4096 marked free; no extension took place. -/
theorem huge_request_gets_small_block :
    ((run_huge_malloc 32).map fun r =>
      (r.2, GET_SIZE r.1.mem (HDRP r.2), GET_ALLOC r.1.mem (HDRP r.2), r.1.mem_brk))
      = some (4112, 4096, 0, 8208) ∧
    ((run_huge_malloc 64).map fun r =>
      (r.2, GET_SIZE r.1.mem (HDRP r.2), GET_ALLOC r.1.mem (HDRP r.2), r.1.mem_brk))
      = some (4112, 4096, 0, 8208) ∧
    adjust 32 (2 ^ 32 - 15) = 0 ∧ adjust 64 (2 ^ 64 - 15) = 0 := by
  decide!

/-- Claim C6, evaluated at the failing input: after `mm_init` the prologue
header and footer both hold `PACK(8, 1)`; after `mm_malloc(SIZE_MAX - 14)` the
prologue footer holds `PACK(0, 1)` while its header still holds `PACK(8, 1)`. -/
theorem huge_request_breaks_prologue_footer :
    ((run_huge_malloc 32).map fun r =>
      (GET r.1.mem (HDRP r.1.heap_listp), GET r.1.mem (FTRP r.1.mem r.1.heap_listp)))
      = some (9, 1) ∧
    ((run_huge_malloc 64).map fun r =>
      (GET r.1.mem (HDRP r.1.heap_listp), GET r.1.mem (FTRP r.1.mem r.1.heap_listp)))
      = some (9, 1) ∧
    (GET (heap0 32 65536).mem (HDRP (heap0 32 65536).heap_listp),
      GET (heap0 32 65536).mem (FTRP (heap0 32 65536).mem (heap0 32 65536).heap_listp)) = (9, 9) := by
  decide!

/-- Claim C1, evaluated at the failing input: after `a = mm_malloc(8);
p = mm_malloc(SIZE_MAX - 14); q = mm_realloc(a, 100)` the live pointers
`q = 4112` (block size 4096) and `p = 4128` (block size 4080) are distinct
and the payload of `p` lies inside the payload of `q`. -/
theorem huge_request_makes_live_blocks_overlap :
    ((run_overlap 32).map fun r =>
      (r.2.1, GET_SIZE r.1.mem (HDRP r.2.1), r.2.2, GET_SIZE r.1.mem (HDRP r.2.2)))
      = some (4112, 4096, 4128, 4080) ∧
    ((run_overlap 64).map fun r =>
      (r.2.1, GET_SIZE r.1.mem (HDRP r.2.1), r.2.2, GET_SIZE r.1.mem (HDRP r.2.2)))
      = some (4112, 4096, 4128, 4080) := by
  decide!

/-- Claim C7, evaluated at the failing input: after `a = mm_malloc(8);
p = mm_malloc(SIZE_MAX - 14); mm_free(a); mm_free(p)` the first block claims
8176 bytes, so its next-block link (12288) lies beyond the break (8208) and
the walk from the first block never meets the epilogue word. -/
theorem huge_request_loses_epilogue :
    ((run_lost_epilogue 32).map fun s => walk s.mem 100 s.heap_listp)
      = some [(4104, 8, 1, 9), (4112, 8176, 0, 0)] ∧
    ((run_lost_epilogue 32).map fun s => (s.mem_brk, NEXT_BLKP s.mem 4112))
      = some (8208, 12288) ∧
    ((run_lost_epilogue 64).map fun s => walk s.mem 100 s.heap_listp)
      = some [(4104, 8, 1, 9), (4112, 8176, 0, 0)] ∧
    ((run_lost_epilogue 64).map fun s => (s.mem_brk, NEXT_BLKP s.mem 4112))
      = some (8208, 12288) := by
  decide!

/-- Claim C5, evaluated at the failing input: after `a = mm_malloc(4000);
p = mm_malloc(SIZE_MAX - 14); mm_free(a); mm_realloc(p, 100); mm_malloc(4080)`
the walk from the prologue meets the free block at 4224 directly followed by
the free block at 8208. -/
theorem huge_request_leaves_adjacent_free_blocks :
    ((run_adjacent_free 32).map fun r => walk r.1.mem 100 r.1.heap_listp)
      = some [(4104, 8, 1, 9), (4112, 112, 1, 113), (4224, 3984, 0, 88),
          (8208, 4096, 0, 96)] ∧
    ((run_adjacent_free 32).map fun r => r.1.mem_brk) = some 12304 ∧
    ((run_adjacent_free 64).map fun r => walk r.1.mem 100 r.1.heap_listp)
      = some [(4104, 8, 1, 9), (4112, 112, 1, 113), (4224, 3984, 0, 88),
          (8208, 4096, 0, 96)] ∧
    ((run_adjacent_free 64).map fun r => r.1.mem_brk) = some 12304 := by
  decide!

/-! ## Memory words and block chains -/

theorem GET_PUT_same (m : Mem) (p v : Nat) : GET (PUT m p v) p = v % 4294967296 := by
  simp only [GET, PUT]
  simp
  omega

theorem PUT_other (m : Mem) (p v a : Nat) (h : a < p ∨ p + 4 ≤ a) : PUT m p v a = m a := by
  unfold PUT
  have h1 : a ≠ p := by omega
  have h2 : a ≠ p + 1 := by omega
  have h3 : a ≠ p + 2 := by omega
  have h4 : a ≠ p + 3 := by omega
  simp [h1, h2, h3, h4]

theorem GET_congr (m m1 : Mem) (p : Nat) (h : ∀ a, p ≤ a → a < p + 4 → m1 a = m a) :
    GET m1 p = GET m p := by
  unfold GET
  rw [h p (by omega) (by omega), h (p + 1) (by omega) (by omega),
    h (p + 2) (by omega) (by omega), h (p + 3) (by omega) (by omega)]

theorem GET_PUT_other (m : Mem) (p v q : Nat) (h : q + 4 ≤ p ∨ p + 4 ≤ q) :
    GET (PUT m p v) q = GET m q :=
  GET_congr _ _ _ fun a h1 h2 => PUT_other m p v a (by omega)

theorem or_of_mul8 (x a : Nat) (hx : x % 8 = 0) (ha : a < 8) : x ||| a = x + a := by
  have h := Nat.mul_add_lt_is_or (i := 3) (b := a) (by norm_num; exact ha) (x / 8)
  have e : 2 ^ 3 * (x / 8) = x := by norm_num; omega
  rw [e] at h
  exact h.symm

theorem PACK_free (sz : Nat) : PACK sz 0 = sz := by
  unfold PACK; simp

theorem PACK_alloc (sz : Nat) (h : sz % 8 = 0) : PACK sz 1 = sz + 1 := by
  unfold PACK; exact or_of_mul8 sz 1 h (by norm_num)

theorem GET_ALLOC_eq (m : Mem) (p : Nat) : GET_ALLOC m p = GET m p % 2 := by
  unfold GET_ALLOC; exact Nat.and_one_is_mod _

theorem tag_size (m : Mem) (p : Nat) (b : Nat × Bool) (h : GET m p = tag b)
    (h8 : b.1 % 8 = 0) : GET_SIZE m p = b.1 := by
  rw [GET_SIZE_eq, h]; unfold tag; split <;> omega

theorem tag_alloc (m : Mem) (p : Nat) (b : Nat × Bool) (h : GET m p = tag b)
    (h8 : b.1 % 8 = 0) : GET_ALLOC m p = if b.2 then 1 else 0 := by
  rw [GET_ALLOC_eq, h]; unfold tag; split <;> omega

theorem tag_lt (m : Mem) (p : Nat) (b : Nat × Bool) (h : GET m p = tag b) :
    b.1 < 4294967296 := by
  have := GET_lt m p
  rw [h] at this; unfold tag at this; omega

theorem total_append (xs ys : List (Nat × Bool)) : total (xs ++ ys) = total xs + total ys := by
  induction xs with
  | nil => simp [total]
  | cons x xs ih => simp [total, ih]; omega

theorem Chain_end (m : Mem) : ∀ (bs : List (Nat × Bool)) (bp e : Nat),
    Chain m bp bs e → e = bp + total bs := by
  intro bs
  induction bs with
  | nil => intro bp e h; simp [Chain] at h; simp [total, h]
  | cons b bs ih =>
    intro bp e h
    simp only [Chain] at h
    have := ih _ _ h.2.2.2.2
    simp only [total]; omega

theorem Chain_congr (m m1 : Mem) : ∀ (bs : List (Nat × Bool)) (bp e : Nat), 4 ≤ bp →
    (∀ a, bp - 4 ≤ a → a < e - 4 → m1 a = m a) → Chain m bp bs e → Chain m1 bp bs e := by
  intro bs
  induction bs with
  | nil => intro bp e _ _ h; exact h
  | cons b bs ih =>
    intro bp e hbp hag h
    simp only [Chain] at h ⊢
    obtain ⟨h1, h2, h3, h4, h5⟩ := h
    have he := Chain_end m bs _ _ h5
    refine ⟨h1, h2, ?_, ?_, ?_⟩
    · rw [← h3]; exact GET_congr _ _ _ fun a ha hb => hag a (by omega) (by omega)
    · rw [← h4]; exact GET_congr _ _ _ fun a ha hb => hag a (by omega) (by omega)
    · exact ih _ _ (by omega) (fun a ha hb => hag a (by omega) (by omega)) h5

theorem Chain_append (m : Mem) : ∀ (xs ys : List (Nat × Bool)) (bp e : Nat),
    Chain m bp (xs ++ ys) e ↔ Chain m bp xs (bp + total xs) ∧ Chain m (bp + total xs) ys e := by
  intro xs
  induction xs with
  | nil => intro ys bp e; simp [Chain, total]
  | cons x xs ih =>
    intro ys bp e
    have e1 : bp + x.1 + total xs = bp + (x.1 + total xs) := by omega
    show Chain m bp (x :: (xs ++ ys)) e ↔ _
    simp only [Chain, total]
    rw [ih, e1]
    tauto

theorem BlockAt_append (xs ys : List (Nat × Bool)) : ∀ (bp q : Nat) (b : Nat × Bool),
    BlockAt bp (xs ++ ys) q b ↔ BlockAt bp xs q b ∨ BlockAt (bp + total xs) ys q b := by
  induction xs with
  | nil => intro bp q b; simp [BlockAt, total]
  | cons x xs ih =>
    intro bp q b
    have e1 : bp + x.1 + total xs = bp + (x.1 + total xs) := by omega
    show BlockAt bp (x :: (xs ++ ys)) q b ↔ _
    simp only [BlockAt, total]
    rw [ih, e1]
    tauto

theorem BlockAt_bounds : ∀ (bs : List (Nat × Bool)) (bp q : Nat) (b : Nat × Bool),
    BlockAt bp bs q b → bp ≤ q ∧ q + b.1 ≤ bp + total bs := by
  intro bs
  induction bs with
  | nil => intro bp q b h; simp [BlockAt] at h
  | cons x xs ih =>
    intro bp q b h
    simp only [BlockAt] at h
    simp only [total]
    rcases h with ⟨rfl, rfl⟩ | h
    · omega
    · have := ih _ _ _ h; omega

theorem BlockAt_split : ∀ (bs : List (Nat × Bool)) (bp q : Nat) (b : Nat × Bool),
    BlockAt bp bs q b → ∃ pre post, bs = pre ++ b :: post ∧ q = bp + total pre := by
  intro bs
  induction bs with
  | nil => intro bp q b h; simp [BlockAt] at h
  | cons x xs ih =>
    intro bp q b h
    simp only [BlockAt] at h
    rcases h with ⟨rfl, rfl⟩ | h
    · exact ⟨[], xs, rfl, by simp [total]⟩
    · obtain ⟨pre, post, h1, h2⟩ := ih _ _ _ h
      exact ⟨x :: pre, post, by simp [h1], by simp only [total]; omega⟩

theorem BlockAt_mid (pre post : List (Nat × Bool)) (bp : Nat) (b : Nat × Bool) :
    BlockAt bp (pre ++ b :: post) (bp + total pre) b := by
  rw [BlockAt_append]; right; simp [BlockAt]

/-! ## `find_fit` and `place` on a chain -/

theorem pow_ge (W : Nat) (hW : 32 ≤ W) : 4294967296 ≤ 2 ^ W := by
  have : (4294967296 : Nat) = 2 ^ 32 := by norm_num
  rw [this]; exact Nat.pow_le_pow_right (by norm_num) hW

theorem GET_SIZE_one (m : Mem) (p : Nat) (h : GET m p = 1) : GET_SIZE m p = 0 := by
  rw [GET_SIZE_eq, h]

theorem find_fit_loop_chain (m : Mem) (asize : Nat) : ∀ (bs : List (Nat × Bool))
    (bp e fuel : Nat), 4 ≤ bp → Chain m bp bs e → GET m (e - 4) = 1 → bs.length < fuel →
    find_fit_loop m asize fuel bp = some (firstFit asize bp bs) := by
  intro bs
  induction bs with
  | nil =>
    intro bp e fuel _ hc he hf
    simp only [Chain] at hc
    subst hc
    obtain ⟨f, rfl⟩ : ∃ f, fuel = f + 1 := ⟨fuel - 1, by simp at hf; omega⟩
    simp only [find_fit_loop, HDRP, WSIZE, GET_SIZE_one m _ he, firstFit]
    simp
  | cons b bs ih =>
    intro bp e fuel hbp hc he hf
    simp only [Chain] at hc
    obtain ⟨h1, h2, h3, _, h5⟩ := hc
    obtain ⟨f, rfl⟩ : ∃ f, fuel = f + 1 := ⟨fuel - 1, by simp at hf; omega⟩
    have hs := tag_size m _ b h3 h2
    have ha := tag_alloc m _ b h3 h2
    simp only [find_fit_loop, HDRP, WSIZE, hs, ha, firstFit, NEXT_BLKP]
    have hpos : b.1 > 0 := by omega
    simp only [hpos, if_true]
    rw [ih (bp + b.1) e f (by omega) h5 he (by simp at hf; omega)]
    cases hb : b.2
    · simp; split <;> rfl
    · simp

theorem firstFit_none (asize : Nat) : ∀ (bs : List (Nat × Bool)) (bp : Nat),
    (∀ x ∈ bs, ¬ (x.2 = false ∧ asize ≤ x.1)) → firstFit asize bp bs = NULL := by
  intro bs
  induction bs with
  | nil => intro bp _; rfl
  | cons b bs ih =>
    intro bp h
    simp only [firstFit]
    rw [if_neg (h b (by simp))]
    exact ih _ fun x hx => h x (by simp [hx])

theorem firstFit_split (asize sz : Nat) (post : List (Nat × Bool)) :
    ∀ (pre : List (Nat × Bool)) (bp : Nat),
    (∀ x ∈ pre, ¬ (x.2 = false ∧ asize ≤ x.1)) → asize ≤ sz →
    firstFit asize bp (pre ++ (sz, false) :: post) = bp + total pre := by
  intro pre
  induction pre with
  | nil => intro bp _ h; simp [firstFit, total, h]
  | cons b bs ih =>
    intro bp h hsz
    show firstFit asize bp (b :: (bs ++ (sz, false) :: post)) = _
    simp only [firstFit, total]
    rw [if_neg (h b (by simp)), ih _ (fun x hx => h x (by simp [hx])) hsz]
    omega

theorem firstFit_cases (asize : Nat) : ∀ (bs : List (Nat × Bool)) (bp : Nat),
    (firstFit asize bp bs = NULL ∧ ∀ x ∈ bs, ¬ (x.2 = false ∧ asize ≤ x.1)) ∨
    ∃ pre sz post, bs = pre ++ (sz, false) :: post ∧
      (∀ x ∈ pre, ¬ (x.2 = false ∧ asize ≤ x.1)) ∧ asize ≤ sz ∧
      firstFit asize bp bs = bp + total pre := by
  intro bs
  induction bs with
  | nil => intro bp; left; simp [firstFit]
  | cons b bs ih =>
    intro bp
    by_cases hb : b.2 = false ∧ asize ≤ b.1
    · right
      refine ⟨[], b.1, bs, ?_, by simp, hb.2, by simp [firstFit, hb, total]⟩
      obtain ⟨b1, b2⟩ := b
      simp at hb
      simp [hb.1]
    · rcases ih (bp + b.1) with ⟨h1, h2⟩ | ⟨pre, sz, post, h1, h2, h3, h4⟩
      · left
        refine ⟨by simp only [firstFit]; rw [if_neg hb]; exact h1, ?_⟩
        intro x hx
        rcases List.mem_cons.1 hx with rfl | hx
        · exact hb
        · exact h2 x hx
      · right
        refine ⟨b :: pre, sz, post, by simp [h1], ?_, h3, ?_⟩
        · intro x hx
          rcases List.mem_cons.1 hx with rfl | hx
          · exact hb
          · exact h2 x hx
        · simp only [firstFit, total]; rw [if_neg hb, h4]; omega

/-! ### `place` -/

theorem sub_mod_pow (W a b : Nat) (hab : b ≤ a) (ha : a < 2 ^ W) :
    (a + 2 ^ W - b) % 2 ^ W = a - b := by
  have e : a + 2 ^ W - b = (a - b) + 2 ^ W := by omega
  rw [e, Nat.add_mod_right]
  exact Nat.mod_eq_of_lt (by omega)

theorem GET_SIZE_PUT_same (m : Mem) (p sz a : Nat) (h8 : sz % 8 = 0) (ha : a < 8)
    (hlt : sz + a < 4294967296) : GET_SIZE (PUT m p (sz + a)) p = sz := by
  rw [GET_SIZE_eq, GET_PUT_same]; omega

theorem GET_SIZE_PUT_other (m : Mem) (p v q : Nat) (h : q + 4 ≤ p ∨ p + 4 ≤ q) :
    GET_SIZE (PUT m p v) q = GET_SIZE m q := by
  rw [GET_SIZE_eq, GET_SIZE_eq, GET_PUT_other m p v q h]

theorem place_eval (W : Nat) (m : Mem) (bp asize csize : Nat) (fl : Bool) (hW : 32 ≤ W)
    (hbp : 4 ≤ bp) (hh : GET m (bp - 4) = tag (csize, fl)) (hc8 : csize % 8 = 0)
    (ha8 : asize % 8 = 0) (ha : 8 ≤ asize) (hac : asize ≤ csize) :
    place W m bp asize =
      if 16 ≤ csize - asize then
        PUT (PUT (PUT (PUT m (bp - 4) (asize + 1)) (bp + asize - 8) (asize + 1))
          (bp + asize - 4) (csize - asize)) (bp + csize - 8) (csize - asize)
      else PUT (PUT m (bp - 4) (csize + 1)) (bp + csize - 8) (csize + 1) := by
  have hM := pow_ge W hW
  have hclt := tag_lt m _ _ hh
  simp only at hclt
  have hs : GET_SIZE m (bp - 4) = csize := tag_size m _ _ hh hc8
  unfold place
  simp only [HDRP, WSIZE, DSIZE, hs]
  rw [sub_mod_pow W csize asize hac (by omega)]
  by_cases hsplit : 16 ≤ csize - asize
  · have h2 : csize - asize ≥ 2 * 8 := by omega
    simp only [h2, hsplit, if_true]
    rw [PACK_alloc _ ha8, PACK_free]
    have e1 : FTRP (PUT m (bp - 4) (asize + 1)) bp = bp + asize - 8 := by
      unfold FTRP
      simp only [HDRP, WSIZE, DSIZE]
      rw [GET_SIZE_PUT_same m (bp - 4) asize 1 ha8 (by norm_num) (by omega)]
    rw [e1]
    have e2 : NEXT_BLKP (PUT (PUT m (bp - 4) (asize + 1)) (bp + asize - 8) (asize + 1)) bp
        = bp + asize := by
      unfold NEXT_BLKP
      simp only [WSIZE]
      rw [GET_SIZE_PUT_other _ _ _ _ (by omega),
        GET_SIZE_PUT_same m (bp - 4) asize 1 ha8 (by norm_num) (by omega)]
    rw [e2]
    have e3 : bp + asize - 4 = bp + asize - 4 := rfl
    have e4 : FTRP (PUT (PUT (PUT m (bp - 4) (asize + 1)) (bp + asize - 8) (asize + 1))
        (bp + asize - 4) (csize - asize)) (bp + asize) = bp + csize - 8 := by
      unfold FTRP
      simp only [HDRP, WSIZE, DSIZE]
      have := GET_SIZE_PUT_same (PUT (PUT m (bp - 4) (asize + 1)) (bp + asize - 8) (asize + 1))
        (bp + asize - 4) (csize - asize) 0 (by omega) (by norm_num) (by omega)
      simp only [Nat.add_zero] at this
      rw [this]; omega
    rw [e4]
  · have h2 : ¬ (csize - asize ≥ 2 * 8) := by omega
    simp only [h2, hsplit, if_false]
    rw [PACK_alloc _ hc8]
    have e1 : FTRP (PUT m (bp - 4) (csize + 1)) bp = bp + csize - 8 := by
      unfold FTRP
      simp only [HDRP, WSIZE, DSIZE]
      rw [GET_SIZE_PUT_same m (bp - 4) csize 1 hc8 (by norm_num) (by omega)]
    rw [e1]


theorem GET_PUT_same_lt (m : Mem) (p v : Nat) (h : v < 4294967296) :
    GET (PUT m p v) p = v := by
  rw [GET_PUT_same]; exact Nat.mod_eq_of_lt h

theorem place_chain (W : Nat) (m : Mem) (bp0 : Nat) (pre : List (Nat × Bool)) (csize : Nat)
    (fl : Bool) (post : List (Nat × Bool)) (e asize : Nat) (hW : 32 ≤ W) (hbp0 : 4 ≤ bp0)
    (hc : Chain m bp0 (pre ++ (csize, fl) :: post) e) (ha8 : asize % 8 = 0) (ha : 8 ≤ asize)
    (hac : asize ≤ csize) :
    Chain (place W m (bp0 + total pre) asize) bp0 (pre ++ placeL asize csize ++ post) e ∧
    ∀ a, a < bp0 + total pre - 4 ∨ bp0 + total pre + csize - 4 ≤ a →
      place W m (bp0 + total pre) asize a = m a := by
  rw [Chain_append] at hc
  obtain ⟨hpre, hmid⟩ := hc
  simp only [Chain] at hmid
  obtain ⟨_, hc8, hh, hf, hpost⟩ := hmid
  have hclt := tag_lt m _ _ hh
  simp only at hclt hc8 hpost
  have hpe := Chain_end m _ _ _ hpost
  rw [place_eval W m (bp0 + total pre) asize csize fl hW (by omega) hh hc8 ha8 ha hac]
  generalize hbp : bp0 + total pre = bp at *
  by_cases hsplit : 16 ≤ csize - asize
  · simp only [hsplit, if_true, placeL]
    have hfr : ∀ a, a < bp - 4 ∨ bp + csize - 4 ≤ a →
        PUT (PUT (PUT (PUT m (bp - 4) (asize + 1)) (bp + asize - 8) (asize + 1))
          (bp + asize - 4) (csize - asize)) (bp + csize - 8) (csize - asize) a = m a := by
      intro a h
      rw [PUT_other _ _ _ _ (by omega), PUT_other _ _ _ _ (by omega),
        PUT_other _ _ _ _ (by omega), PUT_other _ _ _ _ (by omega)]
    refine ⟨?_, hfr⟩
    rw [List.append_assoc, Chain_append, hbp]
    refine ⟨Chain_congr m _ pre bp0 bp hbp0 (fun a _ h2 => hfr a (by omega)) hpre, ?_⟩
    show Chain _ bp ((asize, true) :: (csize - asize, false) :: post) e
    simp only [Chain, tag]
    have e1 : bp + asize + (csize - asize) = bp + csize := by omega
    rw [e1]
    refine ⟨ha, ha8, ?_, ?_, by omega, by omega, ?_, ?_, ?_⟩
    · rw [GET_PUT_other _ _ _ _ (by omega), GET_PUT_other _ _ _ _ (by omega),
        GET_PUT_other _ _ _ _ (by omega), GET_PUT_same_lt _ _ _ (by omega)]
      simp
    · rw [GET_PUT_other _ _ _ _ (by omega), GET_PUT_other _ _ _ _ (by omega),
        GET_PUT_same_lt _ _ _ (by omega)]
      simp
    · rw [GET_PUT_other _ _ _ _ (by omega), GET_PUT_same_lt _ _ _ (by omega)]
      simp
    · rw [GET_PUT_same_lt _ _ _ (by omega)]
      simp
    · exact Chain_congr m _ post _ e (by omega) (fun a h1 _ => hfr a (by omega)) hpost
  · simp only [hsplit, if_false, placeL]
    have hfr : ∀ a, a < bp - 4 ∨ bp + csize - 4 ≤ a →
        PUT (PUT m (bp - 4) (csize + 1)) (bp + csize - 8) (csize + 1) a = m a := by
      intro a h
      rw [PUT_other _ _ _ _ (by omega), PUT_other _ _ _ _ (by omega)]
    refine ⟨?_, hfr⟩
    rw [List.append_assoc, Chain_append, hbp]
    refine ⟨Chain_congr m _ pre bp0 bp hbp0 (fun a _ h2 => hfr a (by omega)) hpre, ?_⟩
    show Chain _ bp ((csize, true) :: post) e
    simp only [Chain, tag]
    refine ⟨by omega, hc8, ?_, ?_, ?_⟩
    · rw [GET_PUT_other _ _ _ _ (by omega), GET_PUT_same_lt _ _ _ (by omega)]
      simp
    · rw [GET_PUT_same_lt _ _ _ (by omega)]
      simp
    · exact Chain_congr m _ post _ e (by omega) (fun a h1 _ => hfr a (by omega)) hpost

/-! ## `coalesce` -/

theorem tag_alloc_ne (m : Mem) (p : Nat) (b : Nat × Bool) (h : GET m p = tag b)
    (h8 : b.1 % 8 = 0) : (GET_ALLOC m p != 0) = b.2 := by
  rw [tag_alloc m p b h h8]
  cases b.2 <;> simp

theorem coalesce_reads (m : Mem) (bp sz psz nsz : Nat) (pa na : Bool)
    (hp : psz + 4 ≤ bp) (hpsz : 8 ≤ psz) (hp8 : psz % 8 = 0) (hs8 : sz % 8 = 0)
    (hn8 : nsz % 8 = 0)
    (hh : GET m (bp - 4) = tag (sz, false)) (hpf : GET m (bp - 8) = tag (psz, pa))
    (hph : GET m (bp - psz - 4) = tag (psz, pa))
    (hnh : GET m (bp + sz - 4) = tag (nsz, na)) :
    PREV_BLKP m bp = bp - psz ∧
    (GET_ALLOC m (FTRP m (PREV_BLKP m bp)) != 0 || PREV_BLKP m bp == bp) = pa ∧
    (GET_ALLOC m (HDRP (NEXT_BLKP m bp)) != 0) = na ∧
    GET_SIZE m (HDRP bp) = sz ∧ NEXT_BLKP m bp = bp + sz ∧
    GET_SIZE m (HDRP (NEXT_BLKP m bp)) = nsz ∧
    GET_SIZE m (HDRP (PREV_BLKP m bp)) = psz ∧ FTRP m bp = bp + sz - 8 := by
  have e1 : PREV_BLKP m bp = bp - psz := by
    unfold PREV_BLKP; simp only [DSIZE]; rw [tag_size m _ _ hpf hp8]
  have e2 : GET_SIZE m (HDRP bp) = sz := by
    simp only [HDRP, WSIZE]; exact tag_size m _ _ hh hs8
  have e3 : NEXT_BLKP m bp = bp + sz := by
    unfold NEXT_BLKP; simp only [WSIZE]; rw [tag_size m _ _ hh hs8]
  have e4 : FTRP m (bp - psz) = bp - 8 := by
    unfold FTRP; simp only [HDRP, WSIZE, DSIZE]
    rw [tag_size m _ _ hph hp8]; simp only; omega
  have e5 : FTRP m bp = bp + sz - 8 := by
    unfold FTRP; simp only [DSIZE]; rw [e2]
  refine ⟨e1, ?_, ?_, e2, e3, ?_, ?_, e5⟩
  · rw [e1, e4, tag_alloc_ne m _ _ hpf hp8]
    have : (bp - psz == bp) = false := by simp; omega
    rw [this]; simp
  · rw [e3]; simp only [HDRP, WSIZE]; exact tag_alloc_ne m _ _ hnh hn8
  · rw [e3]; simp only [HDRP, WSIZE]; exact tag_size m _ _ hnh hn8
  · rw [e1]; simp only [HDRP, WSIZE]; exact tag_size m _ _ hph hp8

theorem coalesce_case1 (W : Nat) (m : Mem) (bp sz psz nsz : Nat)
    (hp : psz + 4 ≤ bp) (hpsz : 8 ≤ psz) (hp8 : psz % 8 = 0) (hs8 : sz % 8 = 0)
    (hn8 : nsz % 8 = 0)
    (hh : GET m (bp - 4) = tag (sz, false)) (hpf : GET m (bp - 8) = tag (psz, true))
    (hph : GET m (bp - psz - 4) = tag (psz, true))
    (hnh : GET m (bp + sz - 4) = tag (nsz, true)) :
    coalesce W m bp = (m, bp) := by
  obtain ⟨_, r2, r3, _⟩ := coalesce_reads m bp sz psz nsz true true hp hpsz hp8 hs8 hn8 hh hpf
    hph hnh
  unfold coalesce
  simp only [r2, r3]
  simp

theorem add_mod_pow (W a : Nat) (hW : 32 ≤ W) (ha : a < 4294967296) : a % 2 ^ W = a :=
  Nat.mod_eq_of_lt (lt_of_lt_of_le ha (pow_ge W hW))

theorem coalesce_case2 (W : Nat) (m : Mem) (bp sz psz nsz : Nat) (hW : 32 ≤ W)
    (hp : psz + 4 ≤ bp) (hpsz : 8 ≤ psz) (hp8 : psz % 8 = 0) (hs8 : sz % 8 = 0)
    (hn8 : nsz % 8 = 0) (hsum : sz + nsz < 4294967296)
    (hh : GET m (bp - 4) = tag (sz, false)) (hpf : GET m (bp - 8) = tag (psz, true))
    (hph : GET m (bp - psz - 4) = tag (psz, true))
    (hnh : GET m (bp + sz - 4) = tag (nsz, false)) :
    coalesce W m bp =
      (PUT (PUT m (bp - 4) (sz + nsz)) (bp + (sz + nsz) - 8) (sz + nsz), bp) := by
  obtain ⟨_, r2, r3, r4, _, r6, _⟩ := coalesce_reads m bp sz psz nsz true false hp hpsz hp8 hs8
    hn8 hh hpf hph hnh
  unfold coalesce
  simp only [r2, r3, r4, r6]
  simp only [Bool.and_false, Bool.false_eq_true, if_false, Bool.not_false, Bool.and_true,
    if_true]
  rw [add_mod_pow W _ hW hsum, PACK_free]
  have e : FTRP (PUT m (HDRP bp) (sz + nsz)) bp = bp + (sz + nsz) - 8 := by
    unfold FTRP; simp only [HDRP, WSIZE, DSIZE]
    have := GET_SIZE_PUT_same m (bp - 4) (sz + nsz) 0 (by omega) (by norm_num) (by omega)
    simp only [Nat.add_zero] at this
    rw [this]
  rw [e]; simp only [HDRP, WSIZE]

theorem coalesce_case3 (W : Nat) (m : Mem) (bp sz psz nsz : Nat) (hW : 32 ≤ W)
    (hp : psz + 4 ≤ bp) (hpsz : 8 ≤ psz) (hp8 : psz % 8 = 0) (hsz : 8 ≤ sz)
    (hs8 : sz % 8 = 0)
    (hn8 : nsz % 8 = 0) (hsum : sz + psz < 4294967296)
    (hh : GET m (bp - 4) = tag (sz, false)) (hpf : GET m (bp - 8) = tag (psz, false))
    (hph : GET m (bp - psz - 4) = tag (psz, false))
    (hnh : GET m (bp + sz - 4) = tag (nsz, true)) :
    coalesce W m bp =
      (PUT (PUT m (bp + sz - 8) (sz + psz)) (bp - psz - 4) (sz + psz), bp - psz) := by
  obtain ⟨r1, r2, r3, r4, _, _, r7, r8⟩ := coalesce_reads m bp sz psz nsz false true hp hpsz
    hp8 hs8 hn8 hh hpf hph hnh
  unfold coalesce
  simp only [r2, r3, r4, r7, r8]
  simp only [Bool.and_true, Bool.false_eq_true, if_false, Bool.not_true, Bool.and_false,
    Bool.not_false, if_true]
  rw [add_mod_pow W _ hW hsum, PACK_free]
  have e1 : PREV_BLKP (PUT m (bp + sz - 8) (sz + psz)) bp = bp - psz := by
    unfold PREV_BLKP; simp only [DSIZE]
    rw [GET_SIZE_PUT_other _ _ _ _ (by omega), tag_size m _ _ hpf hp8]
  have e2 : PREV_BLKP (PUT (PUT m (bp + sz - 8) (sz + psz)) (HDRP (bp - psz)) (sz + psz)) bp
      = bp - psz := by
    unfold PREV_BLKP; simp only [DSIZE, HDRP, WSIZE]
    rw [GET_SIZE_PUT_other _ _ _ _ (by omega), GET_SIZE_PUT_other _ _ _ _ (by omega),
      tag_size m _ _ hpf hp8]
  rw [e1, e2]; simp only [HDRP, WSIZE]

theorem coalesce_case4 (W : Nat) (m : Mem) (bp sz psz nsz : Nat) (hW : 32 ≤ W)
    (hp : psz + 4 ≤ bp) (hpsz : 8 ≤ psz) (hp8 : psz % 8 = 0) (hsz : 8 ≤ sz)
    (hs8 : sz % 8 = 0)
    (hn8 : nsz % 8 = 0) (hsum : sz + psz + nsz < 4294967296)
    (hh : GET m (bp - 4) = tag (sz, false)) (hpf : GET m (bp - 8) = tag (psz, false))
    (hph : GET m (bp - psz - 4) = tag (psz, false))
    (hnh : GET m (bp + sz - 4) = tag (nsz, false))
    (hnf : GET m (bp + sz + nsz - 8) = tag (nsz, false)) :
    coalesce W m bp =
      (PUT (PUT m (bp - psz - 4) (sz + (psz + nsz))) (bp + sz + nsz - 8) (sz + (psz + nsz)),
        bp - psz) := by
  obtain ⟨r1, r2, r3, r4, r5, r6, r7, r8⟩ := coalesce_reads m bp sz psz nsz false false hp hpsz
    hp8 hs8 hn8 hh hpf hph hnh
  have e0 : GET_SIZE m (FTRP m (NEXT_BLKP m bp)) = nsz := by
    rw [r5]; unfold FTRP; simp only [HDRP, WSIZE, DSIZE]
    rw [tag_size m _ _ hnh hn8]; simp only
    exact tag_size m _ _ hnf hn8
  unfold coalesce
  simp only [r2, r3, r4, r7, e0]
  simp only [Bool.and_false, Bool.false_eq_true, if_false, Bool.not_false, Bool.and_true,
    Bool.and_self]
  have e00 : (psz + nsz) % 2 ^ 32 = psz + nsz := Nat.mod_eq_of_lt (by norm_num; omega)
  rw [e00, add_mod_pow W _ hW (by omega), PACK_free, r1]
  have e1 : NEXT_BLKP (PUT m (HDRP (bp - psz)) (sz + (psz + nsz))) bp = bp + sz := by
    unfold NEXT_BLKP; simp only [HDRP, WSIZE]
    rw [GET_SIZE_PUT_other _ _ _ _ (by omega), tag_size m _ _ hh hs8]
  have e2 : FTRP (PUT m (HDRP (bp - psz)) (sz + (psz + nsz))) (bp + sz) = bp + sz + nsz - 8 := by
    unfold FTRP; simp only [HDRP, WSIZE, DSIZE]
    rw [GET_SIZE_PUT_other _ _ _ _ (by omega), tag_size m _ _ hnh hn8]
  rw [e1, e2]
  have e3 : PREV_BLKP (PUT (PUT m (HDRP (bp - psz)) (sz + (psz + nsz))) (bp + sz + nsz - 8)
      (sz + (psz + nsz))) bp = bp - psz := by
    unfold PREV_BLKP; simp only [DSIZE, HDRP, WSIZE]
    rw [GET_SIZE_PUT_other _ _ _ _ (by omega), GET_SIZE_PUT_other _ _ _ _ (by omega),
      tag_size m _ _ hpf hp8]
  rw [e3]; simp only [HDRP, WSIZE]


theorem Chain_replace_mid (m m1 : Mem) (bp0 : Nat) (X mid mid1 Y : List (Nat × Bool))
    (e : Nat) (hbp0 : 4 ≤ bp0) (hc : Chain m bp0 (X ++ mid ++ Y) e)
    (hfr : ∀ a, a < bp0 + total X - 4 ∨ bp0 + total X + total mid - 4 ≤ a → m1 a = m a)
    (hmid : Chain m1 (bp0 + total X) mid1 (bp0 + total X + total mid)) :
    Chain m1 bp0 (X ++ mid1 ++ Y) e := by
  rw [List.append_assoc, Chain_append, Chain_append] at hc
  obtain ⟨hX, hM, hY⟩ := hc
  have e1 := Chain_end m1 _ _ _ hmid
  rw [List.append_assoc, Chain_append, Chain_append]
  have e2 : bp0 + total X + total mid1 = bp0 + total X + total mid := by omega
  rw [e2]
  refine ⟨Chain_congr m m1 X bp0 _ hbp0 (fun a _ h => hfr a (by omega)) hX, hmid, ?_⟩
  exact Chain_congr m m1 Y _ e (by omega) (fun a h _ => hfr a (by omega)) hY

theorem Chain_one (m : Mem) (bp : Nat) (b : Nat × Bool) (h1 : 8 ≤ b.1) (h2 : b.1 % 8 = 0)
    (hh : GET m (bp - 4) = tag b) (hf : GET m (bp + b.1 - 8) = tag b) :
    Chain m bp [b] (bp + b.1) := by
  simp only [Chain]; exact ⟨h1, h2, hh, hf, trivial⟩

theorem coalesce_chain (W : Nat) (m : Mem) (bp0 : Nat) (X : List (Nat × Bool))
    (prev : Nat × Bool) (sz : Nat) (post : List (Nat × Bool)) (e : Nat) (hW : 32 ≤ W)
    (hbp0 : 4 ≤ bp0) (hc : Chain m bp0 (X ++ prev :: (sz, false) :: post) e)
    (he : GET m (e - 4) = 1) (hlt : e < bp0 + 4294967296) :
    Chain (coalesce W m (bp0 + total X + prev.1)).1 bp0 (coalesceL X prev sz post) e ∧
    (coalesce W m (bp0 + total X + prev.1)).2
      = (if prev.2 then bp0 + total X + prev.1 else bp0 + total X) ∧
    ∀ a, a < (if prev.2 then bp0 + total X + prev.1 else bp0 + total X) - 4 ∨
        bp0 + total X + prev.1 + (absorbNext sz post).1 - 4 ≤ a →
      (coalesce W m (bp0 + total X + prev.1)).1 a = m a := by
  have hc0 := hc
  have hend := Chain_end m _ _ _ hc
  rw [Chain_append] at hc
  obtain ⟨hX, hrest⟩ := hc
  simp only [Chain] at hrest
  obtain ⟨hp1, hp8, hph, hpf, hs1, hs8, hh, hf, hpost⟩ := hrest
  obtain ⟨psz, pa⟩ := prev
  simp only at hp1 hp8 hph hpf hs1 hs8 hh hf hpost ⊢
  simp only [total_append, total] at hend
  generalize hb : bp0 + total X = b0 at *
  have hpf1 : GET m (b0 + psz - 8) = tag (psz, pa) := hpf
  have e8 : b0 + psz - 8 = b0 + psz - 8 := rfl
  -- the header of the next block (or the epilogue)
  have hnext : ∃ nsz na, nsz % 8 = 0 ∧ GET m (b0 + psz + sz - 4) = tag (nsz, na) ∧
      ((na = true ∧ absorbNext sz post = (sz, post)) ∨
       (na = false ∧ 8 ≤ nsz ∧ ∃ r, post = (nsz, false) :: r ∧
          GET m (b0 + psz + sz + nsz - 8) = tag (nsz, false))) := by
    cases post with
    | nil =>
      simp only [Chain] at hpost
      refine ⟨0, true, rfl, ?_, Or.inl ⟨rfl, rfl⟩⟩
      rw [hpost]; simpa [tag] using he
    | cons n r =>
      simp only [Chain] at hpost
      obtain ⟨n1, n8, nh, nf, _⟩ := hpost
      obtain ⟨nsz, na⟩ := n
      refine ⟨nsz, na, n8, nh, ?_⟩
      cases na with
      | true => exact Or.inl ⟨rfl, rfl⟩
      | false => exact Or.inr ⟨rfl, n1, r, rfl, nf⟩
  obtain ⟨nsz, na, hn8, hnh, hcase⟩ := hnext
  have hp : psz + 4 ≤ b0 + psz := by omega
  have hph1 : GET m (b0 + psz - psz - 4) = tag (psz, pa) := by
    have : b0 + psz - psz - 4 = b0 - 4 := by omega
    rw [this]; exact hph
  have hpf2 : GET m (b0 + psz - 8) = tag (psz, pa) := hpf
  cases pa with
  | true =>
    simp only [if_true, coalesceL]
    rcases hcase with ⟨rfl, hab⟩ | ⟨rfl, hn1, r, rfl, hnf⟩
    · rw [coalesce_case1 W m (b0 + psz) sz psz nsz hp hp1 hp8 hs8 hn8 hh hpf2 hph1 hnh, hab]
      exact ⟨hc0, rfl, fun _ _ => rfl⟩
    · simp only [total] at hend
      rw [coalesce_case2 W m (b0 + psz) sz psz nsz hW hp hp1 hp8 hs8 hn8 (by omega) hh hpf2
        hph1 hnh]
      simp only [absorbNext]
      have hfr : ∀ a, a < b0 + psz - 4 ∨ b0 + psz + (sz + nsz) - 4 ≤ a →
          PUT (PUT m (b0 + psz - 4) (sz + nsz)) (b0 + psz + (sz + nsz) - 8) (sz + nsz) a
            = m a := by
        intro a h
        rw [PUT_other _ _ _ _ (by omega), PUT_other _ _ _ _ (by omega)]
      refine ⟨?_, trivial, hfr⟩
      have hc1 : Chain m bp0 ((X ++ [(psz, true)]) ++ [(sz, false), (nsz, false)] ++ r) e := by
        simpa using hc0
      have := Chain_replace_mid m _ bp0 (X ++ [(psz, true)]) [(sz, false), (nsz, false)]
        [(sz + nsz, false)] r e hbp0 hc1
        (by
          intro a h
          simp only [total_append, total] at h
          exact hfr a (by omega))
        (by
          simp only [total_append, total]
          have e1 : bp0 + (total X + (psz + 0)) = b0 + psz := by omega
          have e2 : b0 + psz + (sz + (nsz + 0)) = b0 + psz + (sz + nsz) := by omega
          rw [e1, e2]
          refine Chain_one _ _ (sz + nsz, false) (by simp only; omega) (by simp only; omega) ?_ ?_
          · rw [GET_PUT_other _ _ _ _ (by omega), GET_PUT_same_lt _ _ _ (by omega)]; simp [tag]
          · simp only
            rw [GET_PUT_same_lt _ _ _ (by omega)]; simp [tag])
      simpa using this
  | false =>
    simp only [Bool.false_eq_true, if_false, coalesceL]
    rcases hcase with ⟨rfl, hab⟩ | ⟨rfl, hn1, r, rfl, hnf⟩
    · rw [coalesce_case3 W m (b0 + psz) sz psz nsz hW hp hp1 hp8 hs1 hs8 hn8 (by omega) hh
        hpf2 hph1 hnh, hab]
      simp only
      have hfr : ∀ a, a < b0 - 4 ∨ b0 + psz + sz - 4 ≤ a →
          PUT (PUT m (b0 + psz + sz - 8) (sz + psz)) (b0 + psz - psz - 4) (sz + psz) a
            = m a := by
        intro a h
        rw [PUT_other _ _ _ _ (by omega), PUT_other _ _ _ _ (by omega)]
      refine ⟨?_, by omega, hfr⟩
      have hc1 : Chain m bp0 (X ++ [(psz, false), (sz, false)] ++ post) e := by
        simpa using hc0
      have := Chain_replace_mid m _ bp0 X [(psz, false), (sz, false)]
        [(psz + sz, false)] post e hbp0 hc1
        (by
          intro a h
          simp only [total] at h
          exact hfr a (by omega))
        (by
          simp only [total]
          have e2 : bp0 + total X + (psz + (sz + 0)) = b0 + (psz + sz) := by omega
          rw [e2, hb]
          refine Chain_one _ _ (psz + sz, false) (by simp only; omega) (by simp only; omega) ?_ ?_
          · have e3 : b0 + psz - psz - 4 = b0 - 4 := by omega
            rw [e3, GET_PUT_same_lt _ _ _ (by omega)]; simp [tag]; omega
          · simp only
            have e3 : b0 + (psz + sz) - 8 = b0 + psz + sz - 8 := by omega
            rw [e3, GET_PUT_other _ _ _ _ (by omega), GET_PUT_same_lt _ _ _ (by omega)]
            simp [tag]; omega)
      simpa using this
    · simp only [total] at hend
      rw [coalesce_case4 W m (b0 + psz) sz psz nsz hW hp hp1 hp8 hs1 hs8 hn8 (by omega) hh
        hpf2 hph1 hnh hnf]
      simp only [absorbNext]
      have hfr : ∀ a, a < b0 - 4 ∨ b0 + psz + (sz + nsz) - 4 ≤ a →
          PUT (PUT m (b0 + psz - psz - 4) (sz + (psz + nsz))) (b0 + psz + sz + nsz - 8)
            (sz + (psz + nsz)) a = m a := by
        intro a h
        rw [PUT_other _ _ _ _ (by omega), PUT_other _ _ _ _ (by omega)]
      refine ⟨?_, by omega, hfr⟩
      have hc1 : Chain m bp0 (X ++ [(psz, false), (sz, false), (nsz, false)] ++ r) e := by
        simpa using hc0
      have := Chain_replace_mid m _ bp0 X [(psz, false), (sz, false), (nsz, false)]
        [(psz + (sz + nsz), false)] r e hbp0 hc1
        (by
          intro a h
          simp only [total] at h
          exact hfr a (by omega))
        (by
          simp only [total]
          have e2 : bp0 + total X + (psz + (sz + (nsz + 0))) = b0 + (psz + (sz + nsz)) := by
            omega
          rw [e2, hb]
          refine Chain_one _ _ (psz + (sz + nsz), false) (by simp only; omega)
            (by simp only; omega) ?_ ?_
          · have e3 : b0 + psz - psz - 4 = b0 - 4 := by omega
            rw [e3, GET_PUT_other _ _ _ _ (by omega), GET_PUT_same_lt _ _ _ (by omega)]
            simp [tag]; omega
          · simp only
            have e3 : b0 + (psz + (sz + nsz)) - 8 = b0 + psz + sz + nsz - 8 := by omega
            rw [e3, GET_PUT_same_lt _ _ _ (by omega)]
            simp [tag]; omega)
      simpa using this

/-! ## Neighbouring free blocks -/

theorem NoAdjFree_tail (a : Nat × Bool) (l : List (Nat × Bool)) (h : NoAdjFree (a :: l)) :
    NoAdjFree l := by
  cases l with
  | nil => trivial
  | cons b r => exact h.2

theorem NoAdjFree_cons_alloc (a : Nat × Bool) (l : List (Nat × Bool)) (ha : a.2 = true) :
    NoAdjFree (a :: l) ↔ NoAdjFree l := by
  cases l with
  | nil => simp [NoAdjFree]
  | cons b r => simp [NoAdjFree, ha]

theorem NoAdjFree_cons_congr (a a1 : Nat × Bool) (l : List (Nat × Bool)) (h : a.2 = a1.2) :
    NoAdjFree (a :: l) ↔ NoAdjFree (a1 :: l) := by
  cases l with
  | nil => simp [NoAdjFree]
  | cons b r => simp [NoAdjFree, h]

theorem NoAdjFree_split (a : Nat × Bool) (ys : List (Nat × Bool)) :
    ∀ xs : List (Nat × Bool),
    NoAdjFree (xs ++ a :: ys) ↔ NoAdjFree (xs ++ [a]) ∧ NoAdjFree (a :: ys) := by
  intro xs
  induction xs with
  | nil => simp [NoAdjFree]
  | cons x xs ih =>
    cases xs with
    | nil =>
      cases ys with
      | nil => simp [NoAdjFree]
      | cons y r => simp [NoAdjFree]
    | cons x1 r =>
      have e1 : x :: x1 :: r ++ a :: ys = x :: x1 :: (r ++ a :: ys) := rfl
      have e2 : x :: x1 :: r ++ [a] = x :: x1 :: (r ++ [a]) := rfl
      have e3 : x1 :: r ++ a :: ys = x1 :: (r ++ a :: ys) := rfl
      have e4 : x1 :: r ++ [a] = x1 :: (r ++ [a]) := rfl
      rw [e1, e2]
      rw [e3, e4] at ih
      simp only [NoAdjFree]
      rw [ih]
      tauto

theorem NoAdjFree_snoc_alloc (a : Nat × Bool) (ha : a.2 = true) :
    ∀ xs : List (Nat × Bool), NoAdjFree (xs ++ [a]) ↔ NoAdjFree xs := by
  intro xs
  induction xs with
  | nil => simp [NoAdjFree]
  | cons x xs ih =>
    cases xs with
    | nil => simp [NoAdjFree, ha]
    | cons x1 r =>
      have e2 : x :: x1 :: r ++ [a] = x :: x1 :: (r ++ [a]) := rfl
      have e4 : x1 :: r ++ [a] = x1 :: (r ++ [a]) := rfl
      rw [e2]
      rw [e4] at ih
      simp only [NoAdjFree]
      rw [ih]

theorem NoAdjFree_snoc_congr (a a1 : Nat × Bool) (h : a.2 = a1.2) :
    ∀ xs : List (Nat × Bool), NoAdjFree (xs ++ [a]) ↔ NoAdjFree (xs ++ [a1]) := by
  intro xs
  induction xs with
  | nil => simp [NoAdjFree]
  | cons x xs ih =>
    cases xs with
    | nil => simp [NoAdjFree, h]
    | cons x1 r =>
      have e2 : ∀ c, x :: x1 :: r ++ [c] = x :: x1 :: (r ++ [c]) := fun _ => rfl
      have e4 : ∀ c, x1 :: r ++ [c] = x1 :: (r ++ [c]) := fun _ => rfl
      rw [e2, e2]
      rw [e4, e4] at ih
      simp only [NoAdjFree]
      rw [ih]

theorem NoAdjFree_prefix (xs : List (Nat × Bool)) (a : Nat × Bool)
    (h : NoAdjFree (xs ++ [a])) : NoAdjFree xs := by
  have h1 := (NoAdjFree_snoc_alloc (a.1, true) rfl xs).1
  by_cases ha : a.2 = true
  · exact (NoAdjFree_snoc_alloc a ha xs).1 h
  · induction xs with
    | nil => trivial
    | cons x xs ih =>
      cases xs with
      | nil => trivial
      | cons x1 r =>
        have e2 : x :: x1 :: r ++ [a] = x :: x1 :: (r ++ [a]) := rfl
        rw [e2] at h
        simp only [NoAdjFree] at h ⊢
        exact ⟨h.1, ih h.2 (fun h2 => (NoAdjFree_snoc_alloc (a.1, true) rfl _).1 h2)⟩

/-- Splitting a free block, or allocating it whole, keeps the property. -/
theorem NoAdjFree_place (pre post : List (Nat × Bool)) (asize csize : Nat)
    (h : NoAdjFree (pre ++ (csize, false) :: post)) :
    NoAdjFree (pre ++ placeL asize csize ++ post) := by
  rw [NoAdjFree_split] at h
  obtain ⟨h1, h2⟩ := h
  have hpre := NoAdjFree_prefix _ _ h1
  unfold placeL
  split
  · rw [List.append_assoc]
    show NoAdjFree (pre ++ (asize, true) :: (csize - asize, false) :: post)
    rw [NoAdjFree_split, NoAdjFree_snoc_alloc _ rfl, NoAdjFree_cons_alloc _ _ rfl]
    exact ⟨hpre, (NoAdjFree_cons_congr (csize, false) (csize - asize, false) post rfl).1 h2⟩
  · rw [List.append_assoc]
    show NoAdjFree (pre ++ (csize, true) :: post)
    rw [NoAdjFree_split, NoAdjFree_snoc_alloc _ rfl, NoAdjFree_cons_alloc _ _ rfl]
    exact ⟨hpre, NoAdjFree_tail _ _ h2⟩

/-- Coalescing the freed block with its free neighbours keeps the property. -/
theorem NoAdjFree_coalesceL (X : List (Nat × Bool)) (prev : Nat × Bool) (sz : Nat)
    (post : List (Nat × Bool)) (h : NoAdjFree (X ++ prev :: (sz, true) :: post)) :
    NoAdjFree (coalesceL X prev sz post) := by
  rw [NoAdjFree_split] at h
  obtain ⟨h1, h2⟩ := h
  have h3 := NoAdjFree_tail _ _ h2
  have h4 := NoAdjFree_tail _ _ h3
  have hnext : NoAdjFree (((absorbNext sz post).1, false) :: (absorbNext sz post).2) := by
    cases post with
    | nil => simp [absorbNext, NoAdjFree]
    | cons n r =>
      obtain ⟨nsz, na⟩ := n
      cases na with
      | true => simp only [absorbNext, NoAdjFree]; exact ⟨Or.inr trivial, h4⟩
      | false =>
        simp only [absorbNext]
        exact (NoAdjFree_cons_congr (nsz, false) (sz + nsz, false) r rfl).1 h4
  unfold coalesceL
  split
  · rename_i hp
    rw [NoAdjFree_split, NoAdjFree_cons_alloc _ _ hp]
    exact ⟨h1, hnext⟩
  · rename_i hp
    rw [NoAdjFree_split]
    refine ⟨(NoAdjFree_snoc_congr prev (prev.1 + (absorbNext sz post).1, false) ?_ X).1 h1,
      (NoAdjFree_cons_congr ((absorbNext sz post).1, false)
        (prev.1 + (absorbNext sz post).1, false) _ rfl).1 hnext⟩
    simp at hp; simp [hp]


/-! ## `mm_free`, `extend_heap` and `mm_init` on a well-formed heap -/

theorem absorbNext_ge (sz : Nat) (post : List (Nat × Bool)) :
    sz ≤ (absorbNext sz post).1 := by
  unfold absorbNext
  split <;> simp

theorem absorbNext_total (sz : Nat) (post : List (Nat × Bool)) :
    (absorbNext sz post).1 + total (absorbNext sz post).2 = sz + total post := by
  unfold absorbNext
  split
  · simp only [total]; omega
  · rfl

theorem mm_free_full (W : Nat) (s : Heap) (X : List (Nat × Bool)) (prev : Nat × Bool)
    (sz : Nat) (post : List (Nat × Bool)) (hW : 32 ≤ W)
    (h : InvF s (X ++ prev :: (sz, true) :: post)) :
    InvF (mm_free W s (s.heap_listp + total X + prev.1)) (coalesceL X prev sz post) ∧
    (mm_free W s (s.heap_listp + total X + prev.1)).heap_listp = s.heap_listp ∧
    (mm_free W s (s.heap_listp + total X + prev.1)).mem_brk = s.mem_brk ∧
    (mm_free W s (s.heap_listp + total X + prev.1)).mem_max_addr = s.mem_max_addr ∧
    ∀ a, a < (if prev.2 then s.heap_listp + total X + prev.1 else s.heap_listp + total X) - 4 ∨
        s.heap_listp + total X + prev.1 + (absorbNext sz post).1 - 4 ≤ a →
      (mm_free W s (s.heap_listp + total X + prev.1)).mem a = s.mem a := by
  obtain ⟨hl8, hc, he, hbm, hmax, hna⟩ := h
  have hend := Chain_end _ _ _ _ hc
  simp only [total_append, total] at hend
  have hc0 := hc
  rw [Chain_append] at hc
  obtain ⟨_, hrest⟩ := hc
  simp only [Chain] at hrest
  obtain ⟨hp1, hp8, _, _, hs1, hs8, hh, hf, _⟩ := hrest
  generalize hp : s.heap_listp + total X + prev.1 = p at *
  have hsz : GET_SIZE s.mem (p - 4) = sz := tag_size _ _ _ hh hs8
  have hslt := tag_lt _ _ _ hh
  simp only at hslt
  have hpne : p ≠ NULL := by simp only [NULL]; omega
  have e1 : FTRP (PUT s.mem (p - 4) sz) p = p + sz - 8 := by
    unfold FTRP; simp only [HDRP, WSIZE, DSIZE]
    have := GET_SIZE_PUT_same s.mem (p - 4) sz 0 hs8 (by norm_num) (by omega)
    simp only [Nat.add_zero] at this
    rw [this]
  have hfr2 : ∀ a, a < p - 4 ∨ p + sz - 4 ≤ a →
      PUT (PUT s.mem (p - 4) sz) (p + sz - 8) sz a = s.mem a := by
    intro a h
    rw [PUT_other _ _ _ _ (by omega), PUT_other _ _ _ _ (by omega)]
  have hc2 : Chain (PUT (PUT s.mem (p - 4) sz) (p + sz - 8) sz) s.heap_listp
      (X ++ prev :: (sz, false) :: post) s.mem_brk := by
    have hc1 : Chain s.mem s.heap_listp ((X ++ [prev]) ++ [(sz, true)] ++ post) s.mem_brk := by
      simpa using hc0
    have := Chain_replace_mid s.mem _ s.heap_listp (X ++ [prev]) [(sz, true)] [(sz, false)]
      post s.mem_brk (by omega) hc1
      (by
        intro a h
        simp only [total_append, total] at h
        exact hfr2 a (by omega))
      (by
        simp only [total_append, total]
        have e2 : s.heap_listp + (total X + (prev.1 + 0)) = p := by omega
        rw [e2]
        have e3 : p + (sz + 0) = p + sz := by omega
        rw [e3]
        refine Chain_one _ _ (sz, false) hs1 hs8 ?_ ?_
        · rw [GET_PUT_other _ _ _ _ (by omega), GET_PUT_same_lt _ _ _ (by omega)]; simp [tag]
        · simp only
          rw [GET_PUT_same_lt _ _ _ (by omega)]; simp [tag])
    simpa using this
  have he2 : GET (PUT (PUT s.mem (p - 4) sz) (p + sz - 8) sz) (s.mem_brk - 4) = 1 := by
    rw [← he]
    exact GET_congr _ _ _ fun a h1 _ => hfr2 a (by omega)
  have hco := coalesce_chain W _ s.heap_listp X prev sz post s.mem_brk hW (by omega) hc2 he2
    (by omega)
  rw [hp] at hco
  have hab := absorbNext_ge sz post
  have habt := absorbNext_total sz post
  have hmf : mm_free W s p = { s with mem :=
      (coalesce W (PUT (PUT s.mem (p - 4) sz) (p + sz - 8) sz) p).1 } := by
    unfold mm_free
    simp only [hpne, if_false, HDRP, WSIZE, hsz, PACK_free, e1]
  rw [hmf]
  refine ⟨⟨hl8, hco.1, ?_, hbm, hmax, NoAdjFree_coalesceL _ _ _ _ hna⟩, rfl, rfl, rfl, ?_⟩
  · simp only
    rw [← he2]
    refine GET_congr _ _ _ fun a h1 _ => hco.2.2 a (Or.inr ?_)
    have : total (absorbNext sz post).2 ≥ 0 := Nat.zero_le _
    omega
  · intro a ha
    simp only
    rw [hco.2.2 a ha]
    refine hfr2 a ?_
    split at ha <;> omega

theorem mem_sbrk_ok (s : Heap) (incr : Nat) (h : s.mem_brk + incr ≤ s.mem_max_addr) :
    mem_sbrk s incr = some ({ s with mem_brk := s.mem_brk + incr }, s.mem_brk) := by
  unfold mem_sbrk; simp [h]

theorem extend_heap_full (W : Nat) (s : Heap) (X : List (Nat × Bool)) (prev : Nat × Bool)
    (words : Nat) (hW : 32 ≤ W) (h : InvF s (X ++ [prev]))
    (h1 : 8 ≤ extend_size W words) (h8 : extend_size W words % 8 = 0)
    (hok : s.mem_brk + extend_size W words ≤ s.mem_max_addr) :
    InvF (extend_heap W s words).1 (coalesceL X prev (extend_size W words) []) ∧
    (extend_heap W s words).2 = (if prev.2 then s.mem_brk else s.mem_brk - prev.1) ∧
    (extend_heap W s words).1.heap_listp = s.heap_listp ∧
    (extend_heap W s words).1.mem_brk = s.mem_brk + extend_size W words ∧
    (extend_heap W s words).1.mem_max_addr = s.mem_max_addr ∧
    ∀ a, a < (if prev.2 then s.mem_brk else s.mem_brk - prev.1) - 4 →
      (extend_heap W s words).1.mem a = s.mem a := by
  obtain ⟨hl8, hc, he, hbm, hmax, hna⟩ := h
  have hend := Chain_end _ _ _ _ hc
  simp only [total_append, total] at hend
  generalize hsize : extend_size W words = size at *
  have hp1 : 8 ≤ prev.1 := by
    rw [Chain_append] at hc
    simp only [Chain] at hc
    exact hc.2.1
  have e1 : FTRP (PUT s.mem (s.mem_brk - 4) size) s.mem_brk = s.mem_brk + size - 8 := by
    unfold FTRP; simp only [HDRP, WSIZE, DSIZE]
    have := GET_SIZE_PUT_same s.mem (s.mem_brk - 4) size 0 h8 (by norm_num) (by omega)
    simp only [Nat.add_zero] at this
    rw [this]
  have e2 : NEXT_BLKP (PUT (PUT s.mem (s.mem_brk - 4) size) (s.mem_brk + size - 8) size)
      s.mem_brk = s.mem_brk + size := by
    unfold NEXT_BLKP; simp only [WSIZE]
    rw [GET_SIZE_PUT_other _ _ _ _ (by omega)]
    have := GET_SIZE_PUT_same s.mem (s.mem_brk - 4) size 0 h8 (by norm_num) (by omega)
    simp only [Nat.add_zero] at this
    rw [this]
  have hfr3 : ∀ a, a < s.mem_brk - 4 →
      PUT (PUT (PUT s.mem (s.mem_brk - 4) size) (s.mem_brk + size - 8) size)
        (s.mem_brk + size - 4) 1 a = s.mem a := by
    intro a h
    rw [PUT_other _ _ _ _ (by omega), PUT_other _ _ _ _ (by omega),
      PUT_other _ _ _ _ (by omega)]
  have he3 : GET (PUT (PUT (PUT s.mem (s.mem_brk - 4) size) (s.mem_brk + size - 8) size)
      (s.mem_brk + size - 4) 1) (s.mem_brk + size - 4) = 1 := by
    rw [GET_PUT_same_lt _ _ _ (by norm_num)]
  have hc3 : Chain (PUT (PUT (PUT s.mem (s.mem_brk - 4) size) (s.mem_brk + size - 8) size)
      (s.mem_brk + size - 4) 1) s.heap_listp (X ++ prev :: (size, false) :: [])
      (s.mem_brk + size) := by
    have : X ++ prev :: (size, false) :: [] = (X ++ [prev]) ++ [(size, false)] := by simp
    rw [this, Chain_append]
    simp only [total_append, total]
    have e3 : s.heap_listp + (total X + (prev.1 + 0)) = s.mem_brk := by omega
    rw [e3]
    refine ⟨Chain_congr _ _ _ _ _ (by omega) (fun a _ h => hfr3 a h) hc, ?_⟩
    refine Chain_one _ _ (size, false) h1 h8 ?_ ?_
    · rw [GET_PUT_other _ _ _ _ (by omega), GET_PUT_other _ _ _ _ (by omega),
        GET_PUT_same_lt _ _ _ (by omega)]
      simp [tag]
    · simp only
      rw [GET_PUT_other _ _ _ _ (by omega), GET_PUT_same_lt _ _ _ (by omega)]
      simp [tag]
  have hco := coalesce_chain W _ s.heap_listp X prev size [] (s.mem_brk + size) hW (by omega)
    hc3 he3 (by omega)
  have e4 : s.heap_listp + total X + prev.1 = s.mem_brk := by omega
  rw [e4] at hco
  have e5 : s.heap_listp + total X = s.mem_brk - prev.1 := by omega
  rw [e5] at hco
  have hex : extend_heap W s words = ({ s with mem_brk := s.mem_brk + size, mem :=
      (coalesce W (PUT (PUT (PUT s.mem (s.mem_brk - 4) size) (s.mem_brk + size - 8) size)
        (s.mem_brk + size - 4) 1) s.mem_brk).1 },
      (coalesce W (PUT (PUT (PUT s.mem (s.mem_brk - 4) size) (s.mem_brk + size - 8) size)
        (s.mem_brk + size - 4) 1) s.mem_brk).2) := by
    unfold extend_heap
    simp only [hsize, mem_sbrk_ok s size hok, HDRP, WSIZE, PACK_free, e1, e2]
    rw [PACK_alloc 0 (by norm_num)]
  rw [hex]
  have hna2 : NoAdjFree (X ++ prev :: (size, true) :: []) := by
    have : X ++ prev :: (size, true) :: [] = (X ++ [prev]) ++ [(size, true)] := by simp
    rw [this, NoAdjFree_snoc_alloc _ rfl]
    exact hna
  refine ⟨⟨hl8, hco.1, ?_, by simp only; omega, hmax, NoAdjFree_coalesceL _ _ _ _ hna2⟩,
    hco.2.1, rfl, rfl, rfl, ?_⟩
  · simp only
    refine Eq.trans (GET_congr _ _ _ fun a h1 _ => hco.2.2 a (Or.inr ?_)) he3
    simp only [absorbNext]
    omega
  · intro a ha
    simp only
    rw [hco.2.2 a (Or.inl ha)]
    exact hfr3 a (by split at ha <;> omega)

theorem extend_size_even (W n : Nat) (h8 : n % 8 = 0) (hlt : n < 2 ^ W) :
    extend_size W (n / WSIZE) = n := by
  unfold extend_size
  simp only [WSIZE]
  have h2 : n / 4 % 2 = 0 := by omega
  simp only [h2, bne_self_eq_false, Bool.false_eq_true, if_false]
  have : n / 4 * 4 = n := by omega
  rw [this]; exact Nat.mod_eq_of_lt hlt

theorem mm_init_eq (W : Nat) (s0 : Heap) (h : s0.mem_brk + 16 ≤ s0.mem_max_addr) :
    mm_init W s0 =
      if (extend_heap W (prologue_heap s0) (CHUNKSIZE / WSIZE)).2 = NULL then
        ((extend_heap W (prologue_heap s0) (CHUNKSIZE / WSIZE)).1, -1)
      else ((extend_heap W (prologue_heap s0) (CHUNKSIZE / WSIZE)).1, 0) := by
  unfold mm_init
  rw [mem_sbrk_ok s0 (4 * WSIZE) h]
  rfl

theorem prologue_heap_InvF (s0 : Heap) (h : s0.mem_brk + 16 ≤ s0.mem_max_addr)
    (hmax : s0.mem_max_addr < s0.mem_brk + 4294967296) :
    InvF (prologue_heap s0) ([] ++ [(8, true)]) := by
  unfold prologue_heap
  simp only [WSIZE, DSIZE]
  rw [PACK_alloc 8 (by norm_num), PACK_alloc 0 (by norm_num)]
  refine ⟨?_, ?_, ?_, ?_, ?_, trivial⟩
  · show 8 ≤ s0.mem_brk + 2 * 4
    omega
  rotate_left 2
  · show s0.mem_brk + 4 * 4 ≤ s0.mem_max_addr
    omega
  · show s0.mem_max_addr < s0.mem_brk + 2 * 4 + 4294967296
    omega
  · show Chain _ (s0.mem_brk + 8) [(8, true)] (s0.mem_brk + 8 + 8)
    refine Chain_one _ _ (8, true) (by norm_num) (by norm_num) ?_ ?_
    · have e : s0.mem_brk + 8 - 4 = s0.mem_brk + 1 * 4 := by omega
      rw [e, GET_PUT_other _ _ _ _ (by omega), GET_PUT_other _ _ _ _ (by omega),
        GET_PUT_same_lt _ _ _ (by norm_num)]
      simp [tag]
    · have e : s0.mem_brk + 8 + (8, true).1 - 8 = s0.mem_brk + 2 * 4 := by simp only; omega
      rw [e, GET_PUT_other _ _ _ _ (by omega), GET_PUT_same_lt _ _ _ (by norm_num)]
      simp [tag]
  · simp only
    have e : s0.mem_brk + 4 * 4 - 4 = s0.mem_brk + 3 * 4 := by omega
    rw [e, GET_PUT_same_lt _ _ _ (by norm_num)]

/-- After a successful `mm_init` the heap is well formed: one free block of
`CHUNKSIZE` bytes between the prologue and the epilogue. -/
theorem mm_init_Inv (W : Nat) (s0 s : Heap) (hW : 32 ≤ W)
    (hmax : s0.mem_max_addr < s0.mem_brk + 4294967296)
    (h : mm_init W s0 = (s, 0)) :
    Inv s [(4096, false)] ∧ s.heap_listp = s0.mem_brk + 8 ∧
      s.mem_max_addr = s0.mem_max_addr ∧ s.mem_brk = s0.mem_brk + 4112 := by
  by_cases h16 : s0.mem_brk + 16 ≤ s0.mem_max_addr
  · rw [mm_init_eq W s0 h16] at h
    have hM := pow_ge W hW
    have hes : extend_size W (CHUNKSIZE / WSIZE) = 4096 :=
      extend_size_even W 4096 (by norm_num) (by omega)
    have hI := prologue_heap_InvF s0 h16 hmax
    have hf : (prologue_heap s0).mem_brk = s0.mem_brk + 16 ∧
        (prologue_heap s0).mem_max_addr = s0.mem_max_addr ∧
        (prologue_heap s0).heap_listp = s0.mem_brk + 8 := ⟨rfl, rfl, rfl⟩
    by_cases hok : (prologue_heap s0).mem_brk + extend_size W (CHUNKSIZE / WSIZE)
        ≤ (prologue_heap s0).mem_max_addr
    · have hx := extend_heap_full W (prologue_heap s0) [] (8, true) (CHUNKSIZE / WSIZE) hW hI
        (by omega) (by omega) hok
      rw [hes] at hx
      simp only [coalesceL, absorbNext, if_true, List.nil_append] at hx
      have hne : (extend_heap W (prologue_heap s0) (CHUNKSIZE / WSIZE)).2 ≠ NULL := by
        rw [hx.2.1]; simp only [NULL]; omega
      simp only [hne, if_false, Prod.mk.injEq, and_true] at h
      rw [h] at hx
      exact ⟨hx.1, by rw [hx.2.2.1, hf.2.2], by rw [hx.2.2.2.2.1, hf.2.1],
        by rw [hx.2.2.2.1, hf.1]⟩
    · have hno : mem_sbrk (prologue_heap s0) (extend_size W (CHUNKSIZE / WSIZE)) = none := by
        unfold mem_sbrk; simp [hok]
      rw [extend_heap_exhausted W _ _ hno] at h
      simp at h
  · have hno : mem_sbrk s0 (4 * WSIZE) = none := by
      unfold mem_sbrk; simp only [WSIZE]; simp; omega
    unfold mm_init at h
    rw [hno] at h
    simp at h

/-! ## `mm_malloc` on a well-formed heap -/

theorem adjust_inrange (W size : Nat) (hW : 32 ≤ W) (hr : size ≤ 8 ∨ size + 15 < 2 ^ W) :
    16 ≤ adjust W size ∧ adjust W size % 8 = 0 ∧ size + 8 ≤ adjust W size ∧
      adjust W size < 2 ^ W := by
  have hM := pow_ge W hW
  unfold adjust
  simp only [DSIZE]
  split
  · omega
  · rename_i h
    have hlt : size + 15 < 2 ^ W := by omega
    have e1 : (size + 8 + (8 - 1)) % 2 ^ W = size + 15 := by
      have : size + 8 + (8 - 1) = size + 15 := by omega
      rw [this]; exact Nat.mod_eq_of_lt hlt
    rw [e1]
    have e2 : (8 * ((size + 15) / 8)) % 2 ^ W = 8 * ((size + 15) / 8) :=
      Nat.mod_eq_of_lt (by omega)
    rw [e2]
    omega

theorem MAX_chunk (a : Nat) : a ≤ MAX a CHUNKSIZE ∧ 4096 ≤ MAX a CHUNKSIZE ∧
    (a % 8 = 0 → MAX a CHUNKSIZE % 8 = 0) ∧ MAX a CHUNKSIZE ≤ a + 4096 := by
  unfold MAX
  simp only [CHUNKSIZE]
  split <;> omega

theorem find_fit_InvF (fuel : Nat) (s : Heap) (full : List (Nat × Bool)) (asize : Nat)
    (h : InvF s full) (hfuel : full.length < fuel) :
    find_fit fuel s asize = some (firstFit asize s.heap_listp full) :=
  find_fit_loop_chain s.mem asize full s.heap_listp s.mem_brk fuel (by have := h.1; omega)
    h.2.1 h.2.2.1 hfuel

theorem place_InvF (W : Nat) (s : Heap) (pre : List (Nat × Bool)) (c : Nat)
    (post : List (Nat × Bool)) (asize : Nat) (hW : 32 ≤ W)
    (h : InvF s (pre ++ (c, false) :: post)) (ha8 : asize % 8 = 0) (ha : 8 ≤ asize)
    (hac : asize ≤ c) :
    InvF { s with mem := place W s.mem (s.heap_listp + total pre) asize }
      (pre ++ placeL asize c ++ post) ∧
    ∀ a, a < s.heap_listp + total pre - 4 ∨ s.heap_listp + total pre + c - 4 ≤ a →
      place W s.mem (s.heap_listp + total pre) asize a = s.mem a := by
  obtain ⟨hl8, hc, he, hbm, hmax, hna⟩ := h
  have hend := Chain_end _ _ _ _ hc
  simp only [total_append, total] at hend
  have hp := place_chain W s.mem s.heap_listp pre c false post s.mem_brk asize hW (by omega)
    hc ha8 ha hac
  refine ⟨⟨hl8, hp.1, ?_, hbm, hmax, NoAdjFree_place _ _ _ _ hna⟩, hp.2⟩
  show GET (place W s.mem (s.heap_listp + total pre) asize) (s.mem_brk - 4) = 1
  exact Eq.trans (GET_congr _ _ _ fun a h1 _ => hp.2 a (Or.inr (by omega))) he

theorem mm_malloc_full (W fuel : Nat) (s : Heap) (full : List (Nat × Bool)) (size : Nat)
    (hW : 32 ≤ W) (h : InvF s full) (hne : full ≠ []) (h0 : size ≠ 0)
    (hr : size ≤ 8 ∨ size + 15 < 2 ^ W) (hfuel : full.length < fuel) :
    ∃ s1 p, mm_malloc W fuel s size = some (s1, p) ∧ s1.heap_listp = s.heap_listp ∧
      s1.mem_max_addr = s.mem_max_addr ∧ s.mem_brk ≤ s1.mem_brk ∧
      ((p = NULL ∧ s1 = s) ∨
       ∃ pre c post, InvF s1 (pre ++ placeL (adjust W size) c ++ post) ∧
         adjust W size ≤ c ∧ p = s.heap_listp + total pre ∧
         ((full = pre ++ (c, false) :: post ∧ s1.mem_brk = s.mem_brk) ∨
          (post = [] ∧ (full = pre ∨ ∃ z, full = pre ++ [(z, false)]))) ∧
         ∀ a, a < p - 4 ∨ (p + c - 4 ≤ a ∧ a < s.mem_brk - 4) → s1.mem a = s.mem a) := by
  obtain ⟨ha16, ha8, _, halt⟩ := adjust_inrange W size hW hr
  have hff := find_fit_InvF fuel s full (adjust W size) h hfuel
  have hl8 := h.1
  unfold mm_malloc
  simp only [h0, if_false, hff]
  rcases firstFit_cases (adjust W size) full s.heap_listp with ⟨hnone, _⟩ |
    ⟨pre, c, post, hfull, _, hac, hfit⟩
  · -- no fit: extend the heap
    rw [hnone]
    simp only [ne_eq, not_true_eq_false, if_false]
    obtain ⟨hm1, hm2, hm3, hm4⟩ := MAX_chunk (adjust W size)
    have hM := pow_ge W hW
    have hes : extend_size W (MAX (adjust W size) CHUNKSIZE / WSIZE)
        = MAX (adjust W size) CHUNKSIZE := by
      refine extend_size_even W _ (hm3 ha8) ?_
      unfold MAX; simp only [CHUNKSIZE]; split <;> omega
    by_cases hok : s.mem_brk + MAX (adjust W size) CHUNKSIZE ≤ s.mem_max_addr
    · obtain ⟨X, prev, hX⟩ : ∃ X prev, full = X ++ [prev] := by
        rcases List.eq_nil_or_concat full with h1 | ⟨X, prev, h1⟩
        · exact absurd h1 hne
        · exact ⟨X, prev, by simpa using h1⟩
      subst hX
      have hx := extend_heap_full W s X prev (MAX (adjust W size) CHUNKSIZE / WSIZE) hW h
        (by rw [hes]; omega) (by rw [hes]; exact hm3 ha8) (by rw [hes]; exact hok)
      rw [hes] at hx
      obtain ⟨hI, hret, hhl, hbrk, hmx, hfr⟩ := hx
      generalize extend_heap W s (MAX (adjust W size) CHUNKSIZE / WSIZE) = r at *
      have hend := Chain_end _ _ _ _ h.2.1
      simp only [total_append, total] at hend
      have hp1 : 8 ≤ prev.1 := by
        have := h.2.1
        rw [Chain_append] at this
        simp only [Chain] at this
        exact this.2.1
      have hrne : r.2 ≠ NULL := by
        rw [hret]; simp only [NULL]; split <;> omega
      simp only [hrne, if_false]
      simp only [coalesceL, absorbNext] at hI
      refine ⟨_, _, rfl, hhl, hmx, by simp only; omega, Or.inr ?_⟩
      cases hp : prev.2 with
      | true =>
        simp only [hp, if_true] at hI hret hfr
        have hI2 : InvF r.1 ((X ++ [prev]) ++ (MAX (adjust W size) CHUNKSIZE, false) :: []) := by
          simpa using hI
        have hpl := place_InvF W r.1 (X ++ [prev]) (MAX (adjust W size) CHUNKSIZE) []
          (adjust W size) hW hI2 ha8 (by omega) hm1
        have e1 : r.1.heap_listp + total (X ++ [prev]) = r.2 := by
          rw [hret, hhl]; simp only [total_append, total]; omega
        rw [e1] at hpl
        refine ⟨X ++ [prev], MAX (adjust W size) CHUNKSIZE, [], hpl.1, hm1, ?_,
          Or.inr ⟨rfl, Or.inl rfl⟩, ?_⟩
        · rw [← e1, hhl]
        · intro a ha
          simp only
          rw [hret] at ha
          rw [hpl.2 a (by rw [hret]; omega), hfr a (by omega)]
      | false =>
        simp only [hp, Bool.false_eq_true, if_false] at hI hret hfr
        have hpl := place_InvF W r.1 X (prev.1 + MAX (adjust W size) CHUNKSIZE) []
          (adjust W size) hW hI ha8 (by omega) (by omega)
        have e1 : r.1.heap_listp + total X = r.2 := by
          rw [hret, hhl]; omega
        rw [e1] at hpl
        refine ⟨X, prev.1 + MAX (adjust W size) CHUNKSIZE, [], hpl.1, by omega, ?_,
          Or.inr ⟨rfl, Or.inr ⟨prev.1, ?_⟩⟩, ?_⟩
        · rw [← e1, hhl]
        · obtain ⟨p1, p2⟩ := prev
          simp only at hp
          rw [hp]
        · intro a ha
          simp only
          rw [hret] at ha
          rw [hpl.2 a (by rw [hret]; omega), hfr a (by omega)]
    · have hno : mem_sbrk s (extend_size W (MAX (adjust W size) CHUNKSIZE / WSIZE)) = none := by
        rw [hes]; unfold mem_sbrk; simp [hok]
      rw [extend_heap_exhausted W s _ hno]
      simp only [if_true]
      exact ⟨s, NULL, rfl, rfl, rfl, le_refl _, Or.inl ⟨rfl, rfl⟩⟩
  · -- first fit found
    subst hfull
    rw [hfit]
    have hpne : s.heap_listp + total pre ≠ NULL := by simp only [NULL]; omega
    simp only [ne_eq, hpne, not_false_eq_true, if_true]
    have hpl := place_InvF W s pre c post (adjust W size) hW h ha8 (by omega) hac
    refine ⟨_, _, rfl, rfl, rfl, le_refl _, Or.inr ⟨pre, c, post, hpl.1, hac, rfl,
      Or.inl ⟨rfl, rfl⟩, ?_⟩⟩
    intro a ha
    exact hpl.2 a (by omega)

/-! ## First-fit reuse -/

theorem malloc_first_fit (W fuel : Nat) (s : Heap) (pre : List (Nat × Bool)) (sz : Nat)
    (post : List (Nat × Bool)) (size : Nat) (h : Inv s (pre ++ (sz, false) :: post))
    (hpre : ∀ x ∈ pre, x.2 = true) (h0 : size ≠ 0) (hfit : adjust W size ≤ sz)
    (hfuel : pre.length + post.length + 2 < fuel) :
    ∃ s1, mm_malloc W fuel s size = some (s1, s.heap_listp + 8 + total pre) ∧
      s1.mem_brk = s.mem_brk ∧ s1.heap_listp = s.heap_listp := by
  have hff := find_fit_InvF fuel s _ (adjust W size) h (by simp; omega)
  have hfs := firstFit_split (adjust W size) sz post ((8, true) :: pre) s.heap_listp
    (by
      intro x hx
      rcases List.mem_cons.1 hx with rfl | hx
      · simp
      · simp [hpre x hx]) hfit
  have e : (8, true) :: pre ++ (sz, false) :: post = (8, true) :: (pre ++ (sz, false) :: post) :=
    rfl
  rw [e] at hfs
  rw [hfs] at hff
  simp only [total] at hff
  have e2 : s.heap_listp + (8 + total pre) = s.heap_listp + 8 + total pre := by omega
  rw [e2] at hff
  have hne : s.heap_listp + 8 + total pre ≠ NULL := by simp only [NULL]; omega
  unfold mm_malloc
  simp only [h0, if_false, hff, ne_eq, hne, not_false_eq_true, if_true]
  exact ⟨_, rfl, rfl, rfl⟩

/-- Claim C9.  In a well-formed heap whose lowest-address free block is the
block at `p1 = heap_listp + 8 + total pre` (every block before it is
allocated), `mm_malloc(size)` with adjusted size at most that block's size
returns `p1` and leaves the break where it was. -/
theorem first_fit_reuse (W fuel : Nat) (s : Heap) (pre : List (Nat × Bool)) (sz : Nat)
    (post : List (Nat × Bool)) (size : Nat) (h : Inv s (pre ++ (sz, false) :: post))
    (hpre : ∀ x ∈ pre, x.2 = true) (h0 : size ≠ 0) (hfit : adjust W size ≤ sz)
    (hfuel : pre.length + post.length + 2 < fuel) :
    ∃ s1, mm_malloc W fuel s size = some (s1, s.heap_listp + 8 + total pre) ∧
      s1.mem_brk = s.mem_brk := by
  obtain ⟨s1, h1, h2, _⟩ := malloc_first_fit W fuel s pre sz post size h hpre h0 hfit hfuel
  exact ⟨s1, h1, h2⟩

/-- Witness for C9, the scenario of the spec: after `p1 = mm_malloc(100);
p2 = mm_malloc(200); mm_free(p1)` the block of `p1 = 4112` (size 112) is the
lowest free block, and `mm_malloc(50)` returns 4112 without growing the heap. -/
theorem first_fit_reuse_witness :
    (run_reuse 32).map (fun r => r.2) = some (4112, 4224) ∧
    Inv heap_reuse ([] ++ (112, false) :: [(208, true), (3776, false)]) ∧
    adjust 32 50 ≤ 112 ∧
    (mm_malloc 32 100 heap_reuse 50).map (fun r => (r.2, r.1.mem_brk))
      = some (4112, heap_reuse.mem_brk) := by
  have hI : Inv heap_reuse ([] ++ (112, false) :: [(208, true), (3776, false)]) := by decide
  obtain ⟨s1, h1, h2⟩ := first_fit_reuse 32 100 heap_reuse [] 112 [(208, true), (3776, false)]
    50 hI (by simp) (by decide) (by decide) (by decide)
  refine ⟨by decide, hI, by decide, ?_⟩
  rw [h1]
  simp only [Option.map_some', h2]
  rfl

/-! ## Freeing two neighbouring blocks -/

theorem cons_eq_snoc (x : Nat × Bool) (pre : List (Nat × Bool))
    (hprev : ∀ y, pre.getLast? = some y → y.2 = true) (hx : x.2 = true) :
    ∃ X prev, x :: pre = X ++ [prev] ∧ prev.2 = true := by
  rcases List.eq_nil_or_concat pre with h1 | ⟨Y, l, h1⟩
  · subst h1; exact ⟨[], x, rfl, hx⟩
  · subst h1
    refine ⟨x :: Y, l, by simp, hprev l ?_⟩
    simp

/-- Claim C10 as amended.  Let `a` and `b` be allocated blocks, `b` directly
after `a`, and let the block before `a` be allocated (or the prologue).
After `mm_free(a); mm_free(b)` the heap is well formed with one free block
at `a` whose size is `size(a) + size(b)` plus the size of the block after
`b` when that one was free; and when every block below `a` is allocated,
`mm_malloc(size)` with adjusted size at most the merged size returns `a`
and does not move the break. -/
theorem free_pair_coalesces (W : Nat) (s : Heap) (pre : List (Nat × Bool)) (sa sb : Nat)
    (post : List (Nat × Bool)) (hW : 32 ≤ W)
    (h : Inv s (pre ++ (sa, true) :: (sb, true) :: post))
    (hprev : ∀ y, pre.getLast? = some y → y.2 = true) :
    Inv (mm_free W (mm_free W s (s.heap_listp + 8 + total pre))
        (s.heap_listp + 8 + total pre + sa))
      (pre ++ (sa + (absorbNext sb post).1, false) :: (absorbNext sb post).2) ∧
    sa + sb ≤ sa + (absorbNext sb post).1 ∧
    ∀ fuel size, (∀ x ∈ pre, x.2 = true) → size ≠ 0 →
      adjust W size ≤ sa + (absorbNext sb post).1 →
      pre.length + (absorbNext sb post).2.length + 2 < fuel →
      ∃ s3, mm_malloc W fuel (mm_free W (mm_free W s (s.heap_listp + 8 + total pre))
          (s.heap_listp + 8 + total pre + sa)) size
        = some (s3, s.heap_listp + 8 + total pre) ∧
        s3.mem_brk = s.mem_brk := by
  obtain ⟨X, prev, hX, hp⟩ := cons_eq_snoc (8, true) pre hprev rfl
  have htot : total X + prev.1 = 8 + total pre := by
    have := congrArg total hX
    simp only [total, total_append] at this
    omega
  have h1 : InvF s (X ++ prev :: (sa, true) :: (sb, true) :: post) := by
    have : X ++ prev :: (sa, true) :: (sb, true) :: post
        = (X ++ [prev]) ++ (sa, true) :: (sb, true) :: post := by simp
    rw [this, ← hX]; exact h
  have f1 := mm_free_full W s X prev sa ((sb, true) :: post) hW h1
  have ea : s.heap_listp + total X + prev.1 = s.heap_listp + 8 + total pre := by omega
  rw [ea] at f1
  obtain ⟨hI1, hhl1, hbrk1, _, _⟩ := f1
  generalize mm_free W s (s.heap_listp + 8 + total pre) = s1 at *
  simp only [coalesceL, hp, if_true, absorbNext] at hI1
  have h2 : InvF s1 ((X ++ [prev]) ++ (sa, false) :: (sb, true) :: post) := by
    simpa using hI1
  have f2 := mm_free_full W s1 (X ++ [prev]) (sa, false) sb post hW h2
  have eb : s1.heap_listp + total (X ++ [prev]) + (sa, false).1
      = s.heap_listp + 8 + total pre + sa := by
    rw [hhl1]; simp only [total_append, total]; omega
  rw [eb] at f2
  obtain ⟨hI2, hhl2, hbrk2, _, _⟩ := f2
  generalize mm_free W s1 (s.heap_listp + 8 + total pre + sa) = s2 at *
  simp only [coalesceL, Bool.false_eq_true, if_false] at hI2
  rw [← hX] at hI2
  have hI3 : Inv s2 (pre ++ (sa + (absorbNext sb post).1, false) :: (absorbNext sb post).2) :=
    hI2
  refine ⟨hI3, ?_, ?_⟩
  · have := absorbNext_ge sb post; omega
  · intro fuel size hpre h0 hfit hfuel
    obtain ⟨s3, m1, m2, _⟩ := malloc_first_fit W fuel s2 pre _ _ size hI3 hpre h0 hfit hfuel
    rw [hhl2, hhl1] at m1
    exact ⟨s3, m1, by rw [m2, hbrk2, hbrk1]⟩

/-- Witness for C10, the scenario of the spec: `a = mm_malloc(16)` is 4112 and
`b = mm_malloc(16)` is 4136; after `mm_free(a); mm_free(b)` the heap is one
free block of 4096 bytes and `mm_malloc(40)` returns `a`. -/
theorem free_pair_coalesces_witness :
    (run_pair 32).map (fun r => r.2) = some (4112, 4136) ∧
    Inv heap_pair ([] ++ (24, true) :: (24, true) :: [(4048, false)]) ∧
    Inv (mm_free 32 (mm_free 32 heap_pair 4112) 4136) [(4096, false)] ∧
    (mm_malloc 32 100 (mm_free 32 (mm_free 32 heap_pair 4112) 4136) 40).map (fun r => r.2)
      = some 4112 := by
  have hI : Inv heap_pair ([] ++ (24, true) :: (24, true) :: [(4048, false)]) := by decide
  obtain ⟨h1, _, h3⟩ := free_pair_coalesces 32 heap_pair [] 24 24 [(4048, false)]
    (by decide) hI (by simp)
  obtain ⟨s3, h4, _⟩ := h3 100 40 (by simp) (by decide) (by decide) (by decide)
  refine ⟨by decide, hI, h1, ?_⟩
  have e : mm_malloc 32 100 (mm_free 32 (mm_free 32 heap_pair 4112) 4136) 40
      = some (s3, 4112) := h4
  rw [e]; rfl

/-- Counterexample to C10 as stated: with the block before `a` free
(`x = mm_malloc(16); a = mm_malloc(16); b = mm_malloc(16); mm_free(x)`),
`a = 4136` and `b = 4160` are allocated neighbours, and after
`mm_free(a); mm_free(b)` the only block past the prologue is the free block
whose payload pointer is 4112, the former `x`: no block has payload pointer `a`. -/
theorem free_pair_merges_into_previous :
    (run_pair_after_free 32).map (fun r => r.2) = some (4136, 4160) ∧
    (run_pair_after_free 32).map (fun r => walk r.1.mem 100 r.1.heap_listp)
      = some [(4104, 8, 1, 9), (4112, 24, 0, 24), (4136, 24, 1, 25),
          (4160, 24, 1, 25), (4184, 4024, 0, 4024)] ∧
    (run_pair_after_free 32).map
        (fun r => walk (mm_free 32 (mm_free 32 r.1 r.2.1) r.2.2).mem 100 r.1.heap_listp)
      = some [(4104, 8, 1, 9), (4112, 4096, 0, 4096)] := by
  decide!

/-! ## `mm_realloc` keeps the payload -/

theorem memcpy_other (m : Mem) (dst src : Nat) : ∀ (k a : Nat), a < dst ∨ dst + k ≤ a →
    memcpy m dst src k a = m a := by
  intro k
  induction k with
  | zero => intro a _; rfl
  | succ k ih =>
    intro a h
    simp only [memcpy]
    rw [if_neg (by omega)]
    exact ih a (by omega)

theorem memcpy_dst (m : Mem) (dst src : Nat) : ∀ (k : Nat), src + k ≤ dst ∨ dst + k ≤ src →
    ∀ i, i < k → memcpy m dst src k (dst + i) = m (src + i) := by
  intro k
  induction k with
  | zero => intro _ i hi; omega
  | succ k ih =>
    intro h i hi
    simp only [memcpy]
    by_cases hik : i = k
    · subst hik
      rw [if_pos rfl]
      exact memcpy_other m dst src i _ (by omega)
    · rw [if_neg (by omega)]
      exact ih (by omega) i (by omega)

theorem adjust_gt8 (W n : Nat) (hW : 32 ≤ W) (hlt : n < 2 ^ W) (h : 8 < adjust W n) :
    n ≤ 8 ∨ n + 15 < 2 ^ W := by
  have hM := pow_ge W hW
  by_contra hc
  push_neg at hc
  unfold adjust at h
  simp only [DSIZE] at h
  rw [if_neg (by omega)] at h
  generalize 2 ^ W = M at *
  have e0 : n + 8 + (8 - 1) = (n + 15 - M) + M := by omega
  have e1 : ((n + 15 - M) + M) % M = n + 15 - M := by
    rw [Nat.add_mod_right]
    exact Nat.mod_eq_of_lt (show n + 15 - M < M by omega)
  rw [e0, e1] at h
  have e3 : 8 * ((n + 15 - M) / 8) < M := by omega
  rw [Nat.mod_eq_of_lt e3] at h
  omega

theorem placeL_head (asize c : Nat) (h : asize ≤ c) :
    ∃ zq rest, placeL asize c = (zq, true) :: rest ∧ asize ≤ zq ∧ zq ≤ c ∧
      total (placeL asize c) = c := by
  unfold placeL
  split
  · exact ⟨asize, _, rfl, le_refl _, h, by simp only [total]; omega⟩
  · exact ⟨c, _, rfl, h, le_refl _, by simp only [total]; omega⟩

/-- Writing into the payload of a block keeps the heap well formed. -/
theorem InvF_payload (s : Heap) (L : List (Nat × Bool)) (q : Nat) (b : Nat × Bool) (m1 : Mem)
    (h : InvF s L) (hq : BlockAt s.heap_listp L q b)
    (hfr : ∀ a, a < q ∨ q + b.1 - 8 ≤ a → m1 a = s.mem a) :
    InvF { s with mem := m1 } L := by
  obtain ⟨hl8, hc, he, hbm, hmax, hna⟩ := h
  obtain ⟨A, B, hL, hqa⟩ := BlockAt_split _ _ _ _ hq
  subst hL
  have hend := Chain_end _ _ _ _ hc
  simp only [total_append, total] at hend
  have hc0 := hc
  rw [Chain_append] at hc
  simp only [Chain] at hc
  obtain ⟨_, hb1, hb8, hh, hf, _⟩ := hc
  rw [← hqa] at hh hf
  refine ⟨hl8, ?_, ?_, hbm, hmax, hna⟩
  · have hc1 : Chain s.mem s.heap_listp (A ++ [b] ++ B) s.mem_brk := by simpa using hc0
    have := Chain_replace_mid s.mem m1 s.heap_listp A [b] [b] B s.mem_brk (by omega) hc1
      (by
        intro a ha
        simp only [total] at ha
        exact hfr a (by omega))
      (by
        simp only [total]
        rw [← hqa]
        have e : q + (b.1 + 0) = q + b.1 := by omega
        rw [e]
        refine Chain_one _ _ b hb1 hb8 ?_ ?_
        · rw [← hh]; exact GET_congr _ _ _ fun a _ h2 => hfr a (by omega)
        · rw [← hf]; exact GET_congr _ _ _ fun a h1 _ => hfr a (by omega))
    simpa using this
  · show GET m1 (s.mem_brk - 4) = 1
    rw [← he]; exact GET_congr _ _ _ fun a h1 _ => hfr a (by omega)

theorem absorbNext_le (sz : Nat) (n : Nat × Bool) (r : List (Nat × Bool)) :
    (absorbNext sz (n :: r)).1 ≤ sz + n.1 ∧
      (n.2 = true → (absorbNext sz (n :: r)).1 = sz) := by
  obtain ⟨n1, n2⟩ := n
  cases n2 <;> simp [absorbNext]

/-- The function `mm_free` leaves every other allocated block as it was: header, payload
and footer. -/
theorem mm_free_other (W : Nat) (s : Heap) (X : List (Nat × Bool)) (prev : Nat × Bool)
    (sz : Nat) (post : List (Nat × Bool)) (q zq : Nat) (hW : 32 ≤ W)
    (h : InvF s (X ++ prev :: (sz, true) :: post))
    (hq : BlockAt s.heap_listp (X ++ prev :: (sz, true) :: post) q (zq, true))
    (hne : q ≠ s.heap_listp + total X + prev.1) :
    ∀ a, q - 4 ≤ a → a < q + zq - 4 →
      (mm_free W s (s.heap_listp + total X + prev.1)).mem a = s.mem a := by
  intro a ha1 ha2
  have hl8 := h.1
  have hp1 : 8 ≤ prev.1 := by
    have := h.2.1
    rw [Chain_append] at this
    simp only [Chain] at this
    exact this.2.1
  refine (mm_free_full W s X prev sz post hW h).2.2.2.2 a ?_
  rw [BlockAt_append] at hq
  rcases hq with hq | hq
  · have := BlockAt_bounds _ _ _ _ hq
    left
    split <;> omega
  · simp only [BlockAt] at hq
    rcases hq with ⟨h1, h2⟩ | ⟨h1, _⟩ | hq
    · left
      have hp2 : prev.2 = true := by rw [← h2]
      have hp3 : prev.1 = zq := by rw [← h2]
      rw [if_pos hp2]
      omega
    · exact absurd h1 hne
    · right
      cases post with
      | nil => simp [BlockAt] at hq
      | cons n r =>
        have hab := absorbNext_le sz n r
        simp only [BlockAt] at hq
        rcases hq with ⟨h1, h2⟩ | hq
        · have hn2 : n.2 = true := by rw [← h2]
          rw [hab.2 hn2]
          omega
        · have := BlockAt_bounds _ _ _ _ hq
          omega


theorem next_header (m : Mem) (bp : Nat) (A : List (Nat × Bool)) (b : Nat × Bool)
    (B : List (Nat × Bool)) (e : Nat) (hc : Chain m bp (A ++ b :: B) e)
    (he : GET m (e - 4) = 1) :
    ∃ nsz na, nsz % 8 = 0 ∧ GET m (bp + total A + b.1 - 4) = tag (nsz, na) ∧
      bp + total A + b.1 + nsz ≤ e ∧ (na = false → 8 ≤ nsz) := by
  have hend := Chain_end _ _ _ _ hc
  simp only [total_append, total] at hend
  rw [Chain_append] at hc
  simp only [Chain] at hc
  obtain ⟨_, _, _, _, _, hB⟩ := hc
  cases B with
  | nil =>
    simp only [Chain] at hB
    refine ⟨0, true, rfl, ?_, by omega, by simp⟩
    rw [hB]; simpa [tag] using he
  | cons n r =>
    simp only [Chain] at hB
    obtain ⟨n1, n8, nh, _, _⟩ := hB
    simp only [total] at hend
    exact ⟨n.1, n.2, n8, nh, by omega, fun _ => n1⟩

theorem BlockAt_size_pos : ∀ (bs : List (Nat × Bool)) (m : Mem) (bp e q : Nat)
    (b : Nat × Bool), Chain m bp bs e → BlockAt bp bs q b →
    8 ≤ b.1 ∧ b.1 % 8 = 0 ∧ GET m (q - 4) = tag b := by
  intro bs
  induction bs with
  | nil => intro m bp e q b _ h; simp [BlockAt] at h
  | cons x xs ih =>
    intro m bp e q b hc h
    simp only [Chain] at hc
    simp only [BlockAt] at h
    rcases h with ⟨rfl, rfl⟩ | h
    · exact ⟨hc.1, hc.2.1, hc.2.2.1⟩
    · exact ih m _ e q b hc.2.2.2.2 h

/-- Where an allocated block of the old heap lies after `mm_malloc` placed a
new block at `np` in a free block of size `c`: entirely below or entirely
above it, and it is still a block of the new list. -/
theorem old_block_position (full pre post : List (Nat × Bool)) (hl p sz np c asize : Nat)
    (hp : BlockAt hl full p (sz, true)) (hnp : np = hl + total pre)
    (hplt : total (placeL asize c) = c)
    (hdec : (full = pre ++ (c, false) :: post) ∨
      (post = [] ∧ (full = pre ∨ ∃ z, full = pre ++ [(z, false)]))) :
    (p + sz ≤ np ∨ np + c ≤ p) ∧ BlockAt hl (pre ++ placeL asize c ++ post) p (sz, true) := by
  rcases hdec with hf | ⟨_, hf | ⟨z, hf⟩⟩
  · rw [hf, BlockAt_append] at hp
    rcases hp with hq | hq
    · have := BlockAt_bounds _ _ _ _ hq
      refine ⟨Or.inl (by omega), ?_⟩
      rw [List.append_assoc, BlockAt_append]; exact Or.inl hq
    · simp only [BlockAt] at hq
      rcases hq with ⟨_, h2⟩ | hq
      · simp at h2
      · have := BlockAt_bounds _ _ _ _ hq
        refine ⟨Or.inr (by omega), ?_⟩
        rw [List.append_assoc, BlockAt_append]; right
        rw [BlockAt_append]; right
        rw [hplt]; exact hq
  · rw [hf] at hp
    have := BlockAt_bounds _ _ _ _ hp
    refine ⟨Or.inl (by omega), ?_⟩
    rw [List.append_assoc, BlockAt_append]; exact Or.inl hp
  · rw [hf, BlockAt_append] at hp
    rcases hp with hq | hq
    · have := BlockAt_bounds _ _ _ _ hq
      refine ⟨Or.inl (by omega), ?_⟩
      rw [List.append_assoc, BlockAt_append]; exact Or.inl hq
    · simp [BlockAt] at hq

/-- Copying `k` payload bytes from the allocated block `p` to another
allocated block `np` and then freeing `p` leaves the copy in place. -/
theorem copy_then_free (W : Nat) (s1 : Heap) (L : List (Nat × Bool)) (p sz np zq k : Nat)
    (hW : 32 ≤ W) (hI : InvF s1 L) (hp : BlockAt s1.heap_listp L p (sz, true))
    (hnp : BlockAt s1.heap_listp L np (zq, true)) (hne : np ≠ p)
    (hlow : s1.heap_listp < p) (hk1 : k + 8 ≤ zq) (hk2 : k + 8 ≤ sz)
    (hdis : p + sz ≤ np ∨ np + zq ≤ p) :
    ∀ i, i < k →
      (mm_free W { s1 with mem := memcpy s1.mem np p k } p).mem (np + i) = s1.mem (p + i) := by
  intro i hi
  have hl8 := hI.1
  have hnb := BlockAt_bounds _ _ _ _ hnp
  have hI2 : InvF { s1 with mem := memcpy s1.mem np p k } L :=
    InvF_payload s1 L np (zq, true) _ hI hnp
      (fun a ha => memcpy_other _ _ _ _ _ (by simp only at ha; omega))
  obtain ⟨A1, B1, hL1, hpa1⟩ := BlockAt_split _ _ _ _ hp
  obtain ⟨X, prev, hX⟩ : ∃ X prev, A1 = X ++ [prev] := by
    rcases List.eq_nil_or_concat A1 with h1 | ⟨X, prev, h1⟩
    · subst h1; simp only [total] at hpa1; omega
    · exact ⟨X, prev, by simpa using h1⟩
  subst hX
  have hL2 : L = X ++ prev :: (sz, true) :: B1 := by rw [hL1]; simp
  subst hL2
  have hpe : p = s1.heap_listp + total X + prev.1 := by
    rw [hpa1]; simp only [total_append, total]; omega
  have hfo := mm_free_other W { s1 with mem := memcpy s1.mem np p k } X prev sz B1 np zq hW
    hI2 hnp (by rw [← hpe]; exact hne)
  rw [← hpe] at hfo
  rw [hfo (np + i) (by omega) (by omega)]
  exact memcpy_dst s1.mem np p k (by omega) i hi

/-- On a well-formed heap `mm_realloc` keeps the content: for an allocated
block `p` of size `sz` of such a heap
and `n > 0`, `mm_realloc(p, n)` returns (given fuel for the scan), and when
the returned pointer `q` is not `NULL` the first `min n (sz - 8)` bytes at
`q` afterwards are the bytes that were at `p` before: on the path that
returns `p` unchanged, on in-place growth into the next block, and on
`mm_malloc` + `memcpy` + `mm_free`. -/
theorem realloc_preserves (W fuel : Nat) (s : Heap) (bs : List (Nat × Bool)) (p sz n : Nat)
    (hW : 32 ≤ W) (h : Inv s bs) (hp : BlockAt (s.heap_listp + 8) bs p (sz, true))
    (hn : n ≠ 0) (hlt : n < 2 ^ W) (hfuel : bs.length + 1 < fuel) :
    ∃ s1 q, mm_realloc W fuel s p n = some (s1, q) ∧
      (q ≠ NULL → ∀ i, i < min n (sz - 8) → s1.mem (q + i) = s.mem (p + i)) := by
  have hM := pow_ge W hW
  have hpF : BlockAt s.heap_listp ((8, true) :: bs) p (sz, true) := Or.inr hp
  have hI : InvF s ((8, true) :: bs) := h
  obtain ⟨hl8, hc, he, hbm, hmax, hna⟩ := hI
  have hpb := BlockAt_bounds _ _ _ _ hp
  obtain ⟨hs1, hs8, hh⟩ := BlockAt_size_pos _ _ _ _ _ _ hc hpF
  obtain ⟨A, B, hfull, hpa⟩ := BlockAt_split _ _ _ _ hpF
  have hend := Chain_end _ _ _ _ hc
  have hnx : ∃ nsz na, nsz % 8 = 0 ∧ GET s.mem (p + sz - 4) = tag (nsz, na) ∧
      p + sz + nsz ≤ s.mem_brk := by
    rw [hfull] at hc
    obtain ⟨nsz, na, hn8, hnh, hnle, _⟩ := next_header _ _ _ _ _ _ hc he
    rw [← hpa] at hnh hnle
    exact ⟨nsz, na, hn8, hnh, hnle⟩
  obtain ⟨nsz, na, hn8, hnh, hnle⟩ := hnx
  have hsz : GET_SIZE s.mem (p - 4) = sz := tag_size _ _ _ hh hs8
  have hnsz : GET_SIZE s.mem (p + sz - 4) = nsz := tag_size _ _ _ hnh hn8
  have hnal : (GET_ALLOC s.mem (p + sz - 4) != 0) = na := tag_alloc_ne _ _ _ hnh hn8
  have hpne : p ≠ NULL := by simp only [NULL]; omega
  have hnext : NEXT_BLKP s.mem p = p + sz := by
    unfold NEXT_BLKP; simp only [WSIZE]; rw [hsz]
  have hcs : (sz + nsz) % 2 ^ W = sz + nsz :=
    Nat.mod_eq_of_lt (show sz + nsz < 2 ^ W by omega)
  have hcopy : (sz + 2 ^ W - 8) % 2 ^ W = sz - 8 :=
    sub_mod_pow W sz 8 hs1 (show sz < 2 ^ W by omega)
  have hk : (if n < sz - 8 then n else sz - 8) = min n (sz - 8) := by
    split <;> omega
  have hbig : sz + nsz + 1 < 4294967296 := by omega
  clear hend hc hna hfull hpa hh hnh he
  unfold mm_realloc
  simp only [hpne, hn, if_false, HDRP, WSIZE, hsz, hnext, hnsz, hnal, hcs, DSIZE, hcopy, hk]
  by_cases hfits : adjust W n ≤ sz
  · simp only [hfits, if_true]
    exact ⟨s, p, rfl, fun _ _ _ => rfl⟩
  · simp only [hfits, if_false]
    by_cases hgrow : (!na && decide (sz + nsz ≥ adjust W n)) = true
    · -- growth in place
      simp only [hgrow, if_true]
      refine ⟨_, _, rfl, ?_⟩
      intro _ i hi
      have hge : sz ≤ sz + nsz := Nat.le_add_right _ _
      have e1 : PACK (sz + nsz) 1 = sz + nsz + 1 :=
        PACK_alloc _ (show (sz + nsz) % 8 = 0 by omega)
      have e2 : FTRP (PUT s.mem (p - 4) (sz + nsz + 1)) p = p + (sz + nsz) - 8 := by
        unfold FTRP; simp only [HDRP, WSIZE, DSIZE]
        rw [GET_SIZE_PUT_same s.mem (p - 4) (sz + nsz) 1 (by omega) (by norm_num) hbig]
      simp only [e1, e2]
      rw [PUT_other _ _ _ _ (show p + i < p + (sz + nsz) - 8 ∨ _ by omega),
        PUT_other _ _ _ _ (show _ ∨ p - 4 + 4 ≤ p + i by omega)]
    · -- allocate, copy, free
      simp only [hgrow, Bool.false_eq_true, if_false]
      have hin := adjust_gt8 W n hW hlt (by omega)
      obtain ⟨ha16, ha8, han, _⟩ := adjust_inrange W n hW hin
      obtain ⟨s1, np, hm, hhl1, hmx1, hbrk1, hcase⟩ := mm_malloc_full W fuel s ((8, true) :: bs)
        n hW h (by simp) hn hin (by simp; omega)
      rw [hm]
      rcases hcase with ⟨hnull, _⟩ | ⟨pre, c, post, hI1, hac, hnp, hdec, hfr1⟩
      · subst hnull
        simp only [if_true]
        exact ⟨_, _, rfl, fun hq => absurd rfl hq⟩
      · have hnpne : np ≠ NULL := by rw [hnp]; simp only [NULL]; omega
        simp only [hnpne, if_false]
        refine ⟨_, _, rfl, ?_⟩
        intro _ i hi
        obtain ⟨zq, rest, hpl, hzq1, hzq2, hplt⟩ := placeL_head (adjust W n) c hac
        obtain ⟨hord, hpL1⟩ := old_block_position ((8, true) :: bs) pre post s.heap_listp p sz
          np c (adjust W n) hpF hnp hplt
          (by
            rcases hdec with ⟨hf, _⟩ | hf
            · exact Or.inl hf
            · exact Or.inr hf)
        have hnpL1 : BlockAt s1.heap_listp (pre ++ placeL (adjust W n) c ++ post) np
            (zq, true) := by
          rw [List.append_assoc, BlockAt_append]; right
          rw [hpl, hhl1, ← hnp]; left; exact ⟨rfl, rfl⟩
        rw [← hhl1] at hpL1
        have hcf := copy_then_free W s1 _ p sz np zq (min n (sz - 8)) hW hI1 hpL1 hnpL1
          (by omega) (by omega) (by omega) (by omega) (by omega) i hi
        rw [hcf]
        exact hfr1 (p + i) (by omega)

/-- An instance of `realloc_preserves`: on the patterned heap `mm_realloc(4112, 100)` takes the
copy path (the next block is allocated), returns 4160, and the 16 payload
bytes of the old block are found at 4160 (byte 5 is `4117 % 251 = 101`). -/
theorem realloc_preserves_witness :
    Inv heap_pattern [(24, true), (24, true), (4048, false)] ∧
    BlockAt (heap_pattern.heap_listp + 8) [(24, true), (24, true), (4048, false)] 4112
      (24, true) ∧
    (mm_realloc 32 100 heap_pattern 4112 100).map (fun r => (r.2, r.1.mem (r.2 + 5)))
      = some (4160, 101) ∧
    (∀ r ∈ mm_realloc 32 100 heap_pattern 4112 100, ∀ i, i < min 100 (24 - 8) →
      r.1.mem (r.2 + i) = heap_pattern.mem (4112 + i)) := by
  have hI : Inv heap_pattern [(24, true), (24, true), (4048, false)] := by decide
  have hB : BlockAt (heap_pattern.heap_listp + 8) [(24, true), (24, true), (4048, false)] 4112
      (24, true) := by decide
  have hq : (mm_realloc 32 100 heap_pattern 4112 100).map (fun r => (r.2, r.1.mem (r.2 + 5)))
      = some (4160, 101) := by decide!
  refine ⟨hI, hB, hq, ?_⟩
  intro r hr i hi
  obtain ⟨s1, q, h1, h2⟩ := realloc_preserves 32 100 heap_pattern _ 4112 24 100 (by decide) hI
    hB (by decide) (by decide) (by decide)
  rw [Option.mem_def, h1] at hr
  have hr2 : (s1, q) = r := Option.some.inj hr
  subst hr2
  rw [h1] at hq
  have hq2 : q = 4160 := by
    have := Option.some.inj hq
    exact (Prod.mk.inj this).1
  exact h2 (by rw [hq2]; decide) i hi

/-! ## Requests below the overflow threshold keep the heap well formed -/

theorem find_fit_loop_some (m : Mem) (asize : Nat) : ∀ (bs : List (Nat × Bool))
    (bp e fuel r : Nat), 4 ≤ bp → Chain m bp bs e → GET m (e - 4) = 1 →
    find_fit_loop m asize fuel bp = some r → r = firstFit asize bp bs := by
  intro bs
  induction bs with
  | nil =>
    intro bp e fuel r _ hc he hf
    simp only [Chain] at hc
    subst hc
    cases fuel with
    | zero => simp [find_fit_loop] at hf
    | succ f =>
      simp only [find_fit_loop, HDRP, WSIZE, GET_SIZE_one m _ he, firstFit] at hf ⊢
      simpa using hf.symm
  | cons b bs ih =>
    intro bp e fuel r hbp hc he hf
    simp only [Chain] at hc
    obtain ⟨h1, h2, h3, _, h5⟩ := hc
    cases fuel with
    | zero => simp [find_fit_loop] at hf
    | succ f =>
      have hs := tag_size m _ b h3 h2
      have ha := tag_alloc m _ b h3 h2
      simp only [find_fit_loop, HDRP, WSIZE, hs, ha, NEXT_BLKP] at hf
      have hpos : b.1 > 0 := by omega
      simp only [hpos, if_true] at hf
      simp only [firstFit]
      cases hb : b.2
      · simp only [hb, Bool.false_eq_true, if_false] at hf
        by_cases hfit : asize ≤ b.1
        · simp only [hfit] at hf ⊢
          simpa using hf.symm
        · simp only [hfit] at hf ⊢
          simp only [ge_iff_le, decide_False, Bool.and_false, Bool.false_eq_true, if_false,
            and_false] at hf ⊢
          exact ih _ e f r (by omega) h5 he hf
      · simp only [hb, if_true] at hf
        simp only [Nat.one_ne_zero, decide_False, Bool.false_and, Bool.false_eq_true,
          if_false] at hf
        simp only [Bool.true_eq_false, false_and, if_false]
        exact ih _ e f r (by omega) h5 he hf

theorem mm_malloc_fuel (W fuel : Nat) (s : Heap) (full : List (Nat × Bool)) (size : Nat)
    (r : Heap × Nat) (h : InvF s full) (hm : mm_malloc W fuel s size = some r) :
    mm_malloc W (full.length + 1) s size = some r := by
  unfold mm_malloc at hm ⊢
  by_cases h0 : size = 0
  · simpa [h0] using hm
  · simp only [h0, if_false] at hm ⊢
    rw [find_fit_InvF (full.length + 1) s full _ h (by omega)]
    cases hf : find_fit fuel s (adjust W size) with
    | none => rw [hf] at hm; simp at hm
    | some bp =>
      rw [hf] at hm
      have := find_fit_loop_some s.mem (adjust W size) full s.heap_listp s.mem_brk fuel bp
        (by have := h.1; omega) h.2.1 h.2.2.1 hf
      rw [← this]
      exact hm

theorem mm_realloc_fuel (W fuel : Nat) (s : Heap) (full : List (Nat × Bool)) (p size : Nat)
    (r : Heap × Nat) (h : InvF s full) (hm : mm_realloc W fuel s p size = some r) :
    mm_realloc W (full.length + 1) s p size = some r := by
  unfold mm_realloc at hm ⊢
  by_cases hp : p = NULL
  · simp only [hp, if_true] at hm ⊢
    exact mm_malloc_fuel W fuel s full size r h hm
  · simp only [hp, if_false] at hm ⊢
    by_cases h0 : size = 0
    · simpa [h0] using hm
    · simp only [h0, if_false] at hm ⊢
      split
      · rename_i h1; simpa [h1] using hm
      · rename_i h1
        simp only [h1, if_false] at hm
        split
        · rename_i h2; simpa [h2] using hm
        · rename_i h2
          simp only [h2] at hm
          cases hmal : mm_malloc W fuel s size with
          | none => rw [hmal] at hm; simp at hm
          | some r1 =>
            rw [hmal] at hm
            rw [mm_malloc_fuel W fuel s full size r1 h hmal]
            exact hm


theorem BlockAt_unique : ∀ (bs : List (Nat × Bool)) (m : Mem) (bp e q : Nat)
    (b b1 : Nat × Bool), Chain m bp bs e → BlockAt bp bs q b → BlockAt bp bs q b1 →
    b = b1 := by
  intro bs
  induction bs with
  | nil => intro m bp e q b b1 _ h; simp [BlockAt] at h
  | cons x xs ih =>
    intro m bp e q b b1 hc h h1
    simp only [Chain] at hc
    simp only [BlockAt] at h h1
    rcases h with ⟨rfl, rfl⟩ | h
    · rcases h1 with ⟨_, rfl⟩ | h1
      · rfl
      · have := BlockAt_bounds _ _ _ _ h1; omega
    · rcases h1 with ⟨rfl, rfl⟩ | h1
      · have := BlockAt_bounds _ _ _ _ h; omega
      · exact ih m _ e q b b1 hc.2.2.2.2 h h1

theorem head_of_InvF (s : Heap) (L : List (Nat × Bool)) (h : InvF s L)
    (hh : GET s.mem (s.heap_listp - 4) = 9) (hlt : s.heap_listp < s.mem_brk) :
    ∃ bs, L = (8, true) :: bs := by
  cases L with
  | nil =>
    have := h.2.1
    simp only [Chain] at this
    omega
  | cons b bs =>
    have := h.2.1
    simp only [Chain] at this
    obtain ⟨_, h8, ht, _⟩ := this
    rw [hh] at ht
    obtain ⟨b1, b2⟩ := b
    refine ⟨bs, ?_⟩
    cases b2
    · simp only [tag] at ht h8; simp at ht; omega
    · simp only [tag] at ht h8; simp at ht
      have : b1 = 8 := by omega
      rw [this]

theorem BlockAt_placeL (asize c np q z zq : Nat) (rest : List (Nat × Bool))
    (hpl : placeL asize c = (zq, true) :: rest) :
    BlockAt np (placeL asize c) q (z, true) ↔ q = np ∧ z = zq := by
  unfold placeL at hpl ⊢
  split at hpl
  · rename_i h
    rw [if_pos h]
    simp only [List.cons.injEq, Prod.mk.injEq, and_true] at hpl
    simp only [BlockAt, Prod.mk.injEq, and_true, Bool.true_eq_false, and_false, or_false]
    rw [hpl.1]
  · rename_i h
    rw [if_neg h]
    simp only [List.cons.injEq, Prod.mk.injEq, and_true] at hpl
    simp only [BlockAt, Prod.mk.injEq, and_true, or_false]
    rw [hpl.1]

/-- The allocated blocks after `mm_malloc`: those of before and the new one. -/
theorem alloc_after_malloc (full pre post rest : List (Nat × Bool))
    (hl np c asize zq : Nat) (hnp : np = hl + total pre)
    (hpl : placeL asize c = (zq, true) :: rest) (hplt : total (placeL asize c) = c)
    (hdec : (full = pre ++ (c, false) :: post) ∨
      (post = [] ∧ (full = pre ∨ ∃ z, full = pre ++ [(z, false)]))) (q z : Nat) :
    BlockAt hl (pre ++ placeL asize c ++ post) q (z, true) ↔
      BlockAt hl full q (z, true) ∨ (q = np ∧ z = zq) := by
  rw [List.append_assoc, BlockAt_append, BlockAt_append, ← hnp,
    BlockAt_placeL asize c np q z zq rest hpl, hplt]
  rcases hdec with hf | ⟨hpost, hf | ⟨z0, hf⟩⟩
  · rw [hf, BlockAt_append, ← hnp]
    simp only [BlockAt, Prod.mk.injEq, Bool.true_eq_false, and_false, false_or]
    tauto
  · rw [hf, hpost]
    simp only [BlockAt, or_false]
  · rw [hf, hpost, BlockAt_append, ← hnp]
    simp only [BlockAt, Prod.mk.injEq, Bool.true_eq_false, and_false, or_false]

theorem BlockAt_absorbNext (sz bp q : Nat) (b : Nat × Bool) (post : List (Nat × Bool))
    (hb : b.2 = true) :
    BlockAt (bp + (absorbNext sz post).1) (absorbNext sz post).2 q b ↔
      BlockAt (bp + sz) post q b := by
  unfold absorbNext
  split
  · rename_i n r
    simp only [BlockAt]
    have e : bp + sz + n = bp + (sz + n) := by omega
    rw [e]
    constructor
    · intro h; exact Or.inr h
    · intro h
      rcases h with ⟨_, h2⟩ | h
      · rw [h2] at hb; simp at hb
      · exact h
  · rfl

/-- The allocated blocks after `mm_free(p)`: those of before except `p`. -/
theorem alloc_after_free (m : Mem) (hl e : Nat) (X : List (Nat × Bool)) (prev : Nat × Bool)
    (sz : Nat) (post : List (Nat × Bool))
    (hc : Chain m hl (X ++ prev :: (sz, true) :: post) e) (q z : Nat) :
    BlockAt hl (coalesceL X prev sz post) q (z, true) ↔
      BlockAt hl (X ++ prev :: (sz, true) :: post) q (z, true) ∧
        q ≠ hl + total X + prev.1 := by
  rw [Chain_append] at hc
  simp only [Chain] at hc
  obtain ⟨_, hp1, _, _, _, hs1, _⟩ := hc
  have hab := BlockAt_absorbNext sz (hl + total X + prev.1) q (z, true) post rfl
  rw [BlockAt_append]
  simp only [BlockAt]
  unfold coalesceL
  split
  · rename_i hp
    rw [BlockAt_append]
    simp only [BlockAt, Prod.mk.injEq, Bool.true_eq_false, and_false, false_or]
    rw [hab]
    constructor
    · intro h
      rcases h with h | ⟨h1, h2⟩ | h
      · have := BlockAt_bounds _ _ _ _ h
        exact ⟨Or.inl h, by omega⟩
      · exact ⟨Or.inr (Or.inl ⟨h1, h2⟩), by omega⟩
      · have := BlockAt_bounds _ _ _ _ h
        exact ⟨Or.inr (Or.inr (Or.inr h)), by omega⟩
    · intro h
      rcases h with ⟨h | h | ⟨h, _⟩ | h, hne⟩
      · exact Or.inl h
      · exact Or.inr (Or.inl h)
      · exact absurd h hne
      · exact Or.inr (Or.inr h)
  · rename_i hp
    rw [BlockAt_append]
    simp only [BlockAt, Prod.mk.injEq, Bool.true_eq_false, and_false, false_or]
    have e : hl + total X + (prev.1 + (absorbNext sz post).1)
        = hl + total X + prev.1 + (absorbNext sz post).1 := by omega
    rw [e, hab]
    constructor
    · intro h
      rcases h with h | h
      · have := BlockAt_bounds _ _ _ _ h
        exact ⟨Or.inl h, by omega⟩
      · have := BlockAt_bounds _ _ _ _ h
        exact ⟨Or.inr (Or.inr (Or.inr h)), by omega⟩
    · intro h
      rcases h with ⟨h | ⟨_, h⟩ | ⟨h, _⟩ | h, hne⟩
      · exact Or.inl h
      · rw [← h] at hp; simp at hp
      · exact absurd h hne
      · exact Or.inr h

theorem pre_head (bs pre post : List (Nat × Bool)) (c : Nat)
    (hdec : ((8, true) :: bs = pre ++ (c, false) :: post) ∨
      (post = [] ∧ ((8, true) :: bs = pre ∨ ∃ z, (8, true) :: bs = pre ++ [(z, false)]))) :
    ∃ pre1, pre = (8, true) :: pre1 := by
  cases pre with
  | nil =>
    rcases hdec with hf | ⟨_, hf | ⟨z, hf⟩⟩
    · simp at hf
    · simp at hf
    · simp at hf
  | cons x pre1 =>
    rcases hdec with hf | ⟨_, hf | ⟨z, hf⟩⟩
    · simp only [List.cons_append, List.cons.injEq] at hf
      exact ⟨pre1, by rw [← hf.1]⟩
    · simp only [List.cons.injEq] at hf
      exact ⟨pre1, by rw [← hf.1]⟩
    · simp only [List.cons_append, List.cons.injEq] at hf
      exact ⟨pre1, by rw [← hf.1]⟩

theorem not_alloc_at_new (m : Mem) (full pre post : List (Nat × Bool)) (hl e np c z : Nat)
    (hc : Chain m hl full e) (hnp : np = hl + total pre)
    (hdec : (full = pre ++ (c, false) :: post) ∨
      (post = [] ∧ (full = pre ∨ ∃ z, full = pre ++ [(z, false)]))) :
    ¬ BlockAt hl full np (z, true) := by
  intro hb
  obtain ⟨hz, _, _⟩ := BlockAt_size_pos _ _ _ _ _ _ hc hb
  rcases hdec with hf | ⟨_, hf | ⟨z0, hf⟩⟩
  · subst hf
    have h2 := BlockAt_mid pre post hl (c, false)
    rw [← hnp] at h2
    have := BlockAt_unique _ _ _ _ _ _ _ hc hb h2
    simp at this
  · subst hf
    have := BlockAt_bounds _ _ _ _ hb
    simp only at this hz
    omega
  · subst hf
    have h2 := BlockAt_mid pre [] hl (z0, false)
    rw [← hnp] at h2
    have := BlockAt_unique _ _ _ _ _ _ _ hc hb h2
    simp at this

theorem BlockAt_prologue (hl q z : Nat) (bs : List (Nat × Bool)) :
    BlockAt hl ((8, true) :: bs) q (z, true) ↔
      (q = hl ∧ z = 8) ∨ BlockAt (hl + 8) bs q (z, true) := by
  simp only [BlockAt, Prod.mk.injEq, and_true]

theorem LiveInv_malloc (W fuel : Nat) (s : Heap) (L : List (Nat × Nat))
    (bs : List (Nat × Bool)) (size : Nat) (s1 : Heap) (p : Nat) (hW : 32 ≤ W)
    (h : LiveInv s L bs) (hin : size + 15 < 2 ^ W)
    (hm : mm_malloc W fuel s size = some (s1, p)) :
    (∃ bs1, LiveInv s1 (if p = NULL then L else (p, size) :: L) bs1) ∧
      s1.heap_listp = s.heap_listp ∧ s1.mem_max_addr = s.mem_max_addr ∧
      (p ≠ NULL → p ∉ L.map Prod.fst) := by
  obtain ⟨hI, hnd, hmem, hsz⟩ := h
  by_cases h0 : size = 0
  · unfold mm_malloc at hm
    simp only [h0, if_true, Option.some.injEq, Prod.mk.injEq] at hm
    obtain ⟨rfl, rfl⟩ := hm
    exact ⟨⟨bs, by simpa using ⟨hI, hnd, hmem, hsz⟩⟩, rfl, rfl, fun h => absurd rfl h⟩
  · have hm2 := mm_malloc_fuel W fuel s _ size _ hI hm
    obtain ⟨ha16, ha8, han, _⟩ := adjust_inrange W size hW (Or.inr hin)
    obtain ⟨s2, p2, hm3, hhl, hmx, _, hcase⟩ := mm_malloc_full W (((8, true) :: bs).length + 1) s
      ((8, true) :: bs) size hW hI (by simp) h0 (Or.inr hin) (by omega)
    rw [hm2] at hm3
    simp only [Option.some.injEq, Prod.mk.injEq] at hm3
    obtain ⟨rfl, rfl⟩ := hm3
    refine ⟨?_, hhl, hmx, ?_⟩
    · rcases hcase with ⟨hnull, hs⟩ | ⟨pre, c, post, hI1, hac, hnp, hdec, _⟩
      · subst hs
        exact ⟨bs, by simpa [hnull] using ⟨hI, hnd, hmem, hsz⟩⟩
      · have hdec2 : ((8, true) :: bs = pre ++ (c, false) :: post) ∨
            (post = [] ∧ ((8, true) :: bs = pre ∨ ∃ z, (8, true) :: bs = pre ++ [(z, false)])) := by
          rcases hdec with ⟨hf, _⟩ | hf
          · exact Or.inl hf
          · exact Or.inr hf
        obtain ⟨pre1, hpre⟩ := pre_head bs pre post c hdec2
        obtain ⟨zq, rest, hpl, hzq1, _, hplt⟩ := placeL_head (adjust W size) c hac
        have hl8 := hI.1
        have hpge : s.heap_listp + 8 ≤ p := by
          rw [hnp, hpre]; simp only [total]; omega
        have hpne : p ≠ NULL := by simp only [NULL]; omega
        have hnew : ∀ z, ¬ BlockAt s.heap_listp ((8, true) :: bs) p (z, true) := fun z =>
          not_alloc_at_new s.mem _ pre post s.heap_listp s.mem_brk p c z hI.2.1 hnp hdec2
        have hal := alloc_after_malloc ((8, true) :: bs) pre post rest s.heap_listp p c
          (adjust W size) zq hnp hpl hplt hdec2
        have hL1 : pre ++ placeL (adjust W size) c ++ post
            = (8, true) :: (pre1 ++ placeL (adjust W size) c ++ post) := by
          rw [hpre]; rfl
        rw [hL1] at hI1 hal
        have hal2 : ∀ q z, BlockAt (s.heap_listp + 8) (pre1 ++ placeL (adjust W size) c ++ post)
            q (z, true) ↔ BlockAt (s.heap_listp + 8) bs q (z, true) ∨ (q = p ∧ z = zq) := by
          intro q z
          have := hal q z
          rw [BlockAt_prologue, BlockAt_prologue] at this
          constructor
          · intro hq
            have hb := BlockAt_bounds _ _ _ _ hq
            rcases this.1 (Or.inr hq) with (⟨h1, _⟩ | h1) | h1
            · omega
            · exact Or.inl h1
            · exact Or.inr h1
          · intro hq
            have : (q = s.heap_listp ∧ z = 8) ∨
                BlockAt (s.heap_listp + 8) (pre1 ++ placeL (adjust W size) c ++ post) q
                  (z, true) := by
              rcases hq with hq | hq
              · exact this.2 (Or.inl (Or.inr hq))
              · exact this.2 (Or.inr hq)
            rcases this with ⟨h1, _⟩ | h1
            · rcases hq with hq | hq
              · have hb := BlockAt_bounds _ _ _ _ hq; omega
              · omega
            · exact h1
        have hpL : p ∉ L.map Prod.fst := by
          intro hp
          obtain ⟨z, hz⟩ := (hmem p).1 hp
          exact hnew z ((BlockAt_prologue _ _ _ _).2 (Or.inr hz))
        refine ⟨pre1 ++ placeL (adjust W size) c ++ post, ?_⟩
        rw [if_neg hpne]
        refine ⟨hI1, ?_, ?_, ?_⟩
        · simp only [List.map_cons, List.nodup_cons]
          exact ⟨hpL, hnd⟩
        · intro q
          rw [hhl]
          simp only [List.map_cons, List.mem_cons]
          constructor
          · intro hq
            rcases hq with rfl | hq
            · exact ⟨zq, (hal2 _ _).2 (Or.inr ⟨rfl, rfl⟩)⟩
            · obtain ⟨z, hz⟩ := (hmem q).1 hq
              exact ⟨z, (hal2 _ _).2 (Or.inl hz)⟩
          · intro ⟨z, hz⟩
            rcases (hal2 _ _).1 hz with h1 | ⟨h1, _⟩
            · exact Or.inr ((hmem q).2 ⟨z, h1⟩)
            · exact Or.inl h1
        · intro q n z hq hb
          rw [hhl] at hb
          rcases List.mem_cons.1 hq with h1 | h1
          · simp only [Prod.mk.injEq] at h1
            obtain ⟨rfl, rfl⟩ := h1
            rcases (hal2 _ _).1 hb with h2 | ⟨_, h2⟩
            · exact absurd ((BlockAt_prologue _ _ _ _).2 (Or.inr h2)) (hnew z)
            · omega
          · rcases (hal2 _ _).1 hb with h2 | ⟨h2, _⟩
            · exact hsz q n z h1 h2
            · exfalso
              apply hpL
              rw [← h2]
              exact List.mem_map.2 ⟨(q, n), h1, rfl⟩
    · intro hpne
      rcases hcase with ⟨hnull, _⟩ | ⟨pre, c, post, _, _, hnp, hdec, _⟩
      · exact absurd hnull hpne
      · have hdec2 : ((8, true) :: bs = pre ++ (c, false) :: post) ∨
            (post = [] ∧ ((8, true) :: bs = pre ∨ ∃ z, (8, true) :: bs = pre ++ [(z, false)])) := by
          rcases hdec with ⟨hf, _⟩ | hf
          · exact Or.inl hf
          · exact Or.inr hf
        intro hp
        obtain ⟨z, hz⟩ := (hmem p).1 hp
        exact not_alloc_at_new s.mem _ pre post s.heap_listp s.mem_brk p c z hI.2.1 hnp hdec2
          ((BlockAt_prologue _ _ _ _).2 (Or.inr hz))


theorem coalesceL_head (X A : List (Nat × Bool)) (prev : Nat × Bool) (sz : Nat)
    (post : List (Nat × Bool)) (h : X ++ [prev] = (8, true) :: A) :
    ∃ bs1, coalesceL X prev sz post = (8, true) :: bs1 := by
  cases X with
  | nil =>
    simp only [List.nil_append, List.cons.injEq] at h
    unfold coalesceL
    rw [h.1]
    exact ⟨_, rfl⟩
  | cons x X1 =>
    simp only [List.cons_append, List.cons.injEq] at h
    unfold coalesceL
    rw [h.1]
    split
    · exact ⟨_, rfl⟩
    · exact ⟨_, rfl⟩

theorem LiveInv_free (W : Nat) (s : Heap) (L : List (Nat × Nat)) (bs : List (Nat × Bool))
    (p n : Nat) (hW : 32 ≤ W) (h : LiveInv s L bs) (hp : (p, n) ∈ L) :
    (∃ bs1, LiveInv (mm_free W s p) (L.filter fun x => x.1 != p) bs1) ∧
      (mm_free W s p).heap_listp = s.heap_listp ∧
      (mm_free W s p).mem_max_addr = s.mem_max_addr := by
  obtain ⟨hI, hnd, hmem, hsz⟩ := h
  have hl8 := hI.1
  obtain ⟨sz, hb⟩ := (hmem p).1 (List.mem_map.2 ⟨(p, n), hp, rfl⟩)
  have hbF := (BlockAt_prologue _ _ _ _).2 (Or.inr hb)
  have hpb := BlockAt_bounds _ _ _ _ hb
  obtain ⟨A1, B1, hL1, hpa1⟩ := BlockAt_split _ _ _ _ hbF
  obtain ⟨X, prev, hX⟩ : ∃ X prev, A1 = X ++ [prev] := by
    rcases List.eq_nil_or_concat A1 with h1 | ⟨X, prev, h1⟩
    · subst h1; simp only [total] at hpa1; omega
    · exact ⟨X, prev, by simpa using h1⟩
  subst hX
  have hL2 : (8, true) :: bs = X ++ prev :: (sz, true) :: B1 := by rw [hL1]; simp
  have hpe : p = s.heap_listp + total X + prev.1 := by
    rw [hpa1]; simp only [total_append, total]; omega
  have hI2 : InvF s (X ++ prev :: (sz, true) :: B1) := by rw [← hL2]; exact hI
  obtain ⟨hF, hhl, _, hmx, _⟩ := mm_free_full W s X prev sz B1 hW hI2
  rw [← hpe] at hF hhl hmx
  have hXA : ∃ A, X ++ [prev] = (8, true) :: A := by
    cases X with
    | nil =>
      simp only [List.nil_append, List.cons.injEq] at hL2
      exact ⟨[], by rw [← hL2.1]; rfl⟩
    | cons x X1 =>
      simp only [List.cons_append, List.cons.injEq] at hL2
      exact ⟨X1 ++ [prev], by rw [← hL2.1]; rfl⟩
  obtain ⟨A, hA⟩ := hXA
  obtain ⟨bs1, hbs1⟩ := coalesceL_head X A prev sz B1 hA
  have hal := alloc_after_free s.mem s.heap_listp s.mem_brk X prev sz B1 hI2.2.1
  rw [hbs1, ← hL2, ← hpe] at hal
  rw [hbs1] at hF
  have hal2 : ∀ q z, BlockAt (s.heap_listp + 8) bs1 q (z, true) ↔
      BlockAt (s.heap_listp + 8) bs q (z, true) ∧ q ≠ p := by
    intro q z
    have := hal q z
    rw [BlockAt_prologue, BlockAt_prologue] at this
    constructor
    · intro hq
      have hqb := BlockAt_bounds _ _ _ _ hq
      rcases this.1 (Or.inr hq) with ⟨⟨h1, _⟩ | h1, h2⟩
      · omega
      · exact ⟨h1, h2⟩
    · intro ⟨hq, hne⟩
      have hqb := BlockAt_bounds _ _ _ _ hq
      rcases this.2 ⟨Or.inr hq, hne⟩ with ⟨h1, _⟩ | h1
      · omega
      · exact h1
  refine ⟨⟨bs1, hF, ?_, ?_, ?_⟩, hhl, hmx⟩
  · exact (List.Nodup.sublist (List.Sublist.map _ (List.filter_sublist L)) hnd)
  · intro q
    rw [hhl]
    constructor
    · intro hq
      obtain ⟨x, hx, rfl⟩ := List.mem_map.1 hq
      rw [List.mem_filter] at hx
      obtain ⟨z, hz⟩ := (hmem x.1).1 (List.mem_map.2 ⟨x, hx.1, rfl⟩)
      exact ⟨z, (hal2 _ _).2 ⟨hz, by simpa using hx.2⟩⟩
    · intro ⟨z, hz⟩
      obtain ⟨h1, h2⟩ := (hal2 _ _).1 hz
      obtain ⟨x, hx, rfl⟩ := List.mem_map.1 ((hmem q).2 ⟨z, h1⟩)
      exact List.mem_map.2 ⟨x, List.mem_filter.2 ⟨hx, by simpa using h2⟩, rfl⟩
  · intro q m z hq hbq
    rw [hhl] at hbq
    rw [List.mem_filter] at hq
    exact hsz q m z hq.1 ((hal2 _ _).1 hbq).1

theorem LiveInv_payload (s : Heap) (L : List (Nat × Nat)) (bs : List (Nat × Bool))
    (q n : Nat) (m1 : Mem) (h : LiveInv s L bs) (hq : (q, n) ∈ L)
    (hfr : ∀ a, a < q ∨ q + n ≤ a → m1 a = s.mem a) :
    LiveInv { s with mem := m1 } L bs := by
  obtain ⟨hI, hnd, hmem, hsz⟩ := h
  obtain ⟨z, hb⟩ := (hmem q).1 (List.mem_map.2 ⟨(q, n), hq, rfl⟩)
  have hz := hsz q n z hq hb
  refine ⟨?_, hnd, hmem, hsz⟩
  exact InvF_payload s _ q (z, true) m1 hI ((BlockAt_prologue _ _ _ _).2 (Or.inr hb))
    (fun a ha => hfr a (by simp only at ha; omega))

theorem realloc_unfold (W fuel : Nat) (s : Heap) (p size sz nsz : Nat) (na : Bool)
    (hW : 32 ≤ W) (hp : p ≠ NULL) (h0 : size ≠ 0) (hs1 : 8 ≤ sz) (hs8 : sz % 8 = 0)
    (hn8 : nsz % 8 = 0) (hsum : sz + nsz + 1 < 4294967296)
    (hh : GET s.mem (p - 4) = tag (sz, true))
    (hnh : GET s.mem (p + sz - 4) = tag (nsz, na)) :
    mm_realloc W fuel s p size =
      if adjust W size ≤ sz then some (s, p)
      else if (!na && decide (sz + nsz ≥ adjust W size)) = true then
        some ({ s with
          mem := PUT (PUT s.mem (p - 4) (sz + nsz + 1)) (p + (sz + nsz) - 8) (sz + nsz + 1) }, p)
      else
        match mm_malloc W fuel s size with
        | none => none
        | some (s1, newptr) =>
          if newptr = NULL then some (s1, NULL)
          else some (mm_free W { s1 with mem := memcpy s1.mem newptr p (min size (sz - 8)) } p,
            newptr) := by
  have hM := pow_ge W hW
  have hsz : GET_SIZE s.mem (p - 4) = sz := tag_size _ _ _ hh hs8
  have hnsz : GET_SIZE s.mem (p + sz - 4) = nsz := tag_size _ _ _ hnh hn8
  have hnal : (GET_ALLOC s.mem (p + sz - 4) != 0) = na := tag_alloc_ne _ _ _ hnh hn8
  have hnext : NEXT_BLKP s.mem p = p + sz := by
    unfold NEXT_BLKP; simp only [WSIZE]; rw [hsz]
  have hcs : (sz + nsz) % 2 ^ W = sz + nsz :=
    Nat.mod_eq_of_lt (show sz + nsz < 2 ^ W by omega)
  have hcopy : (sz + 2 ^ W - 8) % 2 ^ W = sz - 8 :=
    sub_mod_pow W sz 8 hs1 (show sz < 2 ^ W by omega)
  have hk : (if size < sz - 8 then size else sz - 8) = min size (sz - 8) := by
    split <;> omega
  have e1 : PACK (sz + nsz) 1 = sz + nsz + 1 :=
    PACK_alloc _ (show (sz + nsz) % 8 = 0 by omega)
  have e2 : FTRP (PUT s.mem (p - 4) (sz + nsz + 1)) p = p + (sz + nsz) - 8 := by
    unfold FTRP; simp only [HDRP, WSIZE, DSIZE]
    rw [GET_SIZE_PUT_same s.mem (p - 4) (sz + nsz) 1 (by omega) (by norm_num) hsum]
  unfold mm_realloc
  simp only [hp, h0, if_false, HDRP, WSIZE, hsz, hnext, hnsz, hnal, hcs, DSIZE, hcopy, hk, e1,
    e2]

/-- In-place growth of `mm_realloc` keeps the heap well formed. -/
theorem realloc_grow_full (s : Heap) (A : List (Nat × Bool)) (sz nsz : Nat)
    (B : List (Nat × Bool)) (h : InvF s (A ++ (sz, true) :: (nsz, false) :: B)) :
    InvF { s with
        mem := PUT (PUT s.mem (s.heap_listp + total A - 4) (sz + nsz + 1))
                (s.heap_listp + total A + (sz + nsz) - 8) (sz + nsz + 1) }
      (A ++ (sz + nsz, true) :: B) ∧
    ∀ q z, BlockAt s.heap_listp (A ++ (sz + nsz, true) :: B) q (z, true) ↔
      (BlockAt s.heap_listp (A ++ (sz, true) :: (nsz, false) :: B) q (z, true) ∧
        q ≠ s.heap_listp + total A) ∨ (q = s.heap_listp + total A ∧ z = sz + nsz) := by
  obtain ⟨hl8, hc, he, hbm, hmax, hna⟩ := h
  have hend := Chain_end _ _ _ _ hc
  simp only [total_append, total] at hend
  have hc0 := hc
  rw [Chain_append] at hc
  simp only [Chain] at hc
  obtain ⟨hcA, hs1, hs8, _, _, hn1, hn8, _, _, _⟩ := hc
  generalize hp : s.heap_listp + total A = p at *
  have hfr : ∀ a, a < p - 4 ∨ p + (sz + nsz) - 4 ≤ a →
      PUT (PUT s.mem (p - 4) (sz + nsz + 1)) (p + (sz + nsz) - 8) (sz + nsz + 1) a
        = s.mem a := by
    intro a ha
    rw [PUT_other _ _ _ _ (by omega), PUT_other _ _ _ _ (by omega)]
  refine ⟨⟨hl8, ?_, ?_, hbm, hmax, ?_⟩, ?_⟩
  · have hc1 : Chain s.mem s.heap_listp (A ++ [(sz, true), (nsz, false)] ++ B) s.mem_brk := by
      simpa using hc0
    have := Chain_replace_mid s.mem
      (PUT (PUT s.mem (p - 4) (sz + nsz + 1)) (p + (sz + nsz) - 8) (sz + nsz + 1))
      s.heap_listp A [(sz, true), (nsz, false)]
      [(sz + nsz, true)] B s.mem_brk (by omega) hc1
      (by
        intro a ha
        simp only [total] at ha
        rw [hp] at ha
        exact hfr a (by omega))
      (by
        simp only [total]
        rw [hp]
        have e : p + (sz + (nsz + 0)) = p + (sz + nsz) := by omega
        rw [e]
        refine Chain_one _ _ (sz + nsz, true) (by simp only; omega) (by simp only; omega) ?_ ?_
        · rw [GET_PUT_other _ _ _ _ (by omega), GET_PUT_same_lt _ _ _ (by omega)]; simp [tag]
        · simp only
          rw [GET_PUT_same_lt _ _ _ (by omega)]; simp [tag])
    simpa using this
  · show GET _ (s.mem_brk - 4) = 1
    exact Eq.trans (GET_congr _ _ _ fun a h1 _ => hfr a (by omega)) he
  · rw [NoAdjFree_split] at hna ⊢
    refine ⟨(NoAdjFree_snoc_congr (sz, true) (sz + nsz, true) rfl A).1 hna.1, ?_⟩
    rw [NoAdjFree_cons_alloc _ _ rfl]
    exact NoAdjFree_tail _ _ (NoAdjFree_tail _ _ hna.2)
  · intro q z
    rw [BlockAt_append, BlockAt_append, hp]
    simp only [BlockAt, Prod.mk.injEq, and_true, Bool.true_eq_false, and_false, false_or]
    have e : p + sz + nsz = p + (sz + nsz) := by omega
    rw [e]
    constructor
    · intro hq
      rcases hq with hq | hq | hq
      · have := BlockAt_bounds _ _ _ _ hq
        have := BlockAt_size_pos _ _ _ _ _ _ hcA hq
        exact Or.inl ⟨Or.inl hq, by omega⟩
      · exact Or.inr hq
      · have := BlockAt_bounds _ _ _ _ hq
        exact Or.inl ⟨Or.inr (Or.inr hq), by omega⟩
    · intro hq
      rcases hq with ⟨hq | ⟨hq, _⟩ | hq, hne⟩ | hq
      · exact Or.inl hq
      · exact absurd hq hne
      · exact Or.inr (Or.inr hq)
      · exact Or.inr (Or.inl hq)

theorem LiveInv_resize (s s1 : Heap) (L : List (Nat × Nat)) (bs bs1 : List (Nat × Bool))
    (p n size z1 : Nat) (h : LiveInv s L bs) (hp : (p, n) ∈ L) (hI1 : Inv s1 bs1)
    (hhl : s1.heap_listp = s.heap_listp) (hz : size + 8 ≤ z1)
    (hal : ∀ q z, BlockAt (s.heap_listp + 8) bs1 q (z, true) ↔
      (BlockAt (s.heap_listp + 8) bs q (z, true) ∧ q ≠ p) ∨ (q = p ∧ z = z1)) :
    LiveInv s1 ((p, size) :: L.filter fun x => x.1 != p) bs1 := by
  obtain ⟨_, hnd, hmem, hsz⟩ := h
  refine ⟨hI1, ?_, ?_, ?_⟩
  · rw [List.map_cons, List.nodup_cons]
    refine ⟨?_, List.Nodup.sublist (List.Sublist.map _ (List.filter_sublist L)) hnd⟩
    intro hq
    obtain ⟨x, hx, hxp⟩ := List.mem_map.1 hq
    rw [List.mem_filter] at hx
    simp at hx
    exact hx.2 hxp
  · intro q
    rw [hhl, List.map_cons, List.mem_cons]
    constructor
    · intro hq
      rcases hq with rfl | hq
      · exact ⟨z1, (hal _ _).2 (Or.inr ⟨rfl, rfl⟩)⟩
      · obtain ⟨x, hx, rfl⟩ := List.mem_map.1 hq
        rw [List.mem_filter] at hx
        obtain ⟨z, hz⟩ := (hmem x.1).1 (List.mem_map.2 ⟨x, hx.1, rfl⟩)
        exact ⟨z, (hal _ _).2 (Or.inl ⟨hz, by simpa using hx.2⟩)⟩
    · intro ⟨z, hz⟩
      rcases (hal _ _).1 hz with ⟨h1, h2⟩ | ⟨h1, _⟩
      · obtain ⟨x, hx, rfl⟩ := List.mem_map.1 ((hmem q).2 ⟨z, h1⟩)
        exact Or.inr (List.mem_map.2 ⟨x, List.mem_filter.2 ⟨hx, by simpa using h2⟩, rfl⟩)
      · exact Or.inl h1
  · intro q m z hq hbq
    rw [hhl] at hbq
    rw [List.mem_cons] at hq
    rcases hq with hq | hq
    · simp only [Prod.mk.injEq] at hq
      rcases (hal _ _).1 hbq with ⟨_, h2⟩ | ⟨_, h2⟩
      · exact absurd hq.1 h2
      · omega
    · rw [List.mem_filter] at hq
      rcases (hal _ _).1 hbq with ⟨h1, _⟩ | ⟨h1, _⟩
      · exact hsz q m z hq.1 h1
      · have := hq.2
        simp at this
        exact absurd h1 this

theorem next_block_free (m : Mem) (bp : Nat) (A : List (Nat × Bool)) (b : Nat × Bool)
    (B : List (Nat × Bool)) (e nsz : Nat) (hc : Chain m bp (A ++ b :: B) e)
    (he : GET m (e - 4) = 1) (hn8 : nsz % 8 = 0)
    (hnh : GET m (bp + total A + b.1 - 4) = tag (nsz, false)) :
    ∃ B1, B = (nsz, false) :: B1 := by
  have hend := Chain_end _ _ _ _ hc
  simp only [total_append, total] at hend
  rw [Chain_append] at hc
  simp only [Chain] at hc
  obtain ⟨_, _, _, _, _, hB⟩ := hc
  cases B with
  | nil =>
    simp only [total] at hend
    have e1 : bp + total A + b.1 - 4 = e - 4 := by omega
    rw [e1, he] at hnh
    simp only [tag] at hnh
    simp at hnh
    omega
  | cons x B1 =>
    simp only [Chain] at hB
    obtain ⟨_, hx8, hxh, _⟩ := hB
    rw [hnh] at hxh
    obtain ⟨x1, x2⟩ := x
    cases x2 with
    | false =>
      simp only [tag] at hxh
      simp at hxh
      exact ⟨B1, by rw [hxh]⟩
    | true =>
      simp only [tag] at hxh hx8
      simp at hxh
      omega

theorem LiveInv_realloc (W fuel : Nat) (s : Heap) (L : List (Nat × Nat))
    (bs : List (Nat × Bool)) (p n size : Nat) (s1 : Heap) (q : Nat) (hW : 32 ≤ W)
    (h : LiveInv s L bs) (hp : (p, n) ∈ L) (hin : size + 15 < 2 ^ W)
    (hr : mm_realloc W fuel s p size = some (s1, q)) :
    (∃ bs1, LiveInv s1
        (if size = 0 then L.filter fun x => x.1 != p
         else if q = NULL then L else (q, size) :: L.filter fun x => x.1 != p) bs1) ∧
      s1.heap_listp = s.heap_listp ∧ s1.mem_max_addr = s.mem_max_addr := by
  have hM := pow_ge W hW
  have h00 := h
  obtain ⟨hI, hnd, hmem, hsz⟩ := h
  have hl8 := hI.1
  obtain ⟨sz, hb⟩ := (hmem p).1 (List.mem_map.2 ⟨(p, n), hp, rfl⟩)
  have hpb := BlockAt_bounds _ _ _ _ hb
  have hpN : p ≠ NULL := by simp only [NULL]; omega
  by_cases h0 : size = 0
  · unfold mm_realloc at hr
    simp only [hpN, h0, if_true, if_false, Option.some.injEq, Prod.mk.injEq] at hr
    obtain ⟨rfl, rfl⟩ := hr
    simpa [h0] using LiveInv_free W s L bs p n hW h00 hp
  have hbF := (BlockAt_prologue _ _ _ _).2 (Or.inr hb)
  obtain ⟨A, B, hL1, hpa⟩ := BlockAt_split _ _ _ _ hbF
  have hI2 : InvF s (A ++ (sz, true) :: B) := by rw [← hL1]; exact hI
  obtain ⟨hs1, hs8, hh⟩ := BlockAt_size_pos _ _ _ _ _ _ hI.2.1 hbF
  simp only at hs1 hs8
  obtain ⟨nsz, na, hn8, hnh, hnb, hna⟩ := next_header s.mem s.heap_listp A (sz, true) B
    s.mem_brk hI2.2.1 hI2.2.2.1
  simp only at hnh hnb
  rw [← hpa] at hnh hnb
  have hbm := hI.2.2.2.1
  have hmax := hI.2.2.2.2.1
  have hadj := adjust_inrange W size hW (Or.inr hin)
  rw [realloc_unfold W fuel s p size sz nsz na hW hpN h0 hs1 hs8 hn8 (by omega) hh hnh] at hr
  simp only [h0, if_false]
  by_cases ha : adjust W size ≤ sz
  · rw [if_pos ha] at hr
    simp only [Option.some.injEq, Prod.mk.injEq] at hr
    obtain ⟨rfl, rfl⟩ := hr
    rw [if_neg hpN]
    refine ⟨⟨bs, LiveInv_resize s s L bs bs p n size sz h00 hp hI rfl (by omega) ?_⟩, rfl, rfl⟩
    intro q1 z
    constructor
    · intro hq
      by_cases e : q1 = p
      · subst e
        have := BlockAt_unique _ _ _ _ _ _ _ hI.2.1
          ((BlockAt_prologue _ _ _ _).2 (Or.inr hq)) hbF
        simp only [Prod.mk.injEq, and_true] at this
        exact Or.inr ⟨rfl, this⟩
      · exact Or.inl ⟨hq, e⟩
    · intro hq
      rcases hq with ⟨hq, _⟩ | ⟨rfl, rfl⟩
      · exact hq
      · exact hb
  rw [if_neg ha] at hr
  by_cases hg : (!na && decide (sz + nsz ≥ adjust W size)) = true
  · rw [if_pos hg] at hr
    simp only [Option.some.injEq, Prod.mk.injEq] at hr
    obtain ⟨rfl, rfl⟩ := hr
    rw [if_neg hpN]
    simp only [Bool.and_eq_true, Bool.not_eq_true', decide_eq_true_eq] at hg
    obtain ⟨hnaf, hge⟩ := hg
    subst hnaf
    rw [hpa] at hnh
    obtain ⟨B1, rfl⟩ := next_block_free s.mem s.heap_listp A (sz, true) B s.mem_brk nsz
      hI2.2.1 hI2.2.2.1 hn8 hnh
    obtain ⟨A1, rfl⟩ : ∃ A1, A = (8, true) :: A1 := by
      cases A with
      | nil => simp only [total] at hpa; omega
      | cons a A1 =>
        simp only [List.cons_append, List.cons.injEq] at hL1
        exact ⟨A1, by rw [← hL1.1]⟩
    simp only [List.cons_append, List.cons.injEq, true_and] at hL1
    obtain ⟨hF, hal⟩ := realloc_grow_full s ((8, true) :: A1) sz nsz B1 hI2
    rw [← hpa] at hF hal
    refine ⟨⟨A1 ++ (sz + nsz, true) :: B1, LiveInv_resize s _ L bs _ p n size (sz + nsz) h00
      hp hF rfl (by omega) ?_⟩, rfl, rfl⟩
    intro q1 z
    have := hal q1 z
    simp only [List.cons_append] at this
    rw [BlockAt_prologue, BlockAt_prologue, ← hL1] at this
    constructor
    · intro hq
      have hqb := BlockAt_bounds _ _ _ _ hq
      rcases this.1 (Or.inr hq) with ⟨⟨h1, _⟩ | h1, h2⟩ | h1
      · omega
      · exact Or.inl ⟨h1, h2⟩
      · exact Or.inr h1
    · intro hq
      rcases hq with ⟨hq, hne⟩ | hq
      · have hqb := BlockAt_bounds _ _ _ _ hq
        rcases this.2 (Or.inl ⟨Or.inr hq, hne⟩) with ⟨h1, _⟩ | h1
        · omega
        · exact h1
      · rcases this.2 (Or.inr hq) with ⟨h1, _⟩ | h1
        · omega
        · exact h1
  · rw [if_neg hg] at hr
    cases hm : mm_malloc W fuel s size with
    | none => rw [hm] at hr; simp at hr
    | some r =>
      obtain ⟨s2, np⟩ := r
      rw [hm] at hr
      simp only at hr
      obtain ⟨⟨bs2, hL2⟩, hhl2, hmx2, hfresh⟩ := LiveInv_malloc W fuel s L bs size s2 np hW
        h00 hin hm
      by_cases hnp : np = NULL
      · rw [if_pos hnp] at hr
        simp only [Option.some.injEq, Prod.mk.injEq] at hr
        obtain ⟨rfl, rfl⟩ := hr
        rw [if_pos hnp] at hL2
        rw [if_pos rfl]
        exact ⟨⟨bs2, hL2⟩, hhl2, hmx2⟩
      · rw [if_neg hnp] at hr
        simp only [Option.some.injEq, Prod.mk.injEq] at hr
        obtain ⟨rfl, rfl⟩ := hr
        rw [if_neg hnp] at hL2 ⊢
        have hL3 := LiveInv_payload s2 _ bs2 np size
          (memcpy s2.mem np p (min size (sz - 8))) hL2 (List.mem_cons_self _ _)
          (fun a ha => memcpy_other _ _ _ _ _ (by omega))
        have hne : np ≠ p := fun e => hfresh hnp (e ▸ List.mem_map.2 ⟨(p, n), hp, rfl⟩)
        obtain ⟨⟨bs3, hL4⟩, hhl4, hmx4⟩ := LiveInv_free W _ _ bs2 p n hW hL3
          (List.mem_cons_of_mem _ hp)
        have hfl : (((np, size) :: L).filter fun x => x.1 != p) =
            (np, size) :: L.filter fun x => x.1 != p := by
          rw [List.filter_cons]
          simp [hne]
        rw [hfl] at hL4
        exact ⟨⟨bs3, hL4⟩, hhl4.trans hhl2, hmx4.trans hmx2⟩

/-- Requests below the overflow threshold keep the heap well formed: every
state reachable by such calls has a block list in which the live allocations
are exactly the allocated blocks, each with room for the requested bytes. -/
theorem ReachIn_LiveInv (W : Nat) (s0 s : Heap) (L : List (Nat × Nat)) (hW : 32 ≤ W)
    (hmax : s0.mem_max_addr < s0.mem_brk + 4294967296) (h : ReachIn W s0 s L) :
    (∃ bs, LiveInv s L bs) ∧ s.heap_listp = s0.mem_brk + 8 ∧
      s.mem_max_addr = s0.mem_max_addr := by
  induction h with
  | init s hi =>
    obtain ⟨hI, hhl, hmx, _⟩ := mm_init_Inv W s0 s hW hmax hi
    refine ⟨⟨[(4096, false)], hI, List.nodup_nil, ?_, ?_⟩, hhl, hmx⟩
    · intro q; simp [BlockAt]
    · intro q n z hq; simp at hq
  | malloc s L fuel size s1 p _ hin hm ih =>
    obtain ⟨⟨bs, hL⟩, hhl, hmx⟩ := ih
    obtain ⟨h1, h2, h3, _⟩ := LiveInv_malloc W fuel s L bs size s1 p hW hL hin hm
    exact ⟨h1, h2.trans hhl, h3.trans hmx⟩
  | free s L p n _ hp ih =>
    obtain ⟨⟨bs, hL⟩, hhl, hmx⟩ := ih
    obtain ⟨h1, h2, h3⟩ := LiveInv_free W s L bs p n hW hL hp
    exact ⟨h1, h2.trans hhl, h3.trans hmx⟩
  | realloc s L fuel p n size s1 q _ hp hin hr ih =>
    obtain ⟨⟨bs, hL⟩, hhl, hmx⟩ := ih
    obtain ⟨h1, h2, h3⟩ := LiveInv_realloc W fuel s L bs p n size s1 q hW hL hp hin hr
    exact ⟨h1, h2.trans hhl, h3.trans hmx⟩

theorem BlockAt_disjoint : ∀ (bs : List (Nat × Bool)) (m : Mem) (bp e q1 q2 : Nat)
    (b1 b2 : Nat × Bool), Chain m bp bs e → BlockAt bp bs q1 b1 → BlockAt bp bs q2 b2 →
    q1 ≠ q2 → q1 + b1.1 ≤ q2 ∨ q2 + b2.1 ≤ q1 := by
  intro bs
  induction bs with
  | nil => intro m bp e q1 q2 b1 b2 _ h; simp [BlockAt] at h
  | cons x xs ih =>
    intro m bp e q1 q2 b1 b2 hc h1 h2 hne
    simp only [Chain] at hc
    simp only [BlockAt] at h1 h2
    rcases h1 with ⟨rfl, rfl⟩ | h1
    · rcases h2 with ⟨rfl, _⟩ | h2
      · exact absurd rfl hne
      · have := BlockAt_bounds _ _ _ _ h2
        omega
    · rcases h2 with ⟨rfl, rfl⟩ | h2
      · have := BlockAt_bounds _ _ _ _ h1
        omega
      · exact ih m _ e q1 q2 b1 b2 hc.2.2.2.2 h1 h2 hne

/-- Requests below the overflow threshold give disjoint payloads that lie
inside the heap: two live allocations never share a byte. -/
theorem in_range_payloads_disjoint (W : Nat) (s0 s : Heap) (L : List (Nat × Nat))
    (p1 n1 p2 n2 : Nat) (hW : 32 ≤ W) (hmax : s0.mem_max_addr < s0.mem_brk + 4294967296)
    (h : ReachIn W s0 s L) (h1 : (p1, n1) ∈ L) (h2 : (p2, n2) ∈ L) (hne : p1 ≠ p2) :
    (p1 + n1 + 8 ≤ p2 ∨ p2 + n2 + 8 ≤ p1) ∧ s.heap_listp + 8 ≤ p1 ∧
      p1 + n1 + 8 ≤ s.mem_brk := by
  obtain ⟨⟨bs, hI, _, hmem, hsz⟩, hhl, _⟩ := ReachIn_LiveInv W s0 s L hW hmax h
  obtain ⟨z1, hb1⟩ := (hmem p1).1 (List.mem_map.2 ⟨(p1, n1), h1, rfl⟩)
  obtain ⟨z2, hb2⟩ := (hmem p2).1 (List.mem_map.2 ⟨(p2, n2), h2, rfl⟩)
  have hz1 := hsz p1 n1 z1 h1 hb1
  have hz2 := hsz p2 n2 z2 h2 hb2
  have hc := hI.2.1
  have hend := Chain_end _ _ _ _ hc
  simp only [Chain] at hc
  have hd := BlockAt_disjoint _ _ _ _ _ _ _ _ hc.2.2.2.2 hb1 hb2 hne
  have hbd := BlockAt_bounds _ _ _ _ hb1
  simp only [total] at hend
  simp only at hd hbd
  exact ⟨by omega, by omega, by omega⟩

/-! ## Degenerate arguments -/

/-- Claim C11.  In every heap state `mm_malloc(0)` returns `NULL` and the
state after the call is the state before it: memory (every header, footer
and payload byte), the break kept by `mem_sbrk` and `heap_listp`.  The same
holds for the `mm_malloc` of `src/CSAPP.c`. -/
theorem malloc_zero_is_noop (W fuel : Nat) (s : Heap) :
    mm_malloc W fuel s 0 = some (s, NULL) ∧ CSAPP.mm_malloc W fuel s 0 = some (s, NULL) := by
  constructor
  · unfold mm_malloc; simp
  · unfold CSAPP.mm_malloc; simp

/-- Claim C12.  `mm_realloc(NULL, n)` is `mm_malloc(n)`: same returned
pointer, same resulting heap (and the same outcome of the scan for every
fuel).  `mm_realloc(p, 0)` returns `NULL` and leaves the heap that
`mm_free(p)` leaves; this holds for every `p`, live or not. -/
theorem realloc_delegates (W fuel : Nat) (s : Heap) (n p : Nat) :
    mm_realloc W fuel s NULL n = mm_malloc W fuel s n ∧
    mm_realloc W fuel s p 0 = some (mm_free W s p, NULL) := by
  constructor
  · unfold mm_realloc; simp
  · unfold mm_realloc
    by_cases hp : p = NULL
    · subst hp
      simp [mm_malloc, mm_free]
    · simp [hp]

/-- Claim C13, evaluated at the failing input.  The `mm_free` of `src/mm.c`
applied to `NULL` leaves every heap state as it is.  The `mm_free` of
`src/CSAPP.c` has no null test: applied to `NULL` it reads the word at
`HDRP(NULL)` and writes it back with the low bits cleared, then goes on to
the footer and to `coalesce`.  On a memory of `0xFF` bytes the byte at
`HDRP(NULL)` is `0xFF` before the call and `0xF0` after it.  (In C the
address `HDRP(NULL)` is `NULL - 4`; here addresses are natural numbers and
the subtraction stops at 0.) -/
theorem free_null_writes_in_csapp_variant :
    (∀ (W : Nat) (s : Heap), mm_free W s NULL = s) ∧
    heap_ones.mem (HDRP NULL) = 255 ∧
    (CSAPP.mm_free 32 heap_ones NULL).mem (HDRP NULL) = 240 ∧
    (CSAPP.mm_free 64 heap_ones NULL).mem (HDRP NULL) = 240 := by
  refine ⟨fun W s => by unfold mm_free; simp, ?_, ?_, ?_⟩ <;> decide!

/-- Claim C14, evaluated at the failing inputs: for `size > SIZE_MAX - 15`
the sum `size + DSIZE + (DSIZE-1)` wraps in `size_t`, and the adjusted size
is 0 (for `SIZE_MAX - 14` up to `SIZE_MAX - 7`) or 8 (from `SIZE_MAX - 6`):
less than 16 and less than `size + 8`. -/
theorem adjust_wraps_near_size_max :
    adjust 32 (2 ^ 32 - 15) = 0 ∧ adjust 32 (2 ^ 32 - 8) = 0 ∧ adjust 32 (2 ^ 32 - 7) = 8 ∧
    adjust 32 (2 ^ 32 - 1) = 8 ∧
    adjust 64 (2 ^ 64 - 15) = 0 ∧ adjust 64 (2 ^ 64 - 8) = 0 ∧ adjust 64 (2 ^ 64 - 7) = 8 ∧
    adjust 64 (2 ^ 64 - 1) = 8 ∧
    adjust 32 (2 ^ 32 - 16) = 2 ^ 32 - 8 := by
  decide!

/-- Claim C19, evaluated at the failing input: after `mm_init();
mm_malloc(SIZE_MAX - 14)` the block at `bp = 4112` is free (size 4096), the
prologue footer holds size 0, so `PREV_BLKP(bp) == bp`.  The `coalesce` of
`src/mm.c` takes the previous block for allocated and leaves the header of
`bp` at 4096; the `coalesce` of `src/CSAPP.c` reads the allocated bit of the
footer of `bp` itself, merges `bp` with itself and leaves the header at 8192. -/
theorem huge_request_makes_coalesce_variants_differ :
    ((run_huge_malloc 32).map fun r =>
      (GET r.1.mem (HDRP 4112), PREV_BLKP r.1.mem 4112)) = some (4096, 4112) ∧
    ((run_huge_malloc 32).map fun r =>
      (GET (coalesce 32 r.1.mem 4112).1 (HDRP 4112), (coalesce 32 r.1.mem 4112).2,
        GET (CSAPP.coalesce 32 r.1.mem 4112).1 (HDRP 4112), (CSAPP.coalesce 32 r.1.mem 4112).2))
      = some (4096, 4112, 8192, 4112) ∧
    ((run_huge_malloc 64).map fun r =>
      (GET r.1.mem (HDRP 4112), PREV_BLKP r.1.mem 4112)) = some (4096, 4112) ∧
    ((run_huge_malloc 64).map fun r =>
      (GET (coalesce 64 r.1.mem 4112).1 (HDRP 4112), (coalesce 64 r.1.mem 4112).2,
        GET (CSAPP.coalesce 64 r.1.mem 4112).1 (HDRP 4112), (CSAPP.coalesce 64 r.1.mem 4112).2))
      = some (4096, 4112, 8192, 4112) := by
  decide!

/-- Claim C20, evaluated at the failing input: after `mm_init();
q = mm_malloc(SIZE_MAX - 14)` the pointer `q = 4112` is live and its header
holds 4096.  The next call `mm_malloc(8)` returns 4112 again, rewrites the
header of `q` to 17 and writes the tag words 17 and 4080 into the payload of
`q` at 4120 and 4124. -/
theorem huge_request_breaks_frame :
    ((run_frame 32).map fun r =>
      (r.2.2.1, r.2.2.2, GET r.1.mem (HDRP r.2.2.1), GET r.2.1.mem (HDRP r.2.2.1)))
      = some (4112, 4112, 4096, 17) ∧
    ((run_frame 32).map fun r =>
      (GET r.1.mem 4120, GET r.2.1.mem 4120, GET r.1.mem 4124, GET r.2.1.mem 4124))
      = some (0, 17, 0, 4080) ∧
    ((run_frame 64).map fun r =>
      (r.2.2.1, r.2.2.2, GET r.1.mem (HDRP r.2.2.1), GET r.2.1.mem (HDRP r.2.2.1)))
      = some (4112, 4112, 4096, 17) ∧
    ((run_frame 64).map fun r =>
      (GET r.1.mem 4120, GET r.2.1.mem 4120, GET r.1.mem 4124, GET r.2.1.mem 4124))
      = some (0, 17, 0, 4080) := by
  decide!

/-! ## `find_fit` is first fit -/

theorem find_fit_loop_variants (m : Mem) (asize : Nat) : ∀ (fuel bp : Nat),
    CSAPP.find_fit_loop m asize fuel bp = find_fit_loop m asize fuel bp := by
  intro fuel
  induction fuel with
  | zero => intro bp; rfl
  | succ f ih =>
    intro bp
    simp only [CSAPP.find_fit_loop, find_fit_loop, ih]

theorem BlockAt_mem : ∀ (bs : List (Nat × Bool)) (bp q : Nat) (b : Nat × Bool),
    BlockAt bp bs q b → b ∈ bs := by
  intro bs
  induction bs with
  | nil => intro bp q b h; simp [BlockAt] at h
  | cons x xs ih =>
    intro bp q b h
    simp only [BlockAt] at h
    rcases h with ⟨_, rfl⟩ | h
    · simp
    · exact List.mem_cons_of_mem _ (ih _ _ _ h)

/-- Claim C15.  On a heap whose blocks (prologue, then `bs`) form a chain
from `heap_listp` to the break with the epilogue header below the break,
`find_fit(asize)` returns once the fuel exceeds the number of blocks (it is a
pure function of the heap, so the heap is as before).  The result `r` is
`NULL` exactly when no block of `bs` is free with size at least `asize`;
otherwise `r` is the block pointer of a free block of `bs` of size
`c ≥ asize`, it lies after the prologue, the block ends at or before the
break, and no free block of size at least `asize` has a lower address.  The
`find_fit` of `src/CSAPP.c` returns the same. -/
theorem find_fit_first_fit (fuel : Nat) (s : Heap) (bs : List (Nat × Bool)) (asize : Nat)
    (hl : 4 ≤ s.heap_listp) (hc : Chain s.mem s.heap_listp ((8, true) :: bs) s.mem_brk)
    (he : GET s.mem (s.mem_brk - 4) = 1) (hfuel : bs.length + 1 < fuel) :
    ∃ r, find_fit fuel s asize = some r ∧ CSAPP.find_fit fuel s asize = some r ∧
      (r = NULL ↔ ∀ q c, BlockAt (s.heap_listp + 8) bs q (c, false) → c < asize) ∧
      (r ≠ NULL → ∃ c, BlockAt (s.heap_listp + 8) bs r (c, false) ∧ asize ≤ c ∧
        s.heap_listp + 8 ≤ r ∧ r + c ≤ s.mem_brk ∧
        ∀ q c1, BlockAt (s.heap_listp + 8) bs q (c1, false) → asize ≤ c1 → r ≤ q) := by
  have h1 : find_fit fuel s asize = some (firstFit asize (s.heap_listp + 8) bs) := by
    unfold find_fit
    rw [find_fit_loop_chain s.mem asize ((8, true) :: bs) s.heap_listp s.mem_brk fuel hl hc he
      (by simpa using hfuel)]
    simp [firstFit]
  have h2 : CSAPP.find_fit fuel s asize = find_fit fuel s asize := by
    unfold CSAPP.find_fit find_fit
    exact find_fit_loop_variants _ _ _ _
  have hend := Chain_end _ _ _ _ hc
  simp only [total] at hend
  refine ⟨_, h1, by rw [h2, h1], ?_⟩
  rcases firstFit_cases asize bs (s.heap_listp + 8) with ⟨e0, hno⟩ |
    ⟨pre, sz, post, hbs, hpre, hsz, e1⟩
  · rw [e0]
    refine ⟨⟨fun _ q c hq => ?_, fun _ => rfl⟩, fun h => absurd rfl h⟩
    have := hno _ (BlockAt_mem _ _ _ _ hq)
    simp only [true_and, not_le] at this
    exact this
  · rw [e1]
    have hne : s.heap_listp + 8 + total pre ≠ NULL := by simp only [NULL]; omega
    have hmid : BlockAt (s.heap_listp + 8) bs (s.heap_listp + 8 + total pre) (sz, false) := by
      rw [hbs]; exact BlockAt_mid _ _ _ _
    refine ⟨⟨fun h => absurd h hne, fun h => ?_⟩, fun _ => ⟨sz, hmid, hsz, by omega, ?_, ?_⟩⟩
    · have := h _ _ hmid
      omega
    · have := BlockAt_bounds _ _ _ _ hmid
      simp only at this
      omega
    · intro q c1 hq hc1
      rw [hbs, BlockAt_append] at hq
      rcases hq with hq | hq
      · exact absurd ⟨rfl, hc1⟩ (hpre _ (BlockAt_mem _ _ _ _ hq))
      · exact (BlockAt_bounds _ _ _ _ hq).1

/-- Witness for C15: on the heap after `p1 = mm_malloc(100); p2 = mm_malloc(200);
mm_free(p1)` (blocks 4112 free of size 112, 4224 allocated of size 208, 4432
free of size 3776) the scan for 200 bytes returns 4432. -/
theorem find_fit_first_fit_witness :
    find_fit 100 heap_reuse 200 = some 4432 ∧
    ∃ r, find_fit 100 heap_reuse 200 = some r ∧ CSAPP.find_fit 100 heap_reuse 200 = some r ∧
      (r = NULL ↔ ∀ q c, BlockAt (heap_reuse.heap_listp + 8)
        [(112, false), (208, true), (3776, false)] q (c, false) → c < 200) ∧
      (r ≠ NULL → ∃ c, BlockAt (heap_reuse.heap_listp + 8)
          [(112, false), (208, true), (3776, false)] r (c, false) ∧ 200 ≤ c ∧
        heap_reuse.heap_listp + 8 ≤ r ∧ r + c ≤ heap_reuse.mem_brk ∧
        ∀ q c1, BlockAt (heap_reuse.heap_listp + 8)
          [(112, false), (208, true), (3776, false)] q (c1, false) → 200 ≤ c1 → r ≤ q) :=
  ⟨by decide!, find_fit_first_fit 100 heap_reuse [(112, false), (208, true), (3776, false)] 200
    (by decide) (by decide) (by decide) (by decide)⟩

/-! ## `coalesce`: the four cases, and the two variants -/

theorem coalesce_variants_eq (W : Nat) (m : Mem) (bp : Nat) (h1 : PREV_BLKP m bp ≠ bp)
    (h2 : GET_ALLOC m (HDRP (NEXT_BLKP m bp)) = 0 →
      GET_SIZE m (FTRP m (NEXT_BLKP m bp)) = GET_SIZE m (HDRP (NEXT_BLKP m bp))) :
    CSAPP.coalesce W m bp = coalesce W m bp := by
  have e1 : (PREV_BLKP m bp == bp) = false := by simpa using h1
  unfold CSAPP.coalesce coalesce
  simp only [e1, Bool.or_false]
  by_cases hn : GET_ALLOC m (HDRP (NEXT_BLKP m bp)) = 0
  · rw [h2 hn]
  · have e2 : (GET_ALLOC m (HDRP (NEXT_BLKP m bp)) != 0) = true := by simpa using hn
    by_cases hp : GET_ALLOC m (FTRP m (PREV_BLKP m bp)) = 0
    · have e3 : (GET_ALLOC m (FTRP m (PREV_BLKP m bp)) != 0) = false := by simpa using hp
      simp [e2, e3]
    · have e3 : (GET_ALLOC m (FTRP m (PREV_BLKP m bp)) != 0) = true := by simpa using hp
      simp [e2, e3]

theorem coalesce_variants_chain (W : Nat) (m : Mem) (bp0 : Nat) (X : List (Nat × Bool))
    (prev : Nat × Bool) (sz : Nat) (fl : Bool) (post : List (Nat × Bool)) (e : Nat)
    (hc : Chain m bp0 (X ++ prev :: (sz, fl) :: post) e) (he : GET m (e - 4) = 1) :
    PREV_BLKP m (bp0 + total X + prev.1) ≠ bp0 + total X + prev.1 ∧
    CSAPP.coalesce W m (bp0 + total X + prev.1) = coalesce W m (bp0 + total X + prev.1) := by
  have hend := Chain_end m _ _ _ hc
  rw [Chain_append] at hc
  obtain ⟨_, hrest⟩ := hc
  simp only [Chain] at hrest
  obtain ⟨hp1, hp8, _, hpf, hs1, hs8, hh, _, hpost⟩ := hrest
  simp only [total_append, total] at hend
  generalize hbp : bp0 + total X + prev.1 = bp at *
  have e1 : PREV_BLKP m bp = bp - prev.1 := by
    unfold PREV_BLKP; simp only [DSIZE]; rw [tag_size m _ _ hpf hp8]
  have e3 : NEXT_BLKP m bp = bp + sz := by
    unfold NEXT_BLKP; simp only [WSIZE]; rw [tag_size m _ _ hh hs8]
  have hne : PREV_BLKP m bp ≠ bp := by
    rw [e1]
    have : prev.1 ≤ bp := by omega
    omega
  refine ⟨hne, coalesce_variants_eq W m bp hne ?_⟩
  rw [e3]
  simp only [HDRP, WSIZE]
  intro ha
  cases post with
  | nil =>
    simp only [Chain] at hpost
    rw [hpost, GET_ALLOC_eq, he] at ha
    simp at ha
  | cons n r =>
    simp only [Chain] at hpost
    obtain ⟨_, n8, nh, nf, _⟩ := hpost
    unfold FTRP
    simp only [HDRP, WSIZE, DSIZE]
    rw [tag_size m _ _ nh n8, tag_size m _ _ nf n8]

theorem coalesceL_total (X : List (Nat × Bool)) (prev : Nat × Bool) (sz : Nat)
    (post : List (Nat × Bool)) :
    total (coalesceL X prev sz post) = total (X ++ prev :: (sz, false) :: post) := by
  have := absorbNext_total sz post
  unfold coalesceL
  split <;> simp only [total_append, total] <;> omega

/-- Claim C16.  Let the blocks `X ++ prev :: (sz, free) :: post` form a chain
from `bp0` to `e` with the epilogue header below `e` (all within 4 GiB), and
let `bp` be the pointer of the free block of size `sz`.  Then `coalesce(bp)`
returns `bp` if `prev` is allocated and the pointer of `prev` if it is free;
the merged size `msz` is `sz`, plus the size of `prev` if it is free, plus the
size of the first block of `post` if that is free (`absorbNext`); header and
footer of the returned block hold `(msz, free)`; the blocks `X` before `prev`
and the blocks after the next block are as before, the memory outside the
merged block is unchanged, and the sizes add up to the same total.  The
`coalesce` of `src/CSAPP.c` returns the same pointer and memory. -/
theorem coalesce_merges_free_neighbours (W : Nat) (m : Mem) (bp0 : Nat)
    (X : List (Nat × Bool)) (prev : Nat × Bool) (sz : Nat) (post : List (Nat × Bool))
    (e : Nat) (hW : 32 ≤ W) (hbp0 : 4 ≤ bp0)
    (hc : Chain m bp0 (X ++ prev :: (sz, false) :: post) e)
    (he : GET m (e - 4) = 1) (hlt : e < bp0 + 4294967296) :
    ∃ m1 r msz, coalesce W m (bp0 + total X + prev.1) = (m1, r) ∧
      CSAPP.coalesce W m (bp0 + total X + prev.1) = (m1, r) ∧
      r = (if prev.2 then bp0 + total X + prev.1 else bp0 + total X) ∧
      msz = (if prev.2 then 0 else prev.1) + (absorbNext sz post).1 ∧
      GET m1 (r - 4) = tag (msz, false) ∧ GET m1 (r + msz - 8) = tag (msz, false) ∧
      Chain m1 bp0 ((if prev.2 then X ++ [prev] else X) ++ (msz, false) ::
        (absorbNext sz post).2) e ∧
      total ((if prev.2 then X ++ [prev] else X) ++ (msz, false) :: (absorbNext sz post).2)
        = total (X ++ prev :: (sz, false) :: post) ∧
      ∀ a, a < r - 4 ∨ r + msz - 4 ≤ a → m1 a = m a := by
  obtain ⟨hch, hr, hfr⟩ := coalesce_chain W m bp0 X prev sz post e hW hbp0 hc he hlt
  have hag := (coalesce_variants_chain W m bp0 X prev sz false post e hc he).2
  have htot := coalesceL_total X prev sz post
  obtain ⟨psz, pa⟩ := prev
  cases pa with
  | true =>
    simp only [if_true, coalesceL] at hch hr hfr htot ⊢
    have hsh : X ++ (psz, true) :: ((absorbNext sz post).1, false) :: (absorbNext sz post).2
        = (X ++ [(psz, true)]) ++ ((absorbNext sz post).1, false) :: (absorbNext sz post).2 := by
      simp
    rw [hsh] at hch htot
    refine ⟨(coalesce W m (bp0 + total X + psz)).1, (coalesce W m (bp0 + total X + psz)).2,
      (absorbNext sz post).1, rfl, hag, hr, by omega, ?_, ?_, ?_, ?_, ?_⟩
    · have := (Chain_append _ _ _ _ _).1 hch
      simp only [Chain, total_append, total] at this
      rw [hr]
      have e1 : bp0 + (total X + (psz + 0)) = bp0 + total X + psz := by omega
      rw [e1] at this
      exact this.2.2.2.1
    · have := (Chain_append _ _ _ _ _).1 hch
      simp only [Chain, total_append, total] at this
      rw [hr]
      have e1 : bp0 + (total X + (psz + 0)) = bp0 + total X + psz := by omega
      rw [e1] at this
      exact this.2.2.2.2.1
    · exact hch
    · exact htot
    · rw [hr]; exact hfr
  | false =>
    simp only [Bool.false_eq_true, if_false, coalesceL] at hch hr hfr htot ⊢
    refine ⟨(coalesce W m (bp0 + total X + psz)).1, (coalesce W m (bp0 + total X + psz)).2,
      psz + (absorbNext sz post).1, rfl, hag, hr, rfl, ?_, ?_, hch, htot, ?_⟩
    · have := (Chain_append _ _ _ _ _).1 hch
      simp only [Chain] at this
      rw [hr]
      exact this.2.2.2.1
    · have := (Chain_append _ _ _ _ _).1 hch
      simp only [Chain] at this
      rw [hr]
      exact this.2.2.2.2.1
    · rw [hr]
      intro a ha
      exact hfr a (by omega)

/-- Witness for C16: in `mem_freed` the free block at 4136 (size 24) follows
the allocated block at 4112 and precedes the free block at 4160 (size 4048);
`coalesce(4136)` returns 4136 with header and footer `(4072, free)`. -/
theorem coalesce_merges_free_neighbours_witness :
    ((coalesce 32 mem_freed 4136).2, GET (coalesce 32 mem_freed 4136).1 4132,
      GET (coalesce 32 mem_freed 4136).1 8200) = (4136, 4072, 4072) ∧
    ∃ m1 r msz, coalesce 32 mem_freed (4104 + total [(8, true)] + 24) = (m1, r) ∧
      CSAPP.coalesce 32 mem_freed (4104 + total [(8, true)] + 24) = (m1, r) ∧
      r = 4104 + total [(8, true)] + 24 ∧
      msz = 0 + (absorbNext 24 [(4048, false)]).1 ∧
      GET m1 (r - 4) = tag (msz, false) ∧ GET m1 (r + msz - 8) = tag (msz, false) ∧
      Chain m1 4104 (([(8, true)] ++ [(24, true)]) ++ (msz, false) ::
        (absorbNext 24 [(4048, false)]).2) 8208 ∧
      total (([(8, true)] ++ [(24, true)]) ++ (msz, false) :: (absorbNext 24 [(4048, false)]).2)
        = total ([(8, true)] ++ (24, true) :: (24, false) :: [(4048, false)]) ∧
      ∀ a, a < r - 4 ∨ r + msz - 4 ≤ a → m1 a = mem_freed a :=
  ⟨by decide!, coalesce_merges_free_neighbours 32 mem_freed 4104 [(8, true)] (24, true) 24
    [(4048, false)] 8208 (by decide) (by decide) (by decide) (by decide) (by decide)⟩

/-! ## `place`: split or fill -/

/-- Claim C17.  For a block `bp` whose header holds `(csize, free)` and an
adjusted size `asize` with `16 ≤ asize ≤ csize`, both multiples of 8:
if `csize - asize ≥ 16`, `place(bp, asize)` leaves header and footer
`(asize, allocated)` for `bp` and header and footer `(csize - asize, free)`
for the block at `bp + asize`; otherwise it leaves header and footer
`(csize, allocated)` for `bp`.  No byte outside `[bp - 4, bp + csize - 4)` is
written.  The `place` of `src/CSAPP.c` is the same function. -/
theorem place_splits_or_fills (W : Nat) (m : Mem) (bp asize csize : Nat) (hW : 32 ≤ W)
    (hbp : 4 ≤ bp) (hh : GET m (bp - 4) = tag (csize, false)) (hc8 : csize % 8 = 0)
    (ha8 : asize % 8 = 0) (ha : 16 ≤ asize) (hac : asize ≤ csize) :
    CSAPP.place W m bp asize = place W m bp asize ∧
    (16 ≤ csize - asize →
      GET (place W m bp asize) (bp - 4) = tag (asize, true) ∧
      GET (place W m bp asize) (bp + asize - 8) = tag (asize, true) ∧
      GET (place W m bp asize) (bp + asize - 4) = tag (csize - asize, false) ∧
      GET (place W m bp asize) (bp + asize + (csize - asize) - 8)
        = tag (csize - asize, false)) ∧
    (csize - asize < 16 →
      GET (place W m bp asize) (bp - 4) = tag (csize, true) ∧
      GET (place W m bp asize) (bp + csize - 8) = tag (csize, true)) ∧
    ∀ a, a < bp - 4 ∨ bp + csize - 4 ≤ a → place W m bp asize a = m a := by
  have hclt := tag_lt m _ _ hh
  simp only [tag] at hclt
  have hev := place_eval W m bp asize csize false hW hbp hh hc8 ha8 (by omega) hac
  refine ⟨rfl, ?_, ?_, ?_⟩
  · intro hs
    rw [hev, if_pos hs]
    have e1 : bp + asize + (csize - asize) - 8 = bp + csize - 8 := by omega
    rw [e1]
    refine ⟨?_, ?_, ?_, ?_⟩
    · rw [GET_PUT_other _ _ _ _ (by omega), GET_PUT_other _ _ _ _ (by omega),
        GET_PUT_other _ _ _ _ (by omega), GET_PUT_same_lt _ _ _ (by omega)]
      simp [tag]
    · rw [GET_PUT_other _ _ _ _ (by omega), GET_PUT_other _ _ _ _ (by omega),
        GET_PUT_same_lt _ _ _ (by omega)]
      simp [tag]
    · rw [GET_PUT_other _ _ _ _ (by omega), GET_PUT_same_lt _ _ _ (by omega)]
      simp [tag]
    · rw [GET_PUT_same_lt _ _ _ (by omega)]
      simp [tag]
  · intro hs
    rw [hev, if_neg (by omega)]
    refine ⟨?_, ?_⟩
    · rw [GET_PUT_other _ _ _ _ (by omega), GET_PUT_same_lt _ _ _ (by omega)]
      simp [tag]
    · rw [GET_PUT_same_lt _ _ _ (by omega)]
      simp [tag]
  · intro a h
    rw [hev]
    split
    · rw [PUT_other _ _ _ _ (by omega), PUT_other _ _ _ _ (by omega),
        PUT_other _ _ _ _ (by omega), PUT_other _ _ _ _ (by omega)]
    · rw [PUT_other _ _ _ _ (by omega), PUT_other _ _ _ _ (by omega)]

/-- Witness for C17: in `heap_reuse` the block at 4112 is free of size 112;
`place(4112, 16)` splits it into an allocated block of 16 bytes and a free
block of 96 bytes at 4128. -/
theorem place_splits_or_fills_witness :
    (GET (place 32 heap_reuse.mem 4112 16) 4108, GET (place 32 heap_reuse.mem 4112 16) 4124,
      GET (place 32 heap_reuse.mem 4112 16) 4216) = (17, 96, 96) ∧
    (CSAPP.place 32 heap_reuse.mem 4112 16 = place 32 heap_reuse.mem 4112 16 ∧
    (16 ≤ 112 - 16 →
      GET (place 32 heap_reuse.mem 4112 16) (4112 - 4) = tag (16, true) ∧
      GET (place 32 heap_reuse.mem 4112 16) (4112 + 16 - 8) = tag (16, true) ∧
      GET (place 32 heap_reuse.mem 4112 16) (4112 + 16 - 4) = tag (112 - 16, false) ∧
      GET (place 32 heap_reuse.mem 4112 16) (4112 + 16 + (112 - 16) - 8)
        = tag (112 - 16, false)) ∧
    (112 - 16 < 16 →
      GET (place 32 heap_reuse.mem 4112 16) (4112 - 4) = tag (112, true) ∧
      GET (place 32 heap_reuse.mem 4112 16) (4112 + 112 - 8) = tag (112, true)) ∧
    ∀ a, a < 4112 - 4 ∨ 4112 + 112 - 4 ≤ a →
      place 32 heap_reuse.mem 4112 16 a = heap_reuse.mem a) :=
  ⟨by decide!, place_splits_or_fills 32 heap_reuse.mem 4112 16 112 (by decide) (by decide)
    (by decide) (by decide) (by decide) (by decide) (by decide)⟩

/-! ## `mm_realloc`: growth in place -/

/-- Claim C18.  In a well-formed heap let `p` be an allocated block of size
`sz` directly followed by a free block of size `nsz`, and let `n > 0` have an
adjusted size above `sz` and at most `sz + nsz`.  Then `mm_realloc(p, n)`
returns `p`; the header of `p` and the footer at the end of the former next
block hold `(sz + nsz, allocated)`; these two words are the only bytes
written, so the payload of `p` is neither copied nor changed; the break is as
before; and the heap is well formed with the two blocks replaced by one. -/
theorem realloc_grows_in_place (W fuel : Nat) (s : Heap) (A : List (Nat × Bool))
    (sz nsz : Nat) (B : List (Nat × Bool)) (n : Nat) (hW : 32 ≤ W)
    (h : Inv s (A ++ (sz, true) :: (nsz, false) :: B)) (hn : n ≠ 0)
    (hgt : sz < adjust W n) (hfit : adjust W n ≤ sz + nsz) :
    ∃ s1, mm_realloc W fuel s (s.heap_listp + 8 + total A) n
        = some (s1, s.heap_listp + 8 + total A) ∧
      GET s1.mem (s.heap_listp + 8 + total A - 4) = tag (sz + nsz, true) ∧
      GET s1.mem (s.heap_listp + 8 + total A + (sz + nsz) - 8) = tag (sz + nsz, true) ∧
      (∀ a, a < s.heap_listp + 8 + total A - 4 ∨
          (s.heap_listp + 8 + total A ≤ a ∧ a < s.heap_listp + 8 + total A + (sz + nsz) - 8) ∨
          s.heap_listp + 8 + total A + (sz + nsz) - 4 ≤ a → s1.mem a = s.mem a) ∧
      s1.mem_brk = s.mem_brk ∧ s1.heap_listp = s.heap_listp ∧
      s1.mem_max_addr = s.mem_max_addr ∧
      Inv s1 (A ++ (sz + nsz, true) :: B) := by
  have hM := pow_ge W hW
  have hF : InvF s (((8, true) :: A) ++ (sz, true) :: (nsz, false) :: B) := h
  obtain ⟨hl8, hc0, he, hbm, hmax, _⟩ := hF
  have hc : Chain s.mem s.heap_listp (((8, true) :: A) ++ (sz, true) :: (nsz, false) :: B)
      s.mem_brk := hc0
  have hend := Chain_end _ _ _ _ hc
  rw [total_append] at hend
  simp only [total] at hend
  have hc2 := (Chain_append _ _ _ _ _).1 hc
  simp only [Chain, total] at hc2
  obtain ⟨_, hs1, hs8, hh, _, hn1, hn8, hnh, _, _⟩ := hc2
  have ep : s.heap_listp + (8 + total A) = s.heap_listp + 8 + total A := by omega
  rw [ep] at hh hnh
  obtain ⟨hG, _⟩ := realloc_grow_full s ((8, true) :: A) sz nsz B h
  simp only [total] at hG
  rw [ep] at hG
  generalize hp : s.heap_listp + 8 + total A = p at *
  have hpN : p ≠ NULL := by simp only [NULL]; omega
  rw [realloc_unfold W fuel s p n sz nsz false hW hpN hn hs1 hs8 hn8 (by omega) hh hnh,
    if_neg (by omega), if_pos (by simpa using hfit)]
  refine ⟨_, rfl, ?_, ?_, ?_, rfl, rfl, rfl, hG⟩
  · show GET (PUT (PUT s.mem (p - 4) (sz + nsz + 1)) (p + (sz + nsz) - 8) (sz + nsz + 1))
      (p - 4) = _
    rw [GET_PUT_other _ _ _ _ (by omega), GET_PUT_same_lt _ _ _ (by omega)]
    simp [tag]
  · show GET (PUT (PUT s.mem (p - 4) (sz + nsz + 1)) (p + (sz + nsz) - 8) (sz + nsz + 1))
      (p + (sz + nsz) - 8) = _
    rw [GET_PUT_same_lt _ _ _ (by omega)]
    simp [tag]
  · intro a ha
    show PUT (PUT s.mem (p - 4) (sz + nsz + 1)) (p + (sz + nsz) - 8) (sz + nsz + 1) a = _
    rw [PUT_other _ _ _ _ (by omega), PUT_other _ _ _ _ (by omega)]

/-- Witness for C18: in `heap_pattern` the block at 4136 (size 24) is followed
by the free block of size 4048; `mm_realloc(4136, 100)` needs 112 bytes and
returns 4136, with header `(4072, allocated)`. -/
theorem realloc_grows_in_place_witness :
    (mm_realloc 32 100 heap_pattern 4136 100).map (fun r => (r.2, GET r.1.mem 4132))
      = some (4136, 4073) ∧
    ∃ s1, mm_realloc 32 100 heap_pattern (heap_pattern.heap_listp + 8 + total [(24, true)]) 100
        = some (s1, heap_pattern.heap_listp + 8 + total [(24, true)]) ∧
      GET s1.mem (heap_pattern.heap_listp + 8 + total [(24, true)] - 4)
        = tag (24 + 4048, true) ∧
      GET s1.mem (heap_pattern.heap_listp + 8 + total [(24, true)] + (24 + 4048) - 8)
        = tag (24 + 4048, true) ∧
      (∀ a, a < heap_pattern.heap_listp + 8 + total [(24, true)] - 4 ∨
          (heap_pattern.heap_listp + 8 + total [(24, true)] ≤ a ∧
            a < heap_pattern.heap_listp + 8 + total [(24, true)] + (24 + 4048) - 8) ∨
          heap_pattern.heap_listp + 8 + total [(24, true)] + (24 + 4048) - 4 ≤ a →
        s1.mem a = heap_pattern.mem a) ∧
      s1.mem_brk = heap_pattern.mem_brk ∧ s1.heap_listp = heap_pattern.heap_listp ∧
      s1.mem_max_addr = heap_pattern.mem_max_addr ∧
      Inv s1 ([(24, true)] ++ (24 + 4048, true) :: []) :=
  ⟨by decide!, realloc_grows_in_place 32 100 heap_pattern [(24, true)] 24 4048 [] 100
    (by decide) (by decide) (by decide) (by decide) (by decide)⟩

/-! ## Requests below the overflow threshold: size adjustment and `coalesce` -/

/-- Below the overflow threshold the adjusted size is as the spec describes:
16 for `size ≤ 8`, otherwise the least multiple of 8 that is at least
`size + 8`. -/
theorem adjust_spec_inrange (W size : Nat) (hW : 32 ≤ W) (hin : size + 15 < 2 ^ W) :
    (size ≤ 8 → adjust W size = 16) ∧
    (8 < size → adjust W size % 8 = 0 ∧ size + 8 ≤ adjust W size ∧
      ∀ k, k % 8 = 0 → size + 8 ≤ k → adjust W size ≤ k) ∧
    16 ≤ adjust W size ∧ adjust W size % 8 = 0 ∧ size + 8 ≤ adjust W size := by
  have hM := pow_ge W hW
  obtain ⟨h1, h2, h3, _⟩ := adjust_inrange W size hW (Or.inr hin)
  refine ⟨?_, ?_, h1, h2, h3⟩
  · intro h
    unfold adjust
    simp only [DSIZE]
    rw [if_pos h]
  · intro h
    refine ⟨h2, h3, ?_⟩
    intro k hk8 hk
    have e : adjust W size = 8 * ((size + 15) / 8) := by
      unfold adjust
      simp only [DSIZE]
      rw [if_neg (by omega)]
      have e1 : (size + 8 + (8 - 1)) % 2 ^ W = size + 15 := by
        have : size + 8 + (8 - 1) = size + 15 := by omega
        rw [this]; exact Nat.mod_eq_of_lt hin
      rw [e1]
      exact Nat.mod_eq_of_lt (by omega)
    rw [e]
    omega

/-- In every state reachable by requests below the overflow threshold, for
every block of the heap `PREV_BLKP(bp) == bp` is false and the `coalesce` of
`src/CSAPP.c` computes what the `coalesce` of `src/mm.c` computes. -/
theorem in_range_coalesce_variants_agree (W : Nat) (s0 s : Heap) (L : List (Nat × Nat))
    (hW : 32 ≤ W) (hmax : s0.mem_max_addr < s0.mem_brk + 4294967296)
    (h : ReachIn W s0 s L) :
    ∃ bs, Inv s bs ∧ ∀ bp b, BlockAt (s.heap_listp + 8) bs bp b →
      PREV_BLKP s.mem bp ≠ bp ∧ CSAPP.coalesce W s.mem bp = coalesce W s.mem bp := by
  obtain ⟨⟨bs, hI, _⟩, _⟩ := ReachIn_LiveInv W s0 s L hW hmax h
  refine ⟨bs, hI, ?_⟩
  intro bp b hb
  have hbb := BlockAt_bounds _ _ _ _ hb
  have hbF : BlockAt s.heap_listp ((8, true) :: bs) bp b := by
    simp only [BlockAt]; exact Or.inr hb
  obtain ⟨A1, B1, hL1, hpa1⟩ := BlockAt_split _ _ _ _ hbF
  obtain ⟨X, prev, hX⟩ : ∃ X prev, A1 = X ++ [prev] := by
    rcases List.eq_nil_or_concat A1 with h1 | ⟨X, prev, h1⟩
    · subst h1; simp only [total] at hpa1; omega
    · exact ⟨X, prev, by simpa using h1⟩
  subst hX
  have hpe : bp = s.heap_listp + total X + prev.1 := by
    rw [hpa1]; simp only [total_append, total]; omega
  have hc : Chain s.mem s.heap_listp (X ++ prev :: (b.1, b.2) :: B1) s.mem_brk := by
    have := hI.2.1
    rw [hL1] at this
    simpa using this
  rw [hpe]
  exact coalesce_variants_chain W s.mem s.heap_listp X prev b.1 b.2 B1 s.mem_brk hc hI.2.2.1

/-! ## Requests below the overflow threshold: the frame of a call -/

/-- An in-range `mm_malloc` leaves header, payload and footer of every
allocated block as they are. -/
theorem malloc_frame (W fuel : Nat) (s : Heap) (bs : List (Nat × Bool)) (size : Nat)
    (s1 : Heap) (p q z : Nat) (hW : 32 ≤ W) (hI : Inv s bs) (hin : size + 15 < 2 ^ W)
    (hm : mm_malloc W fuel s size = some (s1, p))
    (hq : BlockAt (s.heap_listp + 8) bs q (z, true)) :
    ∀ a, q - 4 ≤ a → a < q + z - 4 → s1.mem a = s.mem a := by
  by_cases h0 : size = 0
  · unfold mm_malloc at hm
    simp only [h0, if_true, Option.some.injEq, Prod.mk.injEq] at hm
    obtain ⟨rfl, rfl⟩ := hm
    intro a _ _; rfl
  · have hm2 := mm_malloc_fuel W fuel s _ size _ hI hm
    obtain ⟨_, _, _, _⟩ := adjust_inrange W size hW (Or.inr hin)
    obtain ⟨s2, p2, hm3, _, _, _, hcase⟩ := mm_malloc_full W (((8, true) :: bs).length + 1) s
      ((8, true) :: bs) size hW hI (by simp) h0 (Or.inr hin) (by omega)
    rw [hm2] at hm3
    simp only [Option.some.injEq, Prod.mk.injEq] at hm3
    obtain ⟨rfl, rfl⟩ := hm3
    rcases hcase with ⟨_, hs⟩ | ⟨pre, c, post, _, hac, hnp, hdec, hfr⟩
    · subst hs; intro a _ _; rfl
    · have hdec2 : ((8, true) :: bs = pre ++ (c, false) :: post) ∨
          (post = [] ∧ ((8, true) :: bs = pre ∨ ∃ z, (8, true) :: bs = pre ++ [(z, false)])) := by
        rcases hdec with ⟨hf, _⟩ | hf
        · exact Or.inl hf
        · exact Or.inr hf
      obtain ⟨zq, rest, _, _, _, hplt⟩ := placeL_head (adjust W size) c hac
      have hqF : BlockAt s.heap_listp ((8, true) :: bs) q (z, true) :=
        (BlockAt_prologue _ _ _ _).2 (Or.inr hq)
      obtain ⟨hpos, _⟩ := old_block_position ((8, true) :: bs) pre post s.heap_listp q z p c
        (adjust W size) hqF hnp hplt hdec2
      have hb := BlockAt_bounds _ _ _ _ hqF
      have hend := Chain_end _ _ _ _ hI.2.1
      simp only at hb
      have hz := BlockAt_size_pos _ _ _ _ _ _ hI.2.1 hqF
      simp only at hz
      intro a h1 h2
      exact hfr a (by omega)

/-- The call `mm_free(p)` on a well-formed heap leaves header, payload and
footer of every other allocated block as they are. -/
theorem free_frame (W : Nat) (s : Heap) (bs : List (Nat × Bool)) (p sz q z : Nat)
    (hW : 32 ≤ W) (hI : Inv s bs) (hp : BlockAt (s.heap_listp + 8) bs p (sz, true))
    (hq : BlockAt (s.heap_listp + 8) bs q (z, true)) (hne : q ≠ p) :
    ∀ a, q - 4 ≤ a → a < q + z - 4 → (mm_free W s p).mem a = s.mem a := by
  have hl8 := hI.1
  have hbF := (BlockAt_prologue _ _ _ _).2 (Or.inr hp)
  have hqF := (BlockAt_prologue _ _ _ _).2 (Or.inr hq)
  have hpb := BlockAt_bounds _ _ _ _ hp
  obtain ⟨A1, B1, hL1, hpa1⟩ := BlockAt_split _ _ _ _ hbF
  obtain ⟨X, prev, hX⟩ : ∃ X prev, A1 = X ++ [prev] := by
    rcases List.eq_nil_or_concat A1 with h1 | ⟨X, prev, h1⟩
    · subst h1; simp only [total] at hpa1; omega
    · exact ⟨X, prev, by simpa using h1⟩
  subst hX
  have hL2 : (8, true) :: bs = X ++ prev :: (sz, true) :: B1 := by rw [hL1]; simp
  have hpe : p = s.heap_listp + total X + prev.1 := by
    rw [hpa1]; simp only [total_append, total]; omega
  have hI2 : InvF s (X ++ prev :: (sz, true) :: B1) := by rw [← hL2]; exact hI
  rw [hL2] at hqF
  rw [hpe]
  exact mm_free_other W s X prev sz B1 q z hW hI2 hqF (by rw [← hpe]; exact hne)

/-- An in-range `mm_realloc(p, size)` leaves header, payload and footer of
every live block other than `p` as they are. -/
theorem realloc_frame (W fuel : Nat) (s : Heap) (L : List (Nat × Nat))
    (bs : List (Nat × Bool)) (p n size : Nat) (s1 : Heap) (r q nq z : Nat) (hW : 32 ≤ W)
    (h : LiveInv s L bs) (hp : (p, n) ∈ L) (hq : (q, nq) ∈ L) (hne : q ≠ p)
    (hz : BlockAt (s.heap_listp + 8) bs q (z, true)) (hin : size + 15 < 2 ^ W)
    (hr : mm_realloc W fuel s p size = some (s1, r)) :
    ∀ a, q - 4 ≤ a → a < q + z - 4 → s1.mem a = s.mem a := by
  have hM := pow_ge W hW
  have h00 := h
  obtain ⟨hI, hnd, hmem, hsz⟩ := h
  have hl8 := hI.1
  obtain ⟨sz, hb⟩ := (hmem p).1 (List.mem_map.2 ⟨(p, n), hp, rfl⟩)
  have hpb := BlockAt_bounds _ _ _ _ hb
  have hpN : p ≠ NULL := by simp only [NULL]; omega
  by_cases h0 : size = 0
  · unfold mm_realloc at hr
    simp only [hpN, h0, if_true, if_false, Option.some.injEq, Prod.mk.injEq] at hr
    obtain ⟨rfl, _⟩ := hr
    exact free_frame W s bs p sz q z hW hI hb hz hne
  have hbF := (BlockAt_prologue _ _ _ _).2 (Or.inr hb)
  have hqF := (BlockAt_prologue _ _ _ _).2 (Or.inr hz)
  obtain ⟨A, B, hL1, hpa⟩ := BlockAt_split _ _ _ _ hbF
  have hI2 : InvF s (A ++ (sz, true) :: B) := by rw [← hL1]; exact hI
  obtain ⟨hs1, hs8, hh⟩ := BlockAt_size_pos _ _ _ _ _ _ hI.2.1 hbF
  obtain ⟨hz1, hz8, hzh⟩ := BlockAt_size_pos _ _ _ _ _ _ hI.2.1 hqF
  simp only at hs1 hs8 hz1 hz8
  obtain ⟨nsz, na, hn8, hnh, hnb, hna⟩ := next_header s.mem s.heap_listp A (sz, true) B
    s.mem_brk hI2.2.1 hI2.2.2.1
  simp only at hnh hnb
  rw [← hpa] at hnh hnb
  have hbm := hI.2.2.2.1
  have hmax := hI.2.2.2.2.1
  rw [realloc_unfold W fuel s p size sz nsz na hW hpN h0 hs1 hs8 hn8 (by omega) hh hnh] at hr
  by_cases ha : adjust W size ≤ sz
  · rw [if_pos ha] at hr
    simp only [Option.some.injEq, Prod.mk.injEq] at hr
    obtain ⟨rfl, _⟩ := hr
    intro a _ _; rfl
  rw [if_neg ha] at hr
  by_cases hg : (!na && decide (sz + nsz ≥ adjust W size)) = true
  · rw [if_pos hg] at hr
    simp only [Option.some.injEq, Prod.mk.injEq] at hr
    obtain ⟨rfl, _⟩ := hr
    simp only [Bool.and_eq_true, Bool.not_eq_true', decide_eq_true_eq] at hg
    obtain ⟨hnaf, _⟩ := hg
    subst hnaf
    rw [hpa] at hnh
    obtain ⟨B1, rfl⟩ := next_block_free s.mem s.heap_listp A (sz, true) B s.mem_brk nsz
      hI2.2.1 hI2.2.2.1 hn8 hnh
    rw [hL1, BlockAt_append, ← hpa] at hqF
    simp only [BlockAt, Prod.mk.injEq, Bool.true_eq_false, and_false, false_or] at hqF
    have hdis : q + z ≤ p ∨ p + sz + nsz ≤ q := by
      rcases hqF with h1 | ⟨h1, _⟩ | h1
      · have := BlockAt_bounds _ _ _ _ h1
        simp only at this
        omega
      · exact absurd h1 hne
      · have := BlockAt_bounds _ _ _ _ h1
        omega
    intro a h1 h2
    show PUT (PUT s.mem (p - 4) (sz + nsz + 1)) (p + (sz + nsz) - 8) (sz + nsz + 1) a = _
    rw [PUT_other _ _ _ _ (by omega), PUT_other _ _ _ _ (by omega)]
  · rw [if_neg hg] at hr
    cases hm : mm_malloc W fuel s size with
    | none => rw [hm] at hr; simp at hr
    | some r2 =>
      obtain ⟨s2, np⟩ := r2
      rw [hm] at hr
      simp only at hr
      have hfm := malloc_frame W fuel s bs size s2 np q z hW hI hin hm hz
      obtain ⟨⟨bs2, hL2⟩, hhl2, hmx2, hfresh⟩ := LiveInv_malloc W fuel s L bs size s2 np hW
        h00 hin hm
      by_cases hnp : np = NULL
      · rw [if_pos hnp] at hr
        simp only [Option.some.injEq, Prod.mk.injEq] at hr
        obtain ⟨rfl, _⟩ := hr
        exact hfm
      · rw [if_neg hnp] at hr
        simp only [Option.some.injEq, Prod.mk.injEq] at hr
        obtain ⟨rfl, _⟩ := hr
        rw [if_neg hnp] at hL2
        have hnpq : np ≠ q := fun e => hfresh hnp (e ▸ List.mem_map.2 ⟨(q, nq), hq, rfl⟩)
        have hL3 := LiveInv_payload s2 _ bs2 np size
          (memcpy s2.mem np p (min size (sz - 8))) hL2 (List.mem_cons_self _ _)
          (fun a ha => memcpy_other _ _ _ _ _ (by omega))
        obtain ⟨hI3, _, hmem3, hsz3⟩ := hL3
        -- the blocks of `q`, `p` and `np` in the new list
        obtain ⟨z2, hq2⟩ := (hmem3 q).1 (List.mem_map.2 ⟨(q, nq), List.mem_cons_of_mem _ hq, rfl⟩)
        obtain ⟨sz2, hp2⟩ := (hmem3 p).1 (List.mem_map.2 ⟨(p, n), List.mem_cons_of_mem _ hp, rfl⟩)
        obtain ⟨zn, hn2⟩ := (hmem3 np).1 (List.mem_map.2 ⟨(np, size), List.mem_cons_self _ _, rfl⟩)
        have hzn := hsz3 np size zn (List.mem_cons_self _ _) hn2
        have hq2F := (BlockAt_prologue _ _ _ _).2 (Or.inr hq2)
        have hn2F := (BlockAt_prologue _ _ _ _).2 (Or.inr hn2)
        have hc2 := hL2.1.2.1
        obtain ⟨_, _, hzh2⟩ := BlockAt_size_pos _ _ _ _ _ _ hc2 hq2F
        have hqlow : 4 ≤ q := by
          have := BlockAt_bounds _ _ _ _ hz
          omega
        have ez : z2 = z := by
          have e1 : GET s2.mem (q - 4) = GET s.mem (q - 4) :=
            GET_congr _ _ _ fun a h1 h2 => hfm a h1 (by omega)
          rw [e1, hzh] at hzh2
          simp only [tag] at hzh2
          simpa using hzh2.symm
        subst ez
        have hd := BlockAt_disjoint _ _ _ _ _ _ _ _ hc2 hq2F hn2F (Ne.symm hnpq)
        simp only at hd
        intro a h1 h2
        have e3 := free_frame W { s2 with mem := memcpy s2.mem np p (min size (sz - 8)) } bs2
          p sz2 q z2 hW hI3 hp2 hq2 hne a h1 h2
        rw [e3]
        show memcpy s2.mem np p (min size (sz - 8)) a = _
        rw [memcpy_other _ _ _ _ _ (by omega)]
        exact hfm a h1 h2

/-- In every state reachable by requests below the overflow threshold, a live
pointer `q` has an allocated block of some size `z` (at least 8 more than the
size requested for it), and no in-range `mm_malloc(n)`, no `mm_free(p)` and no
in-range `mm_realloc(p, n)` with `p` live and `p ≠ q` changes a byte of
`[q - 4, q + z - 4)`: the header, the payload and the footer of `q`. -/
theorem in_range_frame (W : Nat) (s0 s : Heap) (L : List (Nat × Nat)) (hW : 32 ≤ W)
    (hmax : s0.mem_max_addr < s0.mem_brk + 4294967296) (h : ReachIn W s0 s L)
    (q nq : Nat) (hq : (q, nq) ∈ L) :
    ∃ z, GET s.mem (q - 4) = z + 1 ∧ GET s.mem (q + z - 8) = z + 1 ∧ nq + 8 ≤ z ∧
      (∀ fuel n s1 p, n + 15 < 2 ^ W → mm_malloc W fuel s n = some (s1, p) →
        ∀ a, q - 4 ≤ a → a < q + z - 4 → s1.mem a = s.mem a) ∧
      (∀ p np, (p, np) ∈ L → p ≠ q →
        ∀ a, q - 4 ≤ a → a < q + z - 4 → (mm_free W s p).mem a = s.mem a) ∧
      (∀ fuel p np n s1 r, (p, np) ∈ L → p ≠ q → n + 15 < 2 ^ W →
        mm_realloc W fuel s p n = some (s1, r) →
        ∀ a, q - 4 ≤ a → a < q + z - 4 → s1.mem a = s.mem a) := by
  obtain ⟨⟨bs, hL⟩, _, _⟩ := ReachIn_LiveInv W s0 s L hW hmax h
  have hL0 := hL
  obtain ⟨hI, _, hmem, hsz⟩ := hL
  obtain ⟨z, hz⟩ := (hmem q).1 (List.mem_map.2 ⟨(q, nq), hq, rfl⟩)
  have hzF := (BlockAt_prologue _ _ _ _).2 (Or.inr hz)
  obtain ⟨A, B, hL1, hpa⟩ := BlockAt_split _ _ _ _ hzF
  have hc := hI.2.1
  rw [hL1, Chain_append] at hc
  simp only [Chain] at hc
  rw [← hpa] at hc
  refine ⟨z, by simpa [tag] using hc.2.2.2.1, by simpa [tag] using hc.2.2.2.2.1,
    hsz q nq z hq hz, ?_, ?_, ?_⟩
  · intro fuel n s1 p hin hm
    exact malloc_frame W fuel s bs n s1 p q z hW hI hin hm hz
  · intro p np hp hne
    obtain ⟨sz, hb⟩ := (hmem p).1 (List.mem_map.2 ⟨(p, np), hp, rfl⟩)
    exact free_frame W s bs p sz q z hW hI hb hz (Ne.symm hne)
  · intro fuel p np n s1 r hp hne hin hr
    exact realloc_frame W fuel s L bs p np n s1 r q nq z hW hL0 hp hq (Ne.symm hne) hz hin hr

/-! ## Requests close to `SIZE_MAX`: the content kept by `mm_realloc` -/

/-- Claim C4, evaluated at the failing input: after `a = mm_malloc(16);
x = mm_malloc(24); e = mm_malloc(8); mm_free(x); p = mm_malloc(SIZE_MAX - 14);
mm_free(a)` the live pointer `p = 4136` has a header of size 32 (the block
was left free, and `mm_free(a)` merged `a` with it), and the bytes at
`p + 8 .. p + 15` are 0.  `mm_realloc(p, 32)` takes the copy path: its
`mm_malloc(32)` places the new block at `q = 4112` inside the free block that
contains `p` and writes a footer and a header at 4144 and 4148, inside the
payload of `p`, before `memcpy` reads it.  After the call the bytes at
`q + 8` and `q + 12` are 41 and 16, within the first
`min(32, 32 - 8) = 24` bytes. -/
theorem huge_request_breaks_realloc_content :
    ((run_realloc_content 32).map fun r =>
      (r.2.2.1, r.2.2.2, GET_SIZE r.1.mem (HDRP r.2.2.1))) = some (4136, 4112, 32) ∧
    ((run_realloc_content 32).map fun r =>
      (r.1.mem (r.2.2.1 + 8), r.2.1.mem (r.2.2.2 + 8),
        r.1.mem (r.2.2.1 + 12), r.2.1.mem (r.2.2.2 + 12))) = some (0, 41, 0, 16) ∧
    ((run_realloc_content 64).map fun r =>
      (r.2.2.1, r.2.2.2, GET_SIZE r.1.mem (HDRP r.2.2.1))) = some (4136, 4112, 32) ∧
    ((run_realloc_content 64).map fun r =>
      (r.1.mem (r.2.2.1 + 8), r.2.1.mem (r.2.2.2 + 8),
        r.1.mem (r.2.2.1 + 12), r.2.1.mem (r.2.2.2 + 12))) = some (0, 41, 0, 16) := by
  decide!

/-- In every state reachable by requests below the overflow threshold, a live
pointer `p` has an allocated block of some size `sz`, and for every `n > 0`
the call `mm_realloc(p, n)` returns; whenever it returns a non-null `q`, the
first `min n (sz - 8)` bytes at `q` afterwards are the bytes that were at `p`
before. -/
theorem in_range_realloc_preserves (W : Nat) (s0 s : Heap) (L : List (Nat × Nat))
    (hW : 32 ≤ W) (hmax : s0.mem_max_addr < s0.mem_brk + 4294967296)
    (h : ReachIn W s0 s L) (p np : Nat) (hp : (p, np) ∈ L) :
    ∃ sz, GET s.mem (p - 4) = sz + 1 ∧ ∀ n, n ≠ 0 → n < 2 ^ W →
      (∃ fuel r, mm_realloc W fuel s p n = some r) ∧
      ∀ fuel s1 q, mm_realloc W fuel s p n = some (s1, q) → q ≠ NULL →
        ∀ i, i < min n (sz - 8) → s1.mem (q + i) = s.mem (p + i) := by
  obtain ⟨⟨bs, hI, _, hmem, _⟩, _, _⟩ := ReachIn_LiveInv W s0 s L hW hmax h
  obtain ⟨sz, hb⟩ := (hmem p).1 (List.mem_map.2 ⟨(p, np), hp, rfl⟩)
  have hbF := (BlockAt_prologue _ _ _ _).2 (Or.inr hb)
  obtain ⟨_, _, hh⟩ := BlockAt_size_pos _ _ _ _ _ _ hI.2.1 hbF
  refine ⟨sz, by simpa [tag] using hh, ?_⟩
  intro n hn hlt
  obtain ⟨s2, q2, hr2, hk⟩ := realloc_preserves W (((8, true) :: bs).length + 1) s bs p sz n hW
    hI hb hn hlt (by simp)
  refine ⟨⟨_, _, hr2⟩, ?_⟩
  intro fuel s1 q hr hq
  have := mm_realloc_fuel W fuel s ((8, true) :: bs) p n (s1, q) hI hr
  rw [hr2] at this
  simp only [Option.some.injEq, Prod.mk.injEq] at this
  obtain ⟨rfl, rfl⟩ := this
  exact hk hq

end MM
